import Mathlib

/-!
# wallet-service-structure: keystore, withdrawal review, broadcaster and sweeper

A shallow embedding of the Go sources

* `pkg/keystore/keystore.go` (EncryptMnemonic, DecryptMnemonic, parseHex, compareMAC),
* `internal/service/admin_service.go` (AdminService.ReviewWithdrawal),
* `internal/service/withdraw_service.go` (WithdrawService.CreateWithdrawal),
* `internal/service/broadcaster_service.go` and `cmd/broadcaster-worker/main.go`,
* `internal/service/sweeper_service.go` (SweeperService.sweepETH, handleDeposit),
* `internal/service/observer/eth_observer.go` (EthObserver.processTransaction) and
  `internal/model/outbox.go` (CreateOutboxMessage),
* `internal/service/relay_service.go` (RelayService.processPendingMessages),
* `internal/service/address_service.go` (NewSQLAddressService, GetDepositAddress),
* `pkg/utils/lock/redis_lock.go` (RedisLock),
* `pkg/bip32/wallet.go` (Wallet.DerivePath, BTCKeychain),
* `pkg/address/eth_generator.go` (ETHGenerator.PubKeyToAddress, toChecksumAddress),
* `cmd/wallet-cli/cmd/init.go` (initCmd) and `pkg/bip39/mnemonic.go` (GenerateMnemonic),
* `pkg/mpc/shamir_helper.go` (Split, Recover),
* `pkg/crypto_util/symmetric.go` (DecryptDES),

followed by the properties proved about them.

Conventions.  A Go `[]byte`, and a Go `string` that the code only ever converts to
and from `[]byte`, is a list of bytes.  A Go `string` that is read rune by rune
(the hex fields of the keystore) is a Lean `String`.  A Go `int` is a 64 bit integer:
its arithmetic wraps.  A Go `error` is a `GoError`; a function that can also panic
returns `Except Fault`.  Library code that is not part of the repository (scrypt,
AES-GCM, SHA-256, the extended keys, the chain client, transaction signing) is a
parameter of the embedding, and the properties state the contract they need of it.
The extended keys of the library behind `BTCKeychain` are modelled as BIP-32 defines
them, over a group of points whose base point, order and hash are taken as given.
The scanner and printer of package `fmt` are modelled for inputs below the size
limits of the libraries (the scanner reads at most 2^30 runes).  A pointer or
interface value that the code uses without a test for `nil` is not `nil`, and the
metrics of package `monitor` are initialised.
-/

namespace WalletCore

/-! ## Go values -/

/-- One byte. -/
abbrev Byte := Fin 256

/-- A Go byte slice. -/
abbrev Bytes := List Byte

/-- Ways in which `fmt.Sscanf(s, "%x", &b)` fails. -/
inductive ScanError where
  /-- the input ended before any operand text (`notEOF`) -/
  | eof
  /-- a newline in the leading white space (`SkipSpace` with `nlIsSpace == false`) -/
  | unexpectedNewline
  /-- the first rune after the white space is no hex digit (`hexString`) -/
  | noHexData
  /-- the input ended after the first digit of a pair (`mustReadRune`) -/
  | unexpectedEOF
  /-- the second rune of a pair is no hex digit (`hexByte`) -/
  | illegalHexDigit
  deriving DecidableEq, Repr

/-- A Go `error` value, by the way the code builds it. -/
inductive GoError where
  /-- `errors.New(msg)` -/
  | errorsNew (msg : String)
  /-- `fmt.Errorf(pfx + "%v", cause)` -/
  | fmtErrorf (pfx : String) (cause : GoError)
  /-- an error of `fmt.Sscanf` -/
  | scan (e : ScanError)
  /-- an error value handed back by library code, identified by its message -/
  | lib (msg : String)
  deriving DecidableEq, Repr

/-- The text of `err.Error()`; the wording of the `fmt` scanner is left to `scanMsg`. -/
def GoError.Error (scanMsg : ScanError → String) : GoError → String
  | .errorsNew msg => msg
  | .fmtErrorf pfx cause => pfx ++ cause.Error scanMsg
  | .scan e => scanMsg e
  | .lib msg => msg

/-- What ends a Go call abnormally: a returned error or a panic. -/
inductive Fault where
  | error (e : GoError)
  | panic (msg : String)
  deriving DecidableEq, Repr

/-! ## `fmt.Sprintf("%x", b)` and `fmt.Sscanf(s, "%x", &b)` -/

/-- The digit table of `fmt` for `%x`: `"0123456789abcdef"[n]`. -/
def ldigit (n : Nat) : Char :=
  if n < 10 then Char.ofNat (48 + n) else Char.ofNat (87 + n)

/-- The two lower-case digits `%x` prints for one byte. -/
def hexOfByte (b : Byte) : List Char :=
  [ldigit (b.val / 16), ldigit (b.val % 16)]

/-- The runes `fmt.Sprintf("%x", b)` prints for a byte slice (or byte array). -/
def hexChars : Bytes → List Char
  | [] => []
  | b :: bs => hexOfByte b ++ hexChars bs

/-- `fmt.Sprintf("%x", b)`. -/
def sprintfHex (b : Bytes) : String :=
  String.mk (hexChars b)

/-- `isSpace` of `fmt/scan.go`: the white space table of the scanner. -/
def isSpace (r : Char) : Bool :=
  let n := r.toNat
  (0x0009 ≤ n && n ≤ 0x000d) || n == 0x0020 || n == 0x0085 || n == 0x00a0 ||
  n == 0x1680 || (0x2000 ≤ n && n ≤ 0x200a) || n == 0x2028 || n == 0x2029 ||
  n == 0x202f || n == 0x205f || n == 0x3000

/-- `(*ss).SkipSpace` as `Sscanf` runs it (`nlIsSpace == false`): skip white space,
fail on a newline. -/
def skipSpace : List Char → Except ScanError (List Char)
  | [] => .ok []
  | r :: rest =>
    if r = '\n' then .error .unexpectedNewline
    else if isSpace r then skipSpace rest
    else .ok (r :: rest)

/-- `hexDigit` of `fmt/scan.go`. -/
def hexDigit (r : Char) : Option Nat :=
  let n := r.toNat
  if 48 ≤ n ∧ n ≤ 57 then some (n - 48)
  else if 97 ≤ n ∧ n ≤ 102 then some (10 + n - 97)
  else if 65 ≤ n ∧ n ≤ 70 then some (10 + n - 65)
  else none

/-- The loop of `(*ss).hexString`: read pairs of hex digits (`hexByte`) until a rune
that is no hex digit, or the end of the input. The rest of the input is not looked at. -/
def hexBytes : List Char → Except ScanError Bytes
  | [] => .ok []
  | r1 :: rest =>
    match hexDigit r1 with
    | none => .ok []
    | some v1 =>
      match rest with
      | [] => .error .unexpectedEOF
      | r2 :: rest2 =>
        match hexDigit r2 with
        | none => .error .illegalHexDigit
        | some v2 =>
          match hexBytes rest2 with
          | .error e => .error e
          | .ok bs => .ok (Fin.ofNat (v1 * 16 + v2) :: bs)

/-- `fmt.Sscanf(s, "%x", &b)` on the runes of `s`: `doScanf` skips white space,
`convertString` skips it again and wants input, `hexString` reads the pairs and
wants at least one. -/
def sscanfHex (s : List Char) : Except ScanError Bytes :=
  match skipSpace s with
  | .error e => .error e
  | .ok s1 =>
    match skipSpace s1 with
    | .error e => .error e
    | .ok [] => .error .eof
    | .ok s2 =>
      match hexBytes s2 with
      | .error e => .error e
      | .ok [] => .error .noHexData
      | .ok bs => .ok bs

/-- `parseHex` of keystore.go. -/
def parseHex (s : String) : Except ScanError Bytes :=
  sscanfHex s.data

/-- `compareMAC` of keystore.go: equal length, then byte by byte. -/
def compareMACLoop : Bytes → Bytes → Bool
  | x :: xs, y :: ys => if x ≠ y then false else compareMACLoop xs ys
  | _, _ => true

/-- `compareMAC` of keystore.go. -/
def compareMAC (a b : Bytes) : Bool :=
  if a.length ≠ b.length then false else compareMACLoop a b

/-! ## The entropy source -/

/-- `io.ReadFull(rand.Reader, buf)` with `len(buf) = n`: the entropy source is a tape;
a read that finds fewer than `n` bytes is a read error. Returns the buffer and the
rest of the tape. -/
def readFull (tape : Bytes) (n : Nat) : Except Fault (Bytes × Bytes) :=
  if n ≤ tape.length then .ok (tape.take n, tape.drop n)
  else if tape.length = 0 then .error (.error (.lib "EOF"))
  else .error (.error (.lib "unexpected EOF"))

/-- The buffer of `generateUUID` after `io.ReadFull(rand.Reader, b)` whose error is
dropped: the bytes that could be read, the rest still zero. -/
def uuidBuffer (tape : Bytes) : Bytes :=
  tape.take 16 ++ List.replicate (16 - (tape.take 16).length) 0

/-- `generateUUID` of keystore.go:
`fmt.Sprintf("%x-%x-%x-%x-%x", b[0:4], b[4:6], b[6:8], b[8:10], b[10:])`. -/
def generateUUID (tape : Bytes) : String :=
  let b := uuidBuffer tape
  String.mk (hexChars (b.take 4) ++ '-' :: hexChars ((b.drop 4).take 2) ++
    '-' :: hexChars ((b.drop 6).take 2) ++ '-' :: hexChars ((b.drop 8).take 2) ++
    '-' :: hexChars (b.drop 10))

/-! ## The cryptographic libraries -/

/-- The result of `sha256.Sum256`, a `[32]byte`. -/
abbrev Digest := { d : Bytes // d.length = 32 }

/-- The library calls of keystore.go that are not code of the repository. -/
structure CryptoLib where
  /-- `scrypt.Key(password, salt, N, r, p, keyLen)` -/
  scryptKey : Bytes → Bytes → Int → Int → Int → Int → Except Fault Bytes
  /-- `gcm.Seal(nil, nonce, plaintext, nil)` of the AES-GCM made from `key` -/
  gcmSeal : (key nonce plaintext : Bytes) → Bytes
  /-- `gcm.Open(nil, nonce, ciphertext, nil)` of the AES-GCM made from `key` -/
  gcmOpen : (key nonce ciphertext : Bytes) → Except Fault Bytes
  /-- `sha256.Sum256(data)` -/
  sha256Sum256 : Bytes → Digest

/-- `aes.NewCipher(key)`: the key sizes of AES-128, AES-192 and AES-256, anything
else is a `KeySizeError`. The block is represented by its key. -/
def aesNewCipher (key : Bytes) : Except Fault Bytes :=
  if key.length = 16 ∨ key.length = 24 ∨ key.length = 32 then .ok key
  else .error (.error (.lib ("crypto/aes: invalid key size " ++ toString key.length)))

/-- `gcm.NonceSize()` of the standard GCM. -/
def gcmNonceSize : Nat := 12

/-! ## keystore.go -/

structure CipherParams where
  IV : String
  deriving DecidableEq, Repr

structure KDFParams where
  DKLen : Int
  N : Int
  R : Int
  P : Int
  Salt : String
  deriving DecidableEq, Repr

structure CryptoJSON where
  Cipher : String
  CipherText : String
  CipherParams : CipherParams
  KDF : String
  KDFParams : KDFParams
  MAC : String
  deriving DecidableEq, Repr

structure EncryptedKeyJSON where
  Crypto : CryptoJSON
  Id : String
  Version : Int
  deriving DecidableEq, Repr

def scryptN : Int := 262144

def scryptR : Int := 8

def scryptP : Int := 1

def scryptDKLen : Int := 32

/-- `EncryptMnemonic` of keystore.go. `tape` is the entropy `rand.Reader` yields:
the salt, then the nonce, then the bytes of the UUID. -/
def EncryptMnemonic (L : CryptoLib) (tape : Bytes) (mnemonic password : Bytes) :
    Except Fault EncryptedKeyJSON :=
  match readFull tape 32 with
  | .error e => .error e
  | .ok (salt, tape1) =>
    match L.scryptKey password salt scryptN scryptR scryptP scryptDKLen with
    | .error e => .error e
    | .ok derivedKey =>
      match aesNewCipher derivedKey with
      | .error e => .error e
      | .ok block =>
        match readFull tape1 gcmNonceSize with
        | .error e => .error e
        | .ok (nonce, tape2) =>
          let ciphertext := L.gcmSeal block nonce mnemonic
          let mac := L.sha256Sum256 (derivedKey ++ ciphertext)
          .ok {
            Version := 3
            Id := generateUUID tape2
            Crypto := {
              Cipher := "aes-256-gcm"
              CipherText := sprintfHex ciphertext
              CipherParams := { IV := sprintfHex nonce }
              KDF := "scrypt"
              KDFParams := {
                DKLen := scryptDKLen
                N := scryptN
                R := scryptR
                P := scryptP
                Salt := sprintfHex salt }
              MAC := sprintfHex mac.val } }

/-- The error of `parseHex` wrapped by `fmt.Errorf(pfx + "%v", err)`. -/
def parseHexOr (pfx : String) (s : String) : Except Fault Bytes :=
  match parseHex s with
  | .error e => .error (.error (.fmtErrorf pfx (.scan e)))
  | .ok b => .ok b

/-- `DecryptMnemonic` of keystore.go. -/
def DecryptMnemonic (L : CryptoLib) (keyJSON : EncryptedKeyJSON) (password : Bytes) :
    Except Fault Bytes :=
  match parseHexOr "invalid salt: " keyJSON.Crypto.KDFParams.Salt with
  | .error e => .error e
  | .ok salt =>
  match parseHexOr "invalid iv: " keyJSON.Crypto.CipherParams.IV with
  | .error e => .error e
  | .ok nonce =>
  match parseHexOr "invalid ciphertext: " keyJSON.Crypto.CipherText with
  | .error e => .error e
  | .ok ciphertext =>
  match parseHexOr "invalid mac: " keyJSON.Crypto.MAC with
  | .error e => .error e
  | .ok mac =>
  match L.scryptKey password salt keyJSON.Crypto.KDFParams.N keyJSON.Crypto.KDFParams.R
      keyJSON.Crypto.KDFParams.P keyJSON.Crypto.KDFParams.DKLen with
  | .error e => .error e
  | .ok derivedKey =>
    let calculatedMAC := L.sha256Sum256 (derivedKey ++ ciphertext)
    if !compareMAC mac calculatedMAC.val then
      .error (.error (.errorsNew "invalid password or corrupted data (MAC mismatch)"))
    else
      match aesNewCipher derivedKey with
      | .error e => .error e
      | .ok block =>
        match L.gcmOpen block nonce ciphertext with
        | .error (.error err) => .error (.error (.fmtErrorf "decryption failed: " err))
        | .error (.panic msg) => .error (.panic msg)
        | .ok plaintext => .ok plaintext

/-! ## The database

A table is the list of its rows in the order in which a query without `ORDER BY`
returns them. The tables read with `First`, which orders by primary key, are kept in
primary key order: rows are appended with growing ids. The ORM's time stamps
(`CreatedAt`, `UpdatedAt`) are not modelled. The database answers every statement:
an error of a statement comes from the data (a column type, a unique index, a
missing row). -/

/-- The value of a Go `int` (64 bit) after an arithmetic result `x`: two's
complement wrap around. -/
def wrapInt64 (x : Int) : Int :=
  (x + 2 ^ 63) % 2 ^ 64 - 2 ^ 63

/-- `decimal.Decimal` of shopspring/decimal: `value * 10 ^ exp`. -/
structure Decimal where
  value : Int
  exp : Int
  deriving DecidableEq, Repr

/-- `model.Withdrawal` (transaction.go). -/
structure Withdrawal where
  ID : Nat
  UserID : Nat
  ToAddress : String
  Amount : Decimal
  Chain : String
  TxHash : String
  Status : String
  RequiredApprovals : Int
  CurrentApprovals : Int
  deriving DecidableEq, Repr

/-- `model.WithdrawalReview` (transaction.go); unique on `(WithdrawalID, AdminID)`. -/
structure WithdrawalReview where
  ID : Nat
  WithdrawalID : Nat
  AdminID : Nat
  Status : String
  Remark : String
  deriving DecidableEq, Repr

set_option linter.dupNamespace false in
/-- `model.Address` (transaction.go). -/
structure Address where
  ID : Nat
  UserID : Nat
  Chain : String
  Address : String
  HDPathIndex : Int
  deriving DecidableEq, Repr

/-- `model.Collection` (collection.go); unique on `DepositID` and on `TxHash`. -/
structure Collection where
  ID : Nat
  DepositID : Nat
  TxHash : String
  FromAddress : String
  ToAddress : String
  Amount : Decimal
  GasFee : Decimal
  Status : String
  deriving DecidableEq, Repr

/-- `model.Deposit` (transaction.go); unique on `TxHash`. -/
structure Deposit where
  ID : Nat
  UserID : Nat
  BlockAppID : Nat
  TxHash : String
  Amount : Decimal
  BlockHeight : Nat
  Status : String
  deriving DecidableEq, Repr

/-- `model.OutboxMessage` (models.go); `DeletedAt` is the soft delete mark of gorm,
`none` for a row that is not deleted. -/
structure OutboxMessage where
  ID : Nat
  Topic : String
  Payload : Bytes
  Status : String
  DeletedAt : Option Int
  deriving DecidableEq, Repr

/-- The tables the embedded services read and write. -/
structure DB where
  withdrawals : List Withdrawal
  reviews : List WithdrawalReview
  addresses : List Address
  collections : List Collection
  deposits : List Deposit
  outbox : List OutboxMessage
  deriving DecidableEq, Repr

/-- `db.Transaction(fn)` of gorm: commit what `fn` did, or roll back and hand on
its error. -/
def Transaction (db : DB) (fn : DB → Except GoError DB) : DB × Option GoError :=
  match fn db with
  | .ok db2 => (db2, none)
  | .error e => (db, some e)

/-- `tx.First(&w, "id = ?", id)` on the withdrawals; `id` is the number the text of
the path parameter denotes. -/
def First (db : DB) (id : Nat) : Except GoError Withdrawal :=
  match db.withdrawals.find? (fun w => w.ID = id) with
  | some w => .ok w
  | none => .error (.lib "record not found")

/-- `tx.Model(&model.WithdrawalReview{}).Where("withdrawal_id = ? AND admin_id = ?", ..).Count`. -/
def countReviews (db : DB) (withdrawalID adminID : Nat) : Nat :=
  (db.reviews.filter (fun r => r.WithdrawalID = withdrawalID ∧ r.AdminID = adminID)).length

/-- Storing `s` in a column `varchar(n)` of PostgreSQL: a longer string is an error,
unless only spaces are cut off. -/
def varchar (n : Nat) (s : String) : Except GoError String :=
  if s.length ≤ n then .ok s
  else if (s.data.drop n).all (fun c => c = ' ') then .ok (String.mk (s.data.take n))
  else .error (.lib ("value too long for type character varying(" ++ toString n ++ ")"))

/-- The integer nearest to `a / q`, ties away from zero (`q > 0`). -/
def roundHalfAway (a : Int) (q : Nat) : Int :=
  if a ≥ 0 then (a + q / 2) / q else -((-a + q / 2) / q)

/-- Storing `d` in a column `decimal(precision, scale)` of PostgreSQL: round to
`scale` fractional digits, refuse what needs more than `precision` digits. -/
def numeric (precision scale : Nat) (d : Decimal) : Except GoError Decimal :=
  let scaled : Int :=
    if d.exp + scale ≥ 0 then d.value * 10 ^ (d.exp + scale).toNat
    else roundHalfAway d.value (10 ^ (-(d.exp + scale)).toNat)
  if scaled.natAbs ≥ 10 ^ precision then .error (.lib "numeric field overflow")
  else .ok { value := scaled, exp := -scale }

/-- The id an `autoIncrement` primary key gets: above every id of the table. -/
def nextID (ids : List Nat) : Nat :=
  ids.foldl max 0 + 1

/-- `tx.Create(&review)`: the column `status` is a `varchar(16)`, the unique index
on `(withdrawal_id, admin_id)` refuses a second row of the pair. -/
def CreateReview (db : DB) (review : WithdrawalReview) : Except GoError DB :=
  match varchar 16 review.Status with
  | .error e => .error e
  | .ok status =>
    if countReviews db review.WithdrawalID review.AdminID > 0 then
      .error (.lib "duplicate key value violates unique constraint \"idx_withdrawal_admin\"")
    else
      .ok { db with
        reviews := db.reviews ++
          [{ review with ID := nextID (db.reviews.map (fun r => r.ID)), Status := status }] }

/-- `tx.Save(&w)`: update the row with the primary key of `w`, insert `w` when there
is none. -/
def Save (db : DB) (w : Withdrawal) : DB :=
  if db.withdrawals.any (fun x => x.ID = w.ID) then
    { db with withdrawals := db.withdrawals.map (fun x => if x.ID = w.ID then w else x) }
  else
    { db with withdrawals := db.withdrawals ++ [w] }

/-! ## withdraw_service.go and admin_service.go -/

/-- What the columns of `withdrawals` keep of `req`: `to_address varchar(255)`,
`amount decimal(32,18)`, `chain varchar(20)`, `tx_hash varchar(255)`,
`status varchar(32)`. -/
def withdrawalColumns (req : Withdrawal) : Except GoError Withdrawal :=
  match varchar 255 req.ToAddress with
  | .error e => .error e
  | .ok toAddress =>
  match numeric 32 18 req.Amount with
  | .error e => .error e
  | .ok amount =>
  match varchar 20 req.Chain with
  | .error e => .error e
  | .ok chain =>
  match varchar 255 req.TxHash with
  | .error e => .error e
  | .ok txHash =>
  match varchar 32 req.Status with
  | .error e => .error e
  | .ok status =>
    .ok { req with
      ToAddress := toAddress, Amount := amount, Chain := chain, TxHash := txHash,
      Status := status }

/-- `tx.Create(req)` on the withdrawals: a zero `ID` is filled in by the database, a
given one must be free. Returns the database and the id of the new row. -/
def CreateWithdrawalRow (db : DB) (req : Withdrawal) : Except GoError (DB × Nat) :=
  match withdrawalColumns req with
  | .error e => .error e
  | .ok row =>
    if req.ID = 0 then
      let id := nextID (db.withdrawals.map (fun w => w.ID))
      .ok ({ db with withdrawals := db.withdrawals ++ [{ row with ID := id }] }, id)
    else if db.withdrawals.any (fun w => w.ID = req.ID) then
      .error (.lib "duplicate key value violates unique constraint \"withdrawals_pkey\"")
    else
      .ok ({ db with withdrawals := db.withdrawals ++ [row] }, req.ID)

/-- `WithdrawService.CreateWithdrawal`: returns the database, the request as the
caller sees it afterwards, and the error. The parameter `userID` is not used by the
code. -/
def CreateWithdrawal (db : DB) (_userID : Nat) (req : Withdrawal) :
    DB × Withdrawal × Option GoError :=
  let req1 := { req with
    Status := "pending_review", RequiredApprovals := 2, CurrentApprovals := 0 }
  match CreateWithdrawalRow db req1 with
  | .error e => (db, req1, some e)
  | .ok (db2, id) => (db2, { req1 with ID := id }, none)

/-- Step 4 of `ReviewWithdrawal`: what the action does to the loaded withdrawal. -/
def applyAction (w : Withdrawal) (action : String) : Withdrawal :=
  if action = "approve" then
    let w1 := { w with CurrentApprovals := wrapInt64 (w.CurrentApprovals + 1) }
    if w1.CurrentApprovals ≥ w1.RequiredApprovals then
      { w1 with Status := "pending_broadcast" }
    else w1
  else if action = "reject" then
    { w with Status := "rejected" }
  else w

/-- The function `ReviewWithdrawal` runs inside the transaction. -/
def reviewWithdrawalTx (txID adminID : Nat) (action remark : String) (tx : DB) :
    Except GoError DB :=
  match First tx txID with
  | .error e => .error e
  | .ok w =>
    if w.Status ≠ "pending_review" then
      .error (.errorsNew "withdrawal is not in pending_review state")
    else if countReviews tx w.ID adminID > 0 then
      .error (.errorsNew "admin has already reviewed this withdrawal")
    else
      let w2 := applyAction w action
      let review : WithdrawalReview :=
        { ID := 0, WithdrawalID := w2.ID, AdminID := adminID, Status := action,
          Remark := remark }
      match CreateReview tx review with
      | .error e => .error e
      | .ok tx2 => .ok (Save tx2 w2)

/-- `AdminService.ReviewWithdrawal`: the database afterwards and the error returned. -/
def ReviewWithdrawal (db : DB) (txID adminID : Nat) (action remark : String) :
    DB × Option GoError :=
  Transaction db (reviewWithdrawalTx txID adminID action remark)

/-- The error of a review of a withdrawal that is not in `pending_review`. -/
def errNotPending : GoError :=
  .errorsNew "withdrawal is not in pending_review state"

/-- The error of a second review by the same admin. -/
def errAlreadyReviewed : GoError :=
  .errorsNew "admin has already reviewed this withdrawal"

/-- The database after a successful review of `w` by `adminID`: the review row is
appended and the withdrawal saved. -/
def reviewed (db : DB) (w : Withdrawal) (adminID : Nat) (action status remark : String) : DB :=
  Save { db with reviews := db.reviews ++
      [{ ID := nextID (db.reviews.map (fun r => r.ID)), WithdrawalID := w.ID,
         AdminID := adminID, Status := status, Remark := remark }] }
    (applyAction w action)

/-- One call of `ReviewWithdrawal`. -/
structure ReviewCall where
  txID : Nat
  adminID : Nat
  action : String
  remark : String
  deriving DecidableEq, Repr

/-- The database after a sequence of `ReviewWithdrawal` calls, failed ones included. -/
def runReviews (db : DB) : List ReviewCall → DB
  | [] => db
  | c :: cs => runReviews (ReviewWithdrawal db c.txID c.adminID c.action c.remark).1 cs

/-! ## broadcaster_service.go and cmd/broadcaster-worker/main.go -/

/-- `fmt.Sprintf("0xmocked_tx_hash_%d_%d", w.ID, time.Now().Unix())`. -/
def mockedTxHash (id : Nat) (now : Int) : String :=
  "0xmocked_tx_hash_" ++ toString id ++ "_" ++ toString now

/-- `BroadcasterService.broadcastOne` at clock reading `now`: `deriveHotWalletKey`
never fails, the broadcast is simulated, the row is saved as completed. -/
def broadcastOne (db : DB) (w : Withdrawal) (now : Int) : DB :=
  Save db { w with Status := "completed", TxHash := mockedTxHash w.ID now }

/-- The loop of `processPendingWithdrawals`; iteration `i` reads the clock as `clock i`. -/
def broadcastAll (clock : Nat → Int) : DB → Nat → List Withdrawal → DB
  | db, _, [] => db
  | db, i, w :: ws => broadcastAll clock (broadcastOne db w (clock i)) (i + 1) ws

/-- `BroadcasterService.processPendingWithdrawals`: the database afterwards and the
withdrawals handed to `broadcastOne`, in order. -/
def processPendingWithdrawals (db : DB) (clock : Nat → Int) : DB × List Withdrawal :=
  let withdrawals := (db.withdrawals.filter (fun w => w.Status = "pending_broadcast")).take 10
  (broadcastAll clock db 0 withdrawals, withdrawals)

/-- `event.WithdrawalCreatedEvent` (events.go). -/
structure WithdrawalCreatedEvent where
  WithdrawalID : Nat
  UserID : Nat
  ToAddress : String
  Amount : String
  Chain : String
  deriving DecidableEq, Repr

/-- `BroadcasterWorker.broadcast` at clock reading `now` (nanoseconds): the broadcast
is simulated, the rows with the id of `tx` are updated, the error of the update is
dropped. -/
def broadcast (db : DB) (tx : Withdrawal) (now : Int) : DB :=
  { db with withdrawals := db.withdrawals.map (fun x =>
      if x.ID = tx.ID then
        { x with Status := "completed", TxHash := "0x_kafka_broadcast_" ++ toString now }
      else x) }

/-- `BroadcasterWorker.HandleWithdrawalEvent`. `decoded` is what `json.Unmarshal`
made of the payload, `NewFromString` is `decimal.NewFromString`. Returns the database
afterwards, the withdrawals handed to `broadcast`, and the error. -/
def HandleWithdrawalEvent (NewFromString : String → Except GoError Decimal) (db : DB)
    (decoded : Except GoError WithdrawalCreatedEvent) (now : Int) :
    DB × List Withdrawal × Option GoError :=
  match decoded with
  | .error _ => (db, [], none)
  | .ok eventData =>
    let tx : Withdrawal :=
      match First db eventData.WithdrawalID with
      | .ok w => w
      | .error _ =>
        let amount :=
          match NewFromString eventData.Amount with
          | .ok d => d
          | .error _ => { value := 0, exp := 0 }
        { ID := eventData.WithdrawalID, UserID := eventData.UserID,
          ToAddress := eventData.ToAddress, Amount := amount, Chain := eventData.Chain,
          TxHash := "", Status := "pending", RequiredApprovals := 0, CurrentApprovals := 0 }
    if tx.Status ≠ "pending" ∧ tx.Status ≠ "pending_broadcast" then (db, [], none)
    else (broadcast db tx now, [tx], none)

/-! ## sweeper_service.go -/

/-- `decimal.New(value, exp)`. -/
def Decimal.New (value exp : Int) : Decimal :=
  { value := value, exp := exp }

/-- `d.Mul(d2)` of shopspring/decimal: panics when the exponent leaves `int32`. -/
def Decimal.Mul (d d2 : Decimal) : Except Fault Decimal :=
  if d.exp + d2.exp > 2147483647 ∨ d.exp + d2.exp < -2147483648 then
    .error (.panic ("exponent " ++ toString (d.exp + d2.exp) ++ " overflows an int32!"))
  else .ok { value := d.value * d2.value, exp := d.exp + d2.exp }

/-- `d.BigInt()` of shopspring/decimal: rescale to exponent 0, the quotient
truncated toward zero. -/
def Decimal.BigInt (d : Decimal) : Int :=
  if d.exp ≥ 0 then d.value * 10 ^ d.exp.toNat
  else d.value.tdiv (10 ^ (-d.exp).toNat)

/-- The interface `bip32.ExtendedKey` (interface.go) over keys of type `K`. -/
structure KeyOps (K : Type) where
  ECPubKey : K → Except GoError Bytes
  ECPrivKey : K → Except GoError Bytes
  Derive : K → Nat → Except GoError K
  IsPrivate : K → Bool
  Address : K → String
  Neuter : K → Except GoError K
  String : K → String

/-- The transaction `types.NewTransaction(nonce, to, amount, gasLimit, gasPrice, data)`. -/
structure LegacyTx where
  Nonce : Nat
  To : Bytes
  Value : Int
  Gas : Nat
  GasPrice : Int
  Data : Bytes
  deriving DecidableEq, Repr

/-- A transaction with its signature. -/
structure SignedTx where
  tx : LegacyTx
  sig : Bytes
  deriving DecidableEq, Repr

/-- The calls on `ethclient.Client` that `sweepETH` makes. -/
structure EthClient where
  BalanceAt : Bytes → Except GoError Int
  PendingNonceAt : Bytes → Except GoError Nat
  SuggestGasPrice : Except GoError Int
  SendTransaction : SignedTx → Option GoError

/-- Library calls of the sweeper that are not code of the repository. -/
structure ChainLib where
  /-- `common.HexToAddress` -/
  HexToAddress : String → Bytes
  /-- `common.Address.Hex` -/
  AddressHex : Bytes → String
  /-- `types.SignTx(tx, types.NewEIP155Signer(chainID), key)`: the signature -/
  SignTx : LegacyTx → Int → Bytes → Except GoError Bytes
  /-- `signedTx.Hash().Hex()` -/
  TxHashHex : SignedTx → String
  /-- `decimal.NewFromString` -/
  NewFromString : String → Except GoError Decimal

/-- `DepositEvent` (sweeper_service.go). -/
structure DepositEvent where
  UserID : Nat
  Amount : String
  TxHash : String
  Chain : String
  deriving DecidableEq, Repr

/-- The fields of `SweeperService` that `sweepETH` reads; `ethClient` is `none` in
simulated mode. -/
structure SweeperService (K : Type) where
  ethClient : Option EthClient
  masterKey : K
  chainID : Int
  hotWalletAddr : Bytes

/-- What `sweepETH` acts on: the database and the transactions handed to
`SendTransaction`. -/
structure World where
  db : DB
  sent : List SignedTx

/-- What the columns of the collections keep of `c`: `tx_hash varchar(66)`,
`from_address`, `to_address varchar(42)`, `amount`, `gas_fee decimal(30,0)`,
`status varchar(20)`. -/
def collectionColumns (c : Collection) : Except GoError Collection :=
  match varchar 66 c.TxHash with
  | .error e => .error e
  | .ok txHash =>
  match varchar 42 c.FromAddress with
  | .error e => .error e
  | .ok fromAddress =>
  match varchar 42 c.ToAddress with
  | .error e => .error e
  | .ok toAddress =>
  match numeric 30 0 c.Amount with
  | .error e => .error e
  | .ok amount =>
  match numeric 30 0 c.GasFee with
  | .error e => .error e
  | .ok gasFee =>
  match varchar 20 c.Status with
  | .error e => .error e
  | .ok status =>
    .ok { c with
      TxHash := txHash, FromAddress := fromAddress, ToAddress := toAddress,
      Amount := amount, GasFee := gasFee, Status := status }

/-- `s.db.Create(&collection)`: the columns and the unique indexes on `deposit_id`
and `tx_hash` can refuse the row. -/
def CreateCollection (db : DB) (c : Collection) : Except GoError DB :=
  match collectionColumns c with
  | .error e => .error e
  | .ok row =>
    if db.collections.any (fun x => x.DepositID = row.DepositID ∨ x.TxHash = row.TxHash) then
      .error (.lib "duplicate key value violates unique constraint")
    else
      .ok { db with collections :=
        db.collections ++ [{ row with ID := nextID (db.collections.map (fun x => x.ID)) }] }

/-- Part C of `sweepETH`: balance, nonce and gas price, from the chain when there is
a client (a failing `SuggestGasPrice` keeps the default of 20 Gwei), else simulated
from the amount of the event (an amount that does not parse counts as zero). -/
def chainState {K : Type} (C : ChainLib) (s : SweeperService K) (addr : Address)
    (event : DepositEvent) : Except Fault (Int × Nat × Int) :=
  match s.ethClient with
  | some client =>
    let fromAddr := C.HexToAddress addr.Address
    match client.BalanceAt fromAddr with
    | .error e => .error (.error e)
    | .ok bal =>
      match client.PendingNonceAt fromAddr with
      | .error e => .error (.error e)
      | .ok n =>
        match client.SuggestGasPrice with
        | .ok gp => .ok (bal, n, gp)
        | .error _ => .ok (bal, n, 20000000000)
  | none =>
    let amountDecimal : Decimal :=
      match C.NewFromString event.Amount with
      | .ok d => d
      | .error _ => { value := 0, exp := 0 }
    match amountDecimal.Mul (Decimal.New 1 18) with
    | .error f => .error f
    | .ok d => .ok (d.BigInt, 0, 20000000000)

/-- Part A of `sweepETH`: the first address row of the user on chain "ETH". -/
def depositAddress (db : DB) (event : DepositEvent) : Option Address :=
  db.addresses.find? (fun a => a.UserID = event.UserID ∧ a.Chain = "ETH")

/-- `SweeperService.sweepETH`: the world afterwards and how the call ended (`none`
for a `nil` error). -/
def sweepETH {K : Type} (C : ChainLib) (ops : KeyOps K) (s : SweeperService K)
    (st : World) (event : DepositEvent) : World × Option Fault :=
  -- A. the deposit address of the user
  match depositAddress st.db event with
  | none => (st, some (.error (.fmtErrorf "找不到用户地址: " (.lib "record not found"))))
  | some addr =>
  -- B. the private key at m/0/index; the index is converted to uint32
  match ops.Derive s.masterKey 0 with
  | .error e => (st, some (.error e))
  | .ok chainKey =>
  match ops.Derive chainKey (addr.HDPathIndex % 2 ^ 32).toNat with
  | .error e => (st, some (.error e))
  | .ok childKey =>
  match ops.ECPrivKey childKey with
  | .error e => (st, some (.error e))
  | .ok privKey =>
  -- C. balance, nonce and gas price
  match chainState C s addr event with
  | .error f => (st, some f)
  | .ok (balanceWei, nonce, gasPrice) =>
  -- D. the amount to sweep
  let gasLimit : Nat := 21000
  let gasFee : Int := (gasLimit : Int) * gasPrice
  if balanceWei ≤ gasFee then (st, none)
  else
    let sweepAmount := balanceWei - gasFee
    -- E. build and sign
    let tx : LegacyTx :=
      { Nonce := nonce, To := s.hotWalletAddr, Value := sweepAmount, Gas := gasLimit,
        GasPrice := gasPrice, Data := [] }
    match C.SignTx tx s.chainID privKey with
    | .error e => (st, some (.error (.fmtErrorf "签名失败: " e)))
    | .ok sig =>
      let signedTx : SignedTx := { tx := tx, sig := sig }
      -- F. broadcast
      let sendResult : World × Option GoError :=
        match s.ethClient with
        | some client =>
          ({ st with sent := st.sent ++ [signedTx] }, client.SendTransaction signedTx)
        | none => (st, none)
      match sendResult with
      | (st1, some e) => (st1, some (.error e))
      | (st1, none) =>
        -- G. record the collection; the error of `Create` is dropped
        let collection : Collection :=
          { ID := 0, DepositID := 0, TxHash := C.TxHashHex signedTx,
            FromAddress := addr.Address, ToAddress := C.AddressHex s.hotWalletAddr,
            Amount := { value := sweepAmount, exp := 0 },
            GasFee := { value := gasFee, exp := 0 }, Status := "pending" }
        match CreateCollection st1.db collection with
        | .error _ => (st1, none)
        | .ok db2 => ({ st1 with db := db2 }, none)

/-! ## Redis

The keys the services use hold integers: `SET key "1" NX` of the lock and the
counters of `INCR`. A key does not expire within the runs described here (the lock
is set with a time to live of ten minutes). -/

/-- The Redis server the services talk to: whether it can be reached, and its keys. -/
structure Redis where
  reachable : Bool
  keys : List (String × Int)
  deriving DecidableEq, Repr

/-- The value stored under `key`. -/
def Redis.get (r : Redis) (key : String) : Option Int :=
  (r.keys.find? (fun kv => kv.1 = key)).map (fun kv => kv.2)

/-- The server with `key` set to `value`. -/
def Redis.set (r : Redis) (key : String) (value : Int) : Redis :=
  { r with keys := (key, value) :: r.keys.filter (fun kv => kv.1 ≠ key) }

/-- `client.SetNX(ctx, key, "1", ttl).Result()`: set the key if it is absent. -/
def SetNX (r : Redis) (key : String) : Except GoError (Redis × Bool) :=
  if r.reachable then
    match r.get key with
    | some _ => .ok (r, false)
    | none => .ok (r.set key 1, true)
  else .error (.lib "dial tcp: connection refused")

/-- `client.Del(ctx, key)`, its error ignored. -/
def Del (r : Redis) (key : String) : Redis :=
  if r.reachable then { r with keys := r.keys.filter (fun kv => kv.1 ≠ key) } else r

/-- `client.Incr(ctx, key).Result()`: an absent key counts as 0; the server refuses
to leave the 64 bit integers. -/
def Incr (r : Redis) (key : String) : Except GoError (Redis × Int) :=
  if r.reachable then
    let old : Int := (r.get key).getD 0
    if old + 1 > 9223372036854775807 then
      .error (.lib "ERR increment or decrement would overflow")
    else .ok (r.set key (old + 1), old + 1)
  else .error (.lib "dial tcp: connection refused")

/-- `RedisLock.Acquire` (redis_lock.go). -/
def Acquire (r : Redis) (key : String) : Except GoError (Redis × Bool) :=
  match SetNX r ("lock:" ++ key) with
  | .error e => .error e
  | .ok (r2, success) => .ok (r2, success)

/-- `RedisLock.Release` (redis_lock.go), its error ignored by the caller. -/
def Release (r : Redis) (key : String) : Redis :=
  Del r ("lock:" ++ key)

/-! ## sweeper_service.go: handleDeposit -/

/-- Whether `Counter.Add(amountFloat)` of the metric gets a negative number and
panics: the amount is below zero and its `float64` is not `-0`, that is, its size is
above 2^-1075. -/
def negativeFloat (d : Decimal) : Bool :=
  decide (d.value < 0) &&
    (decide (d.exp ≥ 0) || decide (d.value.natAbs * 2 ^ 1075 > 10 ^ (-d.exp).toNat))

/-- `SweeperService.handleDeposit`; `decoded` is what `json.Unmarshal` makes of the
payload of the message. The lock is released when the call ends, however it ends
after the lock was taken. -/
def handleDeposit {K : Type} (C : ChainLib) (ops : KeyOps K) (s : SweeperService K)
    (st : World) (redis : Redis) (decoded : Except GoError DepositEvent) :
    World × Redis × Option Fault :=
  -- 1. parse the message
  match decoded with
  | .error _ => (st, redis, none)
  | .ok event =>
  if event.Chain ≠ "ETH" then (st, redis, none)
  else
  -- the metric of the deposited amount
  let metric : Option Fault :=
    match C.NewFromString event.Amount with
    | .ok amountVal =>
      if negativeFloat amountVal then some (.panic "counter cannot decrease in value")
      else none
    | .error _ => none
  match metric with
  | some f => (st, redis, some f)
  | none =>
  -- 2. the distributed lock
  let lockKey := "sweeper:deposit:" ++ event.TxHash
  match Acquire redis lockKey with
  | .error e => (st, redis, some (.error e))
  | .ok (redis1, locked) =>
  if !locked then (st, redis1, none)
  else
    -- 3. the check against a second sweep
    let count := (st.db.collections.filter (fun c => c.TxHash = event.TxHash)).length
    if count > 0 then (st, Release redis1 lockKey, none)
    else
      -- 4. sweep
      let (st2, result) := sweepETH C ops s st event
      (st2, Release redis1 lockKey, result)

/-! ## eth_observer.go and outbox.go -/

/-- `observer.Transaction` (interface.go). -/
structure observer.Transaction where
  Hash : String
  From : String
  To : String
  Value : String
  Status : Int
  deriving DecidableEq, Repr

/-- Library calls of the observer that are not code of the repository. -/
structure ObserverLib where
  /-- `decimal.NewFromString`, on whose error `decimal.RequireFromString` panics -/
  NewFromString : String → Except GoError Decimal
  /-- `decimal.Decimal.String` -/
  DecimalString : Decimal → String
  /-- `json.Marshal` of the map with the keys `user_id`, `amount`, `tx_hash`, `chain` -/
  Marshal : Nat → String → String → String → Except GoError Bytes

/-- `dbTx.Create(&deposit)`: the columns `tx_hash varchar(255)`, `amount
decimal(32,18)`, `status varchar(20)` and the unique index on `tx_hash` can refuse
the row. -/
def CreateDeposit (db : DB) (d : Deposit) : Except GoError DB :=
  match varchar 255 d.TxHash with
  | .error e => .error e
  | .ok txHash =>
  match numeric 32 18 d.Amount with
  | .error e => .error e
  | .ok amount =>
  match varchar 20 d.Status with
  | .error e => .error e
  | .ok status =>
    if db.deposits.any (fun x => x.TxHash = txHash) then
      .error (.lib "duplicate key value violates unique constraint")
    else
      .ok { db with deposits :=
        db.deposits ++ [{ d with
          ID := nextID (db.deposits.map (fun x => x.ID)),
          TxHash := txHash, Amount := amount, Status := status }] }

/-- `tx.Create(&msg)` on the outbox: the columns `topic varchar(255)` and `status
varchar(50)` can refuse the row. -/
def CreateOutbox (db : DB) (m : OutboxMessage) : Except GoError DB :=
  match varchar 255 m.Topic with
  | .error e => .error e
  | .ok topic =>
  match varchar 50 m.Status with
  | .error e => .error e
  | .ok status =>
    .ok { db with outbox :=
      db.outbox ++ [{ m with
        ID := nextID (db.outbox.map (fun x => x.ID)), Topic := topic, Status := status }] }

/-- `model.CreateOutboxMessage` (outbox.go); `payloadBytes` is the result of
`json.Marshal(payload)`. -/
def CreateOutboxMessage (db : DB) (topic : String) (payloadBytes : Except GoError Bytes) :
    Except GoError DB :=
  match payloadBytes with
  | .error e => .error e
  | .ok bytes =>
    CreateOutbox db { ID := 0, Topic := topic, Payload := bytes, Status := "PENDING",
                      DeletedAt := none }

/-- `EthObserver.processTransaction`: the database afterwards, and the error it logs
or the panic it ends with (`none` when it logs no error). `currentHeight` is the
field `o.currentHeight` at the time of the call. A panic inside `db.Transaction`
rolls the transaction back. -/
def processTransaction (L : ObserverLib) (db : DB) (currentHeight : Nat)
    (tx : observer.Transaction) : DB × Option Fault :=
  -- 1. is `To` one of our ETH addresses
  let count := (db.addresses.filter (fun a => a.Address = tx.To ∧ a.Chain = "ETH")).length
  if count > 0 then
    -- 3. the transaction
    match L.NewFromString tx.Value with
    | .error e => (db, some (.panic (e.Error (fun _ => ""))))
    | .ok amount =>
      let result := Transaction db (fun dbTx =>
        -- A. the deposit
        let deposit : Deposit :=
          { ID := 0, UserID := 1, BlockAppID := 0, TxHash := tx.Hash, Amount := amount,
            BlockHeight := currentHeight, Status := "confirmed" }
        let addr : Address :=
          match dbTx.addresses.find? (fun a => a.Address = tx.To) with
          | some a => a
          | none => { ID := 0, UserID := 0, Chain := "", Address := "", HDPathIndex := 0 }
        let deposit := { deposit with UserID := addr.UserID, BlockAppID := addr.ID }
        match CreateDeposit dbTx deposit with
        | .error e => .error e
        | .ok dbTx1 =>
          -- B. the outbox message
          CreateOutboxMessage dbTx1 "wallet_events_deposit"
            (L.Marshal deposit.UserID (L.DecimalString deposit.Amount) deposit.TxHash "ETH"))
      match result with
      | (db2, some e) => (db2, some (.error e))
      | (db2, none) => (db2, none)
  else (db, none)

/-- `processTransaction` run `k` times on the same transaction. -/
def processTransactionTimes (L : ObserverLib) (currentHeight : Nat)
    (tx : observer.Transaction) : Nat → DB → DB
  | 0, db => db
  | k + 1, db =>
    processTransactionTimes L currentHeight tx k (processTransaction L db currentHeight tx).1

/-! ## relay_service.go -/

/-- The interface `mq.Producer` over a message bus with states of type `σ`. -/
structure Producer (σ : Type) where
  Publish : σ → String → String → Bytes → σ × Option GoError

/-- One call of `Publish`: the outbox row it was made for, its arguments and its
result (`none` for a `nil` error). -/
structure Published where
  msg : OutboxMessage
  topic : String
  key : String
  payload : Bytes
  result : Option GoError
  deriving DecidableEq, Repr

/-- `s.db.Where("status = ?", "PENDING").Limit(50).Find(&messages)`: the query has no
`ORDER BY`; rows marked as deleted are left out. -/
def FindPending (db : DB) : List OutboxMessage :=
  (db.outbox.filter (fun m => m.Status = "PENDING" ∧ m.DeletedAt = none)).take 50

/-- `s.db.Model(&msg).Update("status", status)`, its error only logged: the rows
with the primary key of `msg` that are not marked as deleted; gorm refuses an update
without a primary key (`ErrMissingWhereClause`). -/
def UpdateStatus (db : DB) (msg : OutboxMessage) (status : String) : DB :=
  if msg.ID = 0 then db
  else
    match varchar 50 status with
    | .error _ => db
    | .ok stored =>
      { db with
        outbox := db.outbox.map (fun r =>
          if r.ID = msg.ID ∧ r.DeletedAt = none then { r with Status := stored } else r) }

/-- The loop of `processPendingMessages` over the messages found: the database and
the bus afterwards, and the calls of `Publish` in the order they were made. -/
def relayMessages {σ : Type} (P : Producer σ) : DB → σ → List OutboxMessage →
    DB × σ × List Published
  | db, bus, [] => (db, bus, [])
  | db, bus, msg :: rest =>
    -- 2. publish
    let key := ""
    let (bus1, err) := P.Publish bus msg.Topic key msg.Payload
    let call : Published :=
      { msg := msg, topic := msg.Topic, key := key, payload := msg.Payload, result := err }
    match err with
    | some _ =>
      let (db2, bus2, calls) := relayMessages P db bus1 rest
      (db2, bus2, call :: calls)
    | none =>
      -- 3. mark as sent
      let (db2, bus2, calls) := relayMessages P (UpdateStatus db msg "SENT") bus1 rest
      (db2, bus2, call :: calls)

/-- `RelayService.processPendingMessages`. -/
def processPendingMessages {σ : Type} (P : Producer σ) (db : DB) (bus : σ) :
    DB × σ × List Published :=
  -- 1. a batch of pending messages
  let messages := FindPending db
  if messages.length = 0 then (db, bus, [])
  else relayMessages P db bus messages

/-! ## address_service.go -/

/-- The field of `chaincfg.Params` the service reads. -/
structure chaincfg.Params where
  Name : String
  deriving DecidableEq, Repr

/-- Code outside the service that it calls: the serialisations of a public key
(btcec) and the address generators of `pkg/address`, taken here as given functions. -/
structure AddressLib where
  /-- `ecPubKey.SerializeCompressed()` -/
  SerializeCompressed : Bytes → Bytes
  /-- `ecPubKey.SerializeUncompressed()` -/
  SerializeUncompressed : Bytes → Bytes
  /-- `address.NewBTCGenerator(network).PubKeyToAddress` -/
  BTCPubKeyToAddress : chaincfg.Params → Bytes → Except GoError String
  /-- `address.NewETHGenerator().PubKeyToAddress` -/
  ETHPubKeyToAddress : Bytes → Except GoError String

/-- The fields of `SQLAddressService` that `GetDepositAddress` reads; the database
and the Redis server are passed to the calls. -/
structure SQLAddressService (K : Type) where
  masterKey : K
  btcGen : Bytes → Except GoError String
  ethGen : Bytes → Except GoError String
  networkType : String

/-- `NewSQLAddressService`; the pointers it is given are not `nil`. -/
def NewSQLAddressService {K : Type} (L : AddressLib) (ops : KeyOps K) (masterKey : K)
    (network : chaincfg.Params) : Except GoError (SQLAddressService K) :=
  if ops.IsPrivate masterKey then
    .error (.errorsNew "AddressService 应该只持有扩展公钥 (xpub)，不应持有私钥")
  else
    .ok { masterKey := masterKey, btcGen := L.BTCPubKeyToAddress network,
          ethGen := L.ETHPubKeyToAddress, networkType := network.Name }

/-- `s.db.Create(&newAddr)`: the columns `chain varchar(20)`, `address varchar(255)`
and the unique indexes on `(chain, address)` and `(chain, hd_path_index)` can refuse
the row. -/
def CreateAddress (db : DB) (a : Address) : Except GoError DB :=
  match varchar 20 a.Chain with
  | .error e => .error e
  | .ok chain =>
  match varchar 255 a.Address with
  | .error e => .error e
  | .ok address =>
    if db.addresses.any (fun x =>
        x.Chain = chain ∧ (x.Address = address ∨ x.HDPathIndex = a.HDPathIndex)) then
      .error (.lib "duplicate key value violates unique constraint")
    else
      .ok { db with addresses :=
        db.addresses ++ [{ a with
          ID := nextID (db.addresses.map (fun x => x.ID)), Chain := chain, Address := address }] }

/-- `SQLAddressService.GetDepositAddress`: the database and the Redis server
afterwards, and the address with its path index, or the error. -/
def GetDepositAddress {K : Type} (L : AddressLib) (ops : KeyOps K) (s : SQLAddressService K)
    (db : DB) (redis : Redis) (uid : Nat) (chain : String) :
    DB × Redis × Except GoError (String × Int) :=
  -- 1. look for an address of the user on the chain
  match db.addresses.find? (fun a => a.UserID = uid ∧ a.Chain = chain) with
  | some existingAddr => (db, redis, .ok (existingAddr.Address, existingAddr.HDPathIndex))
  | none =>
  -- 2. the next path index
  let redisKey := "wallet:hd_index:" ++ chain
  match Incr redis redisKey with
  | .error e => (db, redis, .error (.fmtErrorf "Redis INCR 失败: " e))
  | .ok (redis1, index) =>
  let hdPathIndex : Int := index
  -- 3. derive the key at 0/index; the index is converted to uint32
  match ops.Derive s.masterKey 0 with
  | .error e => (db, redis1, .error (.fmtErrorf "密钥派生失败 (chain): " e))
  | .ok chainKey =>
  match ops.Derive chainKey (hdPathIndex % 2 ^ 32).toNat with
  | .error e => (db, redis1, .error (.fmtErrorf "密钥派生失败 (index): " e))
  | .ok childKey =>
  match ops.ECPubKey childKey with
  | .error e => (db, redis1, .error (.fmtErrorf "获取 EC 公钥失败: " e))
  | .ok ecPubKey =>
  let generated : Except GoError (Except GoError String) :=
    if chain = "BTC" then .ok (s.btcGen (L.SerializeCompressed ecPubKey))
    else if chain = "ETH" then .ok (s.ethGen (L.SerializeUncompressed ecPubKey))
    else .error (.errorsNew ("不支持的链: " ++ chain))
  match generated with
  | .error e => (db, redis1, .error e)
  | .ok (.error e) => (db, redis1, .error (.fmtErrorf "地址生成失败: " e))
  | .ok (.ok addressStr) =>
  -- 4. save
  let newAddr : Address :=
    { ID := 0, UserID := uid, Chain := chain, Address := addressStr,
      HDPathIndex := hdPathIndex }
  match CreateAddress db newAddr with
  | .error e => (db, redis1, .error (.fmtErrorf "保存地址到数据库失败: " e))
  | .ok db1 => (db1, redis1, .ok (addressStr, hdPathIndex))

/-! ## pkg/bip32/wallet.go -/

/-- `strings.TrimSpace` on the runes of a string; `unicode.IsSpace` holds of the
runes in the table `isSpace`. -/
def TrimSpace (s : List Char) : List Char :=
  ((s.dropWhile isSpace).reverse.dropWhile isSpace).reverse

/-- `strings.Split(s, sep)` for a separator of one rune. -/
def Split (sep : Char) : List Char → List (List Char)
  | [] => [[]]
  | c :: cs =>
    if c = sep then [] :: Split sep cs
    else
      match Split sep cs with
      | seg :: rest => (c :: seg) :: rest
      | [] => [[c]]

/-- The `*NumError` of `strconv.ParseUint` for the input `s`, with `strconv.ErrSyntax`
or `strconv.ErrRange` as its cause; `Quote` is `strconv.Quote`. -/
def NumError (Quote : String → String) (s : String) (cause : String) : GoError :=
  .fmtErrorf ("strconv.ParseUint: parsing " ++ Quote s ++ ": ") (.errorsNew cause)

/-- The loop of `strconv.ParseUint(s0, 10, 32)` over the runes left, `n` being the
value so far: a rune that is no digit is a syntax error, a value above 2^32 - 1 a
range error. -/
def parseUintLoop (Quote : String → String) (s0 : String) : Nat → List Char → Except GoError Nat
  | n, [] => .ok n
  | n, c :: cs =>
    if 48 ≤ c.toNat ∧ c.toNat ≤ 57 then
      let n1 := n * 10 + (c.toNat - 48)
      if n1 > 4294967295 then .error (NumError Quote s0 "value out of range")
      else parseUintLoop Quote s0 n1 cs
    else .error (NumError Quote s0 "invalid syntax")

/-- `strconv.ParseUint(s, 10, 32)`. -/
def ParseUint (Quote : String → String) (s : String) : Except GoError Nat :=
  if s = "" then .error (NumError Quote s "invalid syntax")
  else parseUintLoop Quote s 0 s.data

/-- `hdkeychain.HardenedKeyStart`, 2^31. -/
def HardenedKeyStart : Nat := 2147483648

/-- The loop of `DerivePath` over the segments; `index` is a `uint32`, so the
addition of `HardenedKeyStart` wraps at 2^32. The type assertion on the derived key
cannot fail: `BTCKeychain.Derive` returns a `*BTCKeychain`. -/
def derivePathLoop {K : Type} (Quote : String → String) (ops : KeyOps K) :
    K → List (List Char) → Except GoError K
  | currentKey, [] => .ok currentKey
  | currentKey, segment0 :: rest =>
    let isHardened : Bool :=
      segment0.getLast? = some (Char.ofNat 39) || segment0.getLast? = some 'h'
    let segment := if isHardened then segment0.dropLast else segment0
    match ParseUint Quote (String.mk segment) with
    | .error err => .error (.fmtErrorf ("无效的路径段 '" ++ String.mk segment ++ "': ") err)
    | .ok val =>
      let index : Nat := if isHardened then (val + HardenedKeyStart) % 2 ^ 32 else val
      match ops.Derive currentKey index with
      | .error err => .error err
      | .ok nextKey => derivePathLoop Quote ops nextKey rest

/-- `Wallet.DerivePath`; `masterKey` is the field `w.masterKey`. -/
def DerivePath {K : Type} (Quote : String → String) (ops : KeyOps K) (masterKey : K)
    (path : String) : Except GoError K :=
  let path := TrimSpace path.data
  if path = [] then .ok masterKey
  else
    let path :=
      match path with
      | 'm' :: '/' :: rest => rest
      | _ => path
    let segments := Split '/' path
    derivePathLoop Quote ops masterKey segments

/-! ## pkg/address/eth_generator.go

A Go `string` is indexed by bytes here, so addresses are lists of bytes. -/

/-- Library calls of the generator that are not code of the repository. -/
structure KeccakLib where
  /-- `sha3.NewLegacyKeccak256()`, `Write(data)`, `Sum(nil)` -/
  Keccak256 : Bytes → Bytes
  /-- `strings.ToLower` on a string that has bytes outside ASCII -/
  UnicodeToLower : Bytes → Bytes
  /-- `strings.ToUpper(string(char))` for a byte `char` outside ASCII -/
  UnicodeToUpper : Byte → Bytes

/-- The lower case of an ASCII byte. -/
def lowerASCII (c : Byte) : Byte :=
  if 65 ≤ c.val ∧ c.val ≤ 90 then Fin.ofNat (c.val + 32) else c

/-- The upper case of an ASCII byte. -/
def upperASCII (c : Byte) : Byte :=
  if 97 ≤ c.val ∧ c.val ≤ 122 then Fin.ofNat (c.val - 32) else c

/-- `strings.ToLower`: byte by byte on an ASCII string, the library's mapping of the
runes otherwise. -/
def ToLower (L : KeccakLib) (s : Bytes) : Bytes :=
  if s.all (fun c => c.val < 128) then s.map lowerASCII else L.UnicodeToLower s

/-- `strings.ToUpper(string(char))` for one byte `char`: the byte is read as a rune. -/
def ToUpperChar (L : KeccakLib) (char : Byte) : Bytes :=
  if char.val < 128 then [upperASCII char] else L.UnicodeToUpper char

/-- `hex.EncodeToString` as a string of bytes: two lower case digits per byte. -/
def EncodeToBytes (b : Bytes) : Bytes :=
  (hexChars b).map (fun c => Fin.ofNat c.toNat)

/-- `keccak256` (eth_generator.go). -/
def keccak256 (L : KeccakLib) (data : Bytes) : Bytes :=
  L.Keccak256 data

/-- `hexCharToInt` (eth_generator.go). -/
def hexCharToInt (c : Byte) : Nat :=
  if 48 ≤ c.val ∧ c.val ≤ 57 then c.val - 48
  else if 97 ≤ c.val ∧ c.val ≤ 102 then c.val - 97 + 10
  else 0

/-- The loop of `toChecksumAddress` from position `i` on; `rest` is `address[i:]`.
Reading `hexHash[i]` past the end of the hash panics. -/
def checksumLoop (L : KeccakLib) (hexHash : Bytes) : Nat → Bytes → Except Fault Bytes
  | _, [] => .ok []
  | i, char :: rest =>
    match hexHash.get? i with
    | none =>
      .error (.panic ("index out of range [" ++ toString i ++ "] with length "
        ++ toString hexHash.length))
    | some h =>
      let hashByte := hexCharToInt h
      let out : Bytes := if hashByte ≥ 8 then ToUpperChar L char else [char]
      match checksumLoop L hexHash (i + 1) rest with
      | .error f => .error f
      | .ok tail => .ok (out ++ tail)

/-- `toChecksumAddress` (eth_generator.go). -/
def toChecksumAddress (L : KeccakLib) (address : Bytes) : Except Fault Bytes :=
  let address := ToLower L address
  let hash := keccak256 L address
  let hexHash := EncodeToBytes hash
  checksumLoop L hexHash 0 address

/-- `ETHGenerator.PubKeyToAddress`; the error it returns is always `nil`. Slicing
`hash[12:]` panics on a hash of fewer than 12 bytes. -/
def PubKeyToAddress (L : KeccakLib) (pubKeyBytes : Bytes) : Except Fault Bytes :=
  -- 1. drop the prefix 0x04
  let pubKeyBytes :=
    if pubKeyBytes.length = 65 ∧ pubKeyBytes.head? = some 4 then pubKeyBytes.drop 1
    else pubKeyBytes
  -- 2. hash
  let hash := keccak256 L pubKeyBytes
  -- 3. the last 20 bytes
  if hash.length < 12 then
    .error (.panic ("slice bounds out of range [12:" ++ toString hash.length ++ "]"))
  else
    let addressBytes := hash.drop 12
    -- 4. hex and checksum
    let addressHex := EncodeToBytes addressBytes
    match toChecksumAddress L addressHex with
    | .error f => .error f
    | .ok checksummed => .ok ([48, 120] ++ checksummed)

/-! ## pkg/bip39/mnemonic.go and cmd/wallet-cli/cmd/init.go -/

/-- The calls on `github.com/tyler-smith/go-bip39`; the entropy is read from the
tape of random bytes, of which the rest is handed back. -/
structure Bip39Lib where
  /-- `bip39.NewEntropy(bitSize)` -/
  NewEntropy : Int → Bytes → Except GoError (Bytes × Bytes)
  /-- `bip39.NewMnemonic(entropy)` -/
  NewMnemonic : Bytes → Except GoError Bytes

/-- `MnemonicService.GenerateMnemonic`: the mnemonic and the rest of the tape. -/
def GenerateMnemonic (B : Bip39Lib) (tape : Bytes) (bitSize : Int) :
    Except GoError (Bytes × Bytes) :=
  match B.NewEntropy bitSize tape with
  | .error err => .error (.fmtErrorf "生成熵失败: " err)
  | .ok (entropy, tape1) =>
    match B.NewMnemonic entropy with
    | .error err => .error (.fmtErrorf "生成助记词失败: " err)
    | .ok mnemonic => .ok (mnemonic, tape1)

/-- What the `init` command reads: the flag `output`, whether `os.Stat` finds that
file, the two passwords typed, the random bytes, and the error of writing a file. -/
structure InitEnv where
  outputFile : String
  fileExists : Bool
  password : Except GoError Bytes
  confirmPassword : Except GoError Bytes
  tape : Bytes
  writeFile : String → EncryptedKeyJSON → Option GoError

/-- How the `init` command ends: `os.Exit(1)` after a message (with the error it
prints, if any), a panic, or the keystore written to the file. -/
inductive InitOutcome where
  | exit (message : String) (err : Option GoError)
  | panic (msg : String)
  | written (file : String) (key : EncryptedKeyJSON) (mnemonic : Bytes)

/-- The function `Run` of `initCmd`, up to the question whether to show the
mnemonic. -/
def initCmd (B : Bip39Lib) (C : CryptoLib) (env : InitEnv) : InitOutcome :=
  if env.fileExists then
    .exit ("错误: 文件 " ++ env.outputFile ++ " 已存在。请先删除或指定其他文件名。") none
  else
  -- 1. the password, twice
  match env.password with
  | .error err => .exit "读取密码失败:" (some err)
  | .ok password =>
  match env.confirmPassword with
  | .error err => .exit "读取密码失败:" (some err)
  | .ok confirmPassword =>
  if password ≠ confirmPassword then .exit "两次输入的密码不一致！" none
  else if password.length < 6 then .exit "密码长度至少需要 6 位。" none
  else
  -- 2. the mnemonic
  match GenerateMnemonic B env.tape 12 with
  | .error err => .exit "生成助记词失败: " (some err)
  | .ok (mnemonic, tape1) =>
  -- 3. encrypt
  match EncryptMnemonic C tape1 mnemonic password with
  | .error (.error err) => .exit "加密失败: " (some err)
  | .error (.panic msg) => .panic msg
  | .ok encryptedKey =>
  -- 4. save
  match env.writeFile env.outputFile encryptedKey with
  | some err => .exit "保存文件失败: " (some err)
  | none => .written env.outputFile encryptedKey mnemonic

/-! ## pkg/mpc/shamir_helper.go

The hex strings of the helper are converted to and from byte slices only, so they
are lists of bytes. -/

/-- The calls on `github.com/hashicorp/vault/shamir`; `Split` draws its random
coefficients from the tape. -/
structure ShamirLib where
  /-- `shamir.Split(secret, parts, threshold)` -/
  Split : Bytes → Bytes → Int → Int → Except GoError (List Bytes)
  /-- `shamir.Combine(parts)` -/
  Combine : List Bytes → Except GoError Bytes

/-- `strings.TrimPrefix(s, "0x")`. -/
def TrimPrefix0x (s : Bytes) : Bytes :=
  match s with
  | 48 :: 120 :: rest => rest
  | _ => s

/-- The table `reverseHexTable` of `encoding/hex`: the value of a hex digit of
either case. -/
def fromHexChar (c : Byte) : Option Nat :=
  if 48 ≤ c.val ∧ c.val ≤ 57 then some (c.val - 48)
  else if 97 ≤ c.val ∧ c.val ≤ 102 then some (c.val - 97 + 10)
  else if 65 ≤ c.val ∧ c.val ≤ 70 then some (c.val - 65 + 10)
  else none

/-- `hex.InvalidByteError(c)`, identified by the byte. -/
def InvalidByteError (c : Byte) : GoError :=
  .lib ("encoding/hex: invalid byte: " ++ toString c.val)

/-- `hex.ErrLength`. -/
def ErrLength : GoError :=
  .errorsNew "encoding/hex: odd length hex string"

/-- `hex.DecodeString`: two digits per byte; a byte that is no hex digit is reported
before an odd length. -/
def DecodeString : Bytes → Except GoError Bytes
  | [] => .ok []
  | [p] =>
    match fromHexChar p with
    | none => .error (InvalidByteError p)
    | some _ => .error ErrLength
  | p :: q :: rest =>
    match fromHexChar p with
    | none => .error (InvalidByteError p)
    | some a =>
      match fromHexChar q with
      | none => .error (InvalidByteError q)
      | some b =>
        match DecodeString rest with
        | .error e => .error e
        | .ok bytes => .ok ((Fin.ofNat (a * 16 + b) : Byte) :: bytes)

/-- `mpc.Split` (shamir_helper.go). -/
def mpc.Split (S : ShamirLib) (tape : Bytes) (secretHex : Bytes) (parts threshold : Int) :
    Except GoError (List Bytes) :=
  -- 1. drop the prefix and decode
  let secretHex := TrimPrefix0x secretHex
  match DecodeString secretHex with
  | .error err => .error (.fmtErrorf "invalid secret hex: " err)
  | .ok secretBytes =>
    -- 2. split
    match S.Split tape secretBytes parts threshold with
    | .error err => .error err
    | .ok sharesBytes =>
      -- 3. encode each share
      .ok (sharesBytes.map EncodeToBytes)

/-- The loop of `mpc.Recover` that decodes the shares. -/
def decodeShares : List Bytes → Except GoError (List Bytes)
  | [] => .ok []
  | s :: rest =>
    match DecodeString (TrimPrefix0x s) with
    | .error err => .error (.fmtErrorf "invalid share hex: " err)
    | .ok b =>
      match decodeShares rest with
      | .error err => .error err
      | .ok bs => .ok (b :: bs)

/-- `mpc.Recover` (shamir_helper.go). -/
def mpc.Recover (S : ShamirLib) (sharesHex : List Bytes) : Except GoError Bytes :=
  -- 1. decode
  match decodeShares sharesHex with
  | .error err => .error err
  | .ok sharesBytes =>
    -- 2. combine
    match S.Combine sharesBytes with
    | .error err => .error err
    | .ok secretBytes =>
      -- 3. encode
      .ok (EncodeToBytes secretBytes)

/-! ## eth_observer.go: fetcher and worker -/

/-- `observer.Block` (interface.go). -/
structure observer.Block where
  Height : Nat
  Hash : String
  Transactions : List observer.Transaction
  deriving DecidableEq, Repr

/-- `EthObserver.mockFetchBlock`. -/
def mockFetchBlock (height : Nat) : observer.Block :=
  let targetAddr :=
    if height % 5 = 0 then "0x40ceeEdE9fA9ee09e594aFFb63CFc4994aF5B14e" else "0xRandom"
  { Height := height
    Hash := "0xblock_" ++ toString height
    Transactions := [
      { Hash := "0xhash_" ++ toString height ++ "_1", From := "", To := targetAddr,
        Value := "0.5", Status := 0 },
      { Hash := "0xhash_" ++ toString height ++ "_2", From := "", To := "0xSomeoneElse",
        Value := "100", Status := 0 }] }

/-- The fields of `EthObserver` that the fetcher and the workers share: the height
(a `uint64`), the queue `blocksChan` and its capacity `workerCount * 2`. -/
structure EthObserver where
  currentHeight : Nat
  blocksChan : List observer.Block
  capacity : Nat
  deriving DecidableEq, Repr

/-- One tick of `EthObserver.fetcher`: fetch the block at `currentHeight`, send it to
the queue, then increment `currentHeight`. With a full queue the send waits: the
observer is left as it is. -/
def fetcherTick (o : EthObserver) : EthObserver :=
  let block := mockFetchBlock o.currentHeight
  if o.blocksChan.length < o.capacity then
    { o with
      blocksChan := o.blocksChan ++ [block]
      currentHeight := (o.currentHeight + 1) % 2 ^ 64 }
  else o

/-- The loop of the worker over the transactions of a block; `processTransaction`
reads the field `o.currentHeight`. A panic ends the loop, a logged error does not. -/
def processTransactions (L : ObserverLib) (currentHeight : Nat) :
    DB → List observer.Transaction → DB × Option Fault
  | db, [] => (db, none)
  | db, tx :: rest =>
    match processTransaction L db currentHeight tx with
    | (db1, some (.panic msg)) => (db1, some (.panic msg))
    | (db1, _) => processTransactions L currentHeight db1 rest

/-- One round of the loop of `EthObserver.worker`: receive a block from the queue and
process its transactions. With an empty queue the receive waits. -/
def workerStep (L : ObserverLib) (db : DB) (o : EthObserver) : DB × EthObserver × Option Fault :=
  match o.blocksChan with
  | [] => (db, o, none)
  | block :: rest =>
    let o1 := { o with blocksChan := rest }
    let (db1, fault) := processTransactions L o1.currentHeight db block.Transactions
    (db1, o1, fault)

/-! ## pkg/crypto_util/symmetric.go: DecryptDES -/

/-- The library calls of the DES part of symmetric.go. -/
structure DESLib where
  /-- `cipher.NewCBCDecrypter(block, iv).CryptBlocks(dst, src)` for the DES block made
  from `key`: the bytes written to `dst` -/
  CryptBlocks : (key iv src : Bytes) → Bytes

/-- `des.BlockSize`. -/
def desBlockSize : Nat := 8

/-- `des.NewCipher(key)`: a key of 8 bytes, anything else is a `KeySizeError`. The
block is represented by its key. -/
def desNewCipher (key : Bytes) : Except Fault Bytes :=
  if key.length = 8 then .ok key
  else .error (.error (.lib ("crypto/des: invalid key size " ++ toString key.length)))

/-- `s[i]` for an `int` index, with the bounds check of the Go runtime. -/
def indexByte (s : Bytes) (i : Int) : Except Fault Byte :=
  if i < 0 then .error (.panic ("index out of range [" ++ toString i ++ "]"))
  else
    match s.get? i.toNat with
    | some b => .ok b
    | none =>
      .error (.panic ("index out of range [" ++ toString i ++ "] with length "
        ++ toString s.length))

/-- `DecryptDES(key, ciphertext)`. `plaintext` is the buffer
`make([]byte, len(ciphertext))` after `CryptBlocks`; `length` and `unpadding` are Go
`int`s. -/
def DecryptDES (L : DESLib) (key ciphertext : Bytes) : Except Fault Bytes :=
  if key.length ≠ 8 then .error (.error (.errorsNew "DES 密钥长度必须是 8 字节"))
  else if ciphertext.length < desBlockSize then .error (.error (.errorsNew "密文太短"))
  else
    match desNewCipher key with
    | .error e => .error e
    | .ok block =>
      let iv := ciphertext.take desBlockSize
      let ciphertext := ciphertext.drop desBlockSize
      if ciphertext.length % desBlockSize ≠ 0 then
        .error (.error (.errorsNew "密文不是块大小的倍数"))
      else
        let plaintext := L.CryptBlocks block iv ciphertext
        let length : Int := plaintext.length
        match indexByte plaintext (length - 1) with
        | .error e => .error e
        | .ok last =>
          let unpadding : Int := last.val
          if unpadding > length then .error (.error (.errorsNew "去除填充错误"))
          else .ok (plaintext.take (length - unpadding).toNat)

/-! ## pkg/bip32/wallet.go: BTCKeychain -/

/-- Modelled from the spec: an extended key of BIP-32 (the spec: "Standard BIP-32"),
which the library type `hdkeychain.ExtendedKey` wrapped by `BTCKeychain` implements
and which is not under src/. A key is a private key `k` (an integer) or a public key
`K` (a point of the curve), each with its chain code. -/
inductive hdkeychain.ExtendedKey (P : Type) where
  | xprv (k : Nat) (chainCode : Bytes)
  | xpub (K : P) (chainCode : Bytes)
  deriving DecidableEq, Repr

/-- The primitives under the extended keys, taken as given: the base point `G` of
the curve and its order `n`, the serialisation of a point, HMAC-SHA512, and the text
forms of a key. The points `P` are a commutative group, written additively; the
point at infinity is 0. -/
structure HDLib (P : Type) where
  G : P
  n : Nat
  serP : P → Bytes
  HMACSHA512 : (key data : Bytes) → Bytes
  Address : hdkeychain.ExtendedKey P → Except GoError String
  String : hdkeychain.ExtendedKey P → String

/-- Modelled from the spec: `ser32(i)` of BIP-32, the 4 bytes of `i`, most
significant first. -/
def ser32 (i : Nat) : Bytes :=
  [Fin.ofNat (i / 2 ^ 24), Fin.ofNat (i / 2 ^ 16), Fin.ofNat (i / 2 ^ 8), Fin.ofNat i]

/-- Modelled from the spec: `ser256(p)` of BIP-32, the 32 bytes of `p`, most
significant first. -/
def ser256 (p : Nat) : Bytes :=
  (List.range 32).map (fun j => Fin.ofNat (p / 256 ^ (31 - j)))

/-- Modelled from the spec: `parse256(p)` of BIP-32, the bytes read as a number,
most significant first. -/
def parse256 (p : Bytes) : Nat :=
  p.foldl (fun n b => n * 256 + b.val) 0

/-- Modelled from the spec: `derive(parent, index)`, the child key derivation of
BIP-32 (CKDpriv for a private parent, CKDpub for a public one), which
`hdkeychain.ExtendedKey.Derive` implements and which is not under src/. An index of
2^31 or more is hardened and requires a private parent. With I the HMAC-SHA512 of
the data under the chain code of the parent, the child of a private key `k` is
`parse256(I_L) + k (mod n)`, the child of a public key `K` is
`point(parse256(I_L)) + K`, and the chain code of the child is `I_R`; the child is
invalid when `parse256(I_L) ≥ n`, or the private child is 0, or the public child is
the point at infinity. -/
def hdkeychain.Derive {P : Type} [AddCommGroup P] [DecidableEq P] (H : HDLib P)
    (k : hdkeychain.ExtendedKey P) (i : Nat) : Except GoError (hdkeychain.ExtendedKey P) :=
  match k with
  | .xprv kpar cpar =>
    let data : Bytes :=
      if i ≥ 2 ^ 31 then (0 : Byte) :: ser256 kpar ++ ser32 i
      else H.serP (kpar • H.G) ++ ser32 i
    let I := H.HMACSHA512 cpar data
    let IL := parse256 (I.take 32)
    let ki := (IL + kpar) % H.n
    if IL ≥ H.n ∨ ki = 0 then .error (.lib "InvalidChild")
    else .ok (.xprv ki (I.drop 32))
  | .xpub Kpar cpar =>
    if i ≥ 2 ^ 31 then .error (.lib "HardenedDerivationRequiresPrivate")
    else
      let I := H.HMACSHA512 cpar (H.serP Kpar ++ ser32 i)
      let IL := parse256 (I.take 32)
      let Ki := IL • H.G + Kpar
      if IL ≥ H.n ∨ Ki = 0 then .error (.lib "InvalidChild")
      else .ok (.xpub Ki (I.drop 32))

/-- Modelled from the spec: `neuter(xprv) → xpub`, which strips the private
material: the public key is the point of the private key, the chain code is kept.
`hdkeychain.ExtendedKey.Neuter` is not under src/. -/
def hdkeychain.Neuter {P : Type} [AddCommGroup P] (H : HDLib P)
    (k : hdkeychain.ExtendedKey P) : Except GoError (hdkeychain.ExtendedKey P) :=
  match k with
  | .xprv kpar cpar => .ok (.xpub (kpar • H.G) cpar)
  | .xpub Kpar cpar => .ok (.xpub Kpar cpar)

/-- Modelled from the spec: `ec_pubkey(key)`, the serialised point of the key: the
point of the private key for a private key. `hdkeychain.ExtendedKey.ECPubKey` is not
under src/. -/
def hdkeychain.ECPubKey {P : Type} [AddCommGroup P] (H : HDLib P)
    (k : hdkeychain.ExtendedKey P) : Except GoError Bytes :=
  match k with
  | .xprv kpar _ => .ok (H.serP (kpar • H.G))
  | .xpub Kpar _ => .ok (H.serP Kpar)

/-- Modelled from the spec: the private key of an extended private key; a public
key has none. `hdkeychain.ExtendedKey.ECPrivKey` is not under src/. -/
def hdkeychain.ECPrivKey {P : Type} (k : hdkeychain.ExtendedKey P) : Except GoError Bytes :=
  match k with
  | .xprv kpar _ => .ok (ser256 kpar)
  | .xpub _ _ => .error (.lib "NotPrivate")

/-- Modelled from the spec: whether the key holds private material.
`hdkeychain.ExtendedKey.IsPrivate` is not under src/. -/
def hdkeychain.IsPrivate {P : Type} (k : hdkeychain.ExtendedKey P) : Bool :=
  match k with
  | .xprv _ _ => true
  | .xpub _ _ => false

/-- `BTCKeychain` (wallet.go): the interface `bip32.ExtendedKey` over the key of the
library. `Derive` and `Neuter` wrap the error of the library. -/
def BTCKeychain {P : Type} [AddCommGroup P] [DecidableEq P] (H : HDLib P) :
    KeyOps (hdkeychain.ExtendedKey P) where
  String := H.String
  ECPubKey := hdkeychain.ECPubKey H
  ECPrivKey := hdkeychain.ECPrivKey
  Derive := fun k index =>
    match hdkeychain.Derive H k index with
    | .error err => .error (.fmtErrorf "派生子密钥失败: " err)
    | .ok childKey => .ok childKey
  IsPrivate := hdkeychain.IsPrivate
  Address := fun k =>
    match H.Address k with
    | .error _ => "unknown"
    | .ok addr => addr
  Neuter := fun k =>
    match hdkeychain.Neuter H k with
    | .error err => .error (.fmtErrorf "转换公钥失败: " err)
    | .ok neuterKey => .ok neuterKey

/-! ## Contracts of the libraries and invariants of the data -/

/-- The contract of `cipher.AEAD` for AES-GCM: with an AES key and a 12 byte nonce,
`Open` gives back what `Seal` sealed, and `Seal` appends a 16 byte tag. -/
structure GCMContract (L : CryptoLib) : Prop where
  open_seal : ∀ key nonce pt : Bytes,
    (key.length = 16 ∨ key.length = 24 ∨ key.length = 32) → nonce.length = gcmNonceSize →
    L.gcmOpen key nonce (L.gcmSeal key nonce pt) = .ok pt
  seal_length : ∀ key nonce pt : Bytes, (L.gcmSeal key nonce pt).length = pt.length + 16

/-- The contract of `scrypt.Key` at the parameters of the keystore: the call
succeeds and the key has `keyLen = 32` bytes. -/
def ScryptContract (L : CryptoLib) : Prop :=
  ∀ password salt : Bytes, ∃ K : Bytes,
    L.scryptKey password salt scryptN scryptR scryptP scryptDKLen = .ok K ∧ K.length = 32

/-- At most one review row per pair of withdrawal and admin. -/
def UniqueReviews (db : DB) : Prop :=
  ∀ withdrawalID adminID : Nat, countReviews db withdrawalID adminID ≤ 1

/-- The invariant of a withdrawal made by `CreateWithdrawal`: two approvals are
required, between none and two are given, and fewer than two while in review. -/
def ApprovalsInv (w : Withdrawal) : Prop :=
  w.RequiredApprovals = 2 ∧ 0 ≤ w.CurrentApprovals ∧ w.CurrentApprovals ≤ 2 ∧
  (w.Status = "pending_review" → w.CurrentApprovals < 2)

/-- What `processPendingWithdrawals` may do to a row `x`: leave it, or, when it is
in `pending_broadcast`, complete it with a mocked transaction hash. -/
def PollerStep (x y : Withdrawal) : Prop :=
  y = x ∨ (x.Status = "pending_broadcast" ∧
    ∃ now : Int, y = { x with Status := "completed", TxHash := mockedTxHash x.ID now })

/-- What `HandleWithdrawalEvent` may do to a row `x`: leave it, or, when it is in
`pending` or `pending_broadcast`, complete it with a transaction hash. -/
def WorkerStep (x y : Withdrawal) : Prop :=
  y = x ∨ ((x.Status = "pending" ∨ x.Status = "pending_broadcast") ∧
    ∃ now : Int, y = { x with
      Status := "completed", TxHash := "0x_kafka_broadcast_" ++ toString now })

/-- The amount `d`, times 10^18, cut to an integer toward zero: the balance in wei
that simulated mode takes from the amount of the event. -/
def truncatedWei (d : Decimal) : Int :=
  if 0 ≤ d.exp + 18 then d.value * 10 ^ (d.exp + 18).toNat
  else d.value.tdiv (10 ^ (-(d.exp + 18)).toNat)

/-- The transaction that `sweepETH` builds from the nonce, the balance and the gas
price. -/
def sweepTransaction {K : Type} (s : SweeperService K) (nonce : Nat) (balance gasPrice : Int) :
    LegacyTx :=
  { Nonce := nonce, To := s.hotWalletAddr, Value := balance - 21000 * gasPrice, Gas := 21000,
    GasPrice := gasPrice, Data := [] }

/-- The Collection row that `sweepETH` hands to `Create` for a signed transaction. -/
def sweepCollection {K : Type} (C : ChainLib) (s : SweeperService K) (addr : Address)
    (signedTx : SignedTx) (balance gasPrice : Int) : Collection :=
  { ID := 0, DepositID := 0, TxHash := C.TxHashHex signedTx,
    FromAddress := addr.Address, ToAddress := C.AddressHex s.hotWalletAddr,
    Amount := { value := balance - 21000 * gasPrice, exp := 0 },
    GasFee := { value := 21000 * gasPrice, exp := 0 }, Status := "pending" }

/-- What `sweepETH` does after signing: broadcast when there is a client, then
record the collection. -/
def sweepRecord {K : Type} (C : ChainLib) (s : SweeperService K) (st : World) (addr : Address)
    (signedTx : SignedTx) (balance gasPrice : Int) : World × Option Fault :=
  let sendResult : World × Option GoError :=
    match s.ethClient with
    | some client =>
      ({ st with sent := st.sent ++ [signedTx] }, client.SendTransaction signedTx)
    | none => (st, none)
  match sendResult with
  | (st1, some e) => (st1, some (.error e))
  | (st1, none) =>
    match CreateCollection st1.db (sweepCollection C s addr signedTx balance gasPrice) with
    | .error _ => (st1, none)
    | .ok db2 => ({ st1 with db := db2 }, none)

/-- The Deposit row `processTransaction` inserts for `tx`: `addr` is the matched
address row, `stored` the amount as the column keeps it. -/
def depositRow (db : DB) (currentHeight : Nat) (tx : observer.Transaction) (addr : Address)
    (stored : Decimal) : Deposit :=
  { ID := nextID (db.deposits.map (fun x => x.ID)), UserID := addr.UserID,
    BlockAppID := addr.ID, TxHash := tx.Hash, Amount := stored,
    BlockHeight := currentHeight, Status := "confirmed" }

/-- The outbox message `processTransaction` inserts with the payload `bytes`. -/
def depositMessage (db : DB) (bytes : Bytes) : OutboxMessage :=
  { ID := nextID (db.outbox.map (fun x => x.ID)), Topic := "wallet_events_deposit",
    Payload := bytes, Status := "PENDING", DeletedAt := none }

/-- The number a string of decimal digits denotes. -/
def decimalValue (ds : List Char) : Nat :=
  ds.foldl (fun n c => n * 10 + (c.toNat - 48)) 0

/-- A string of one or more decimal digits. -/
def IsDecimal (ds : List Char) : Prop :=
  ds ≠ [] ∧ ∀ c ∈ ds, 48 ≤ c.toNat ∧ c.toNat ≤ 57

/-- The hardening mark of a path segment: none, an apostrophe or `h`. -/
def IsMark (mark : List Char) : Prop :=
  mark = [] ∨ mark = [Char.ofNat 39] ∨ mark = ['h']

/-- The index of the path segment with the digits `ds` and the mark `mark`: the
number, plus 2^31 when the segment is marked. -/
def segmentIndex (ds mark : List Char) : Nat :=
  if mark = [] then decimalValue ds else decimalValue ds + 2 ^ 31

/-- A path segment that `DerivePath` can read: a decimal number below 2^32 with an
optional mark. -/
def IsSegment (seg : List Char) : Prop :=
  ∃ ds mark, seg = ds ++ mark ∧ IsDecimal ds ∧ IsMark mark ∧ decimalValue ds < 2 ^ 32

/-- The segments joined by "/". -/
def joinSegments : List (List Char) → List Char
  | [] => []
  | [s] => s
  | s :: t :: rest => s ++ '/' :: joinSegments (t :: rest)

/-- The key obtained from `key` by calling `Derive` with the indices in turn; it
fails when a call fails. -/
def deriveAll {K : Type} (ops : KeyOps K) : K → List Nat → Except GoError K
  | key, [] => .ok key
  | key, i :: rest =>
    match ops.Derive key i with
    | .error e => .error e
    | .ok next => deriveAll ops next rest

/-- The `i`-th hex nibble of `hash`: the high half of byte `i / 2` for an even `i`,
the low half for an odd one. -/
def nibble (hash : Bytes) (i : Nat) : Nat :=
  let b := (hash.getD (i / 2) 0).val
  if i % 2 = 0 then b / 16 else b % 16

/-- The EIP-55 casing of the ASCII string `address` from position `i` on under the
hash `hash`: the upper case of a character whose nibble is 8 or more, the character
itself otherwise. -/
def checksumCase (hash : Bytes) : Nat → Bytes → Bytes
  | _, [] => []
  | i, c :: rest =>
    (if nibble hash i ≥ 8 then upperASCII c else c) :: checksumCase hash (i + 1) rest

/-- The contract of Keccak-256: a hash of 32 bytes. -/
def KeccakContract (L : KeccakLib) : Prop :=
  ∀ data : Bytes, (L.Keccak256 data).length = 32

/-- An ASCII hex digit, of either case. -/
def IsHexDigit (c : Byte) : Prop :=
  (48 ≤ c.val ∧ c.val ≤ 57) ∨ (97 ≤ c.val ∧ c.val ≤ 102) ∨ (65 ≤ c.val ∧ c.val ≤ 70)

/-- The contract of `bip39.NewEntropy`: the bit size has to be a multiple of 32
within 128 and 256, otherwise the call returns `ErrEntropyLengthInvalid`. -/
def Bip39Contract (B : Bip39Lib) : Prop :=
  ∀ (bitSize : Int) (tape : Bytes), bitSize % 32 ≠ 0 ∨ bitSize < 128 ∨ bitSize > 256 →
    B.NewEntropy bitSize tape
      = .error (.errorsNew "Entropy length must be [128, 256] and a multiple of 32")

/-- The contract of the Shamir library: `Split` refuses a threshold below 2; for a
secret that is not empty and 2 ≤ threshold ≤ parts ≤ 255 it returns `parts` different
shares, of which any `threshold` or more, in any order, `Combine` to the secret; and
`Combine` refuses fewer than two parts. -/
structure ShamirContract (S : ShamirLib) : Prop where
  split_threshold : ∀ (tape secret : Bytes) (parts threshold : Int), threshold < 2 →
    ∃ e, S.Split tape secret parts threshold = .error e
  split_ok : ∀ (tape secret : Bytes) (parts threshold : Int),
    secret ≠ [] → 2 ≤ threshold → threshold ≤ parts → parts ≤ 255 →
    ∃ shares, S.Split tape secret parts threshold = .ok shares ∧
      (shares.length : Int) = parts ∧ shares.Nodup ∧
      ∀ sel : List Bytes, sel.Nodup → (∀ x ∈ sel, x ∈ shares) →
        threshold ≤ (sel.length : Int) → S.Combine sel = .ok secret
  combine_few : ∀ parts : List Bytes, parts.length < 2 → ∃ e, S.Combine parts = .error e

/-- The base point `G` has order `n`: `n • G` is the point at infinity and no
smaller positive multiple of `G` is. -/
def CurveOrder {P : Type} [AddCommGroup P] (H : HDLib P) : Prop :=
  H.n • H.G = 0 ∧ ∀ m, m < H.n → 0 < m → m • H.G ≠ 0

/-- The review rows of the withdrawal `id` whose action is "approve". -/
def approvals (db : DB) (id : Nat) : List WithdrawalReview :=
  db.reviews.filter (fun r => r.WithdrawalID = id ∧ r.Status = "approve")

/-- The invariant of the reviews of the withdrawal `id`, stored as `w`: the counter
is the number of approving review rows, no admin has two review rows for it, and
`pending_broadcast` is reached only with the required approvals. -/
def ReviewInv (db : DB) (id : Nat) (w : Withdrawal) : Prop :=
  First db id = .ok w ∧ ApprovalsInv w ∧
  w.CurrentApprovals = ((approvals db id).length : Int) ∧
  ((db.reviews.filter (fun r => r.WithdrawalID = id)).map (fun r => r.AdminID)).Nodup ∧
  (w.Status = "pending_broadcast" → w.RequiredApprovals ≤ w.CurrentApprovals)

/-- What symmetric.go relies on from `crypto/cipher`: `CryptBlocks` fills the buffer
`make([]byte, len(ciphertext))`, one byte for each byte of the source. -/
def CBCContract (L : DESLib) : Prop :=
  ∀ key iv src, (L.CryptBlocks key iv src).length = src.length

/-! ## A small stand-in for the libraries, to run the definitions -/

/-- Stand-in for `scrypt.Key`: the first `keyLen` bytes of password, salt and zero padding. -/
def toyScryptKey (password salt : Bytes) (_N _r _p keyLen : Int) : Except Fault Bytes :=
  .ok ((password ++ salt ++ List.replicate keyLen.toNat 0).take keyLen.toNat)

/-- Stand-in for the 16 byte tag of AES-GCM. -/
def toyTag (key nonce : Bytes) : Bytes :=
  List.replicate 16 (key.headD 0 + nonce.headD 0)

/-- Stand-in for `gcm.Seal`: the plaintext followed by the tag. -/
def toySeal (key nonce plaintext : Bytes) : Bytes :=
  plaintext ++ toyTag key nonce

/-- Stand-in for `gcm.Open`: panics on a nonce of the wrong size, rejects a
ciphertext whose last 16 bytes are not the tag. -/
def toyOpen (key nonce ciphertext : Bytes) : Except Fault Bytes :=
  if nonce.length ≠ gcmNonceSize then
    .error (.panic "crypto/cipher: incorrect nonce length given to GCM")
  else if ciphertext.length < 16 then
    .error (.error (.lib "cipher: message authentication failed"))
  else if ciphertext.drop (ciphertext.length - 16) = toyTag key nonce then
    .ok (ciphertext.take (ciphertext.length - 16))
  else .error (.error (.lib "cipher: message authentication failed"))

/-- Stand-in for `sha256.Sum256`: the first 32 bytes of the zero padded input. -/
def toySum256 (data : Bytes) : Digest :=
  ⟨(data ++ List.replicate 32 0).take 32, by simp⟩

/-- The stand-in library. -/
def toyLib : CryptoLib where
  scryptKey := toyScryptKey
  gcmSeal := toySeal
  gcmOpen := toyOpen
  sha256Sum256 := toySum256

/-- An entropy tape of 60 bytes: 1, 2, ..., 60. -/
def toyTape : Bytes :=
  (List.range 60).map (fun i => Fin.ofNat (i + 1))

/-- A withdrawal request as the handler builds it. -/
def freshRequest : Withdrawal where
  ID := 0
  UserID := 1
  ToAddress := "0xabc"
  Amount := { value := 15, exp := -1 }
  Chain := "ETH"
  TxHash := ""
  Status := ""
  RequiredApprovals := 0
  CurrentApprovals := 0

/-- The row `CreateWithdrawal` stores for `freshRequest` in an empty database. -/
def freshWithdrawal : Withdrawal where
  ID := 1
  UserID := 1
  ToAddress := "0xabc"
  Amount := { value := 1500000000000000000, exp := -18 }
  Chain := "ETH"
  TxHash := ""
  Status := "pending_review"
  RequiredApprovals := 2
  CurrentApprovals := 0

/-- The empty database. -/
def emptyDB : DB where
  withdrawals := []
  reviews := []
  addresses := []
  collections := []
  deposits := []
  outbox := []

/-- The database with the one withdrawal `freshWithdrawal`. -/
def freshDB : DB :=
  { emptyDB with withdrawals := [freshWithdrawal] }

/-- A withdrawal in `pending_review` whose counter is the largest `int`. -/
def maxedWithdrawal : Withdrawal :=
  { freshWithdrawal with CurrentApprovals := 9223372036854775807 }

/-- The database with the one withdrawal `maxedWithdrawal`. -/
def maxedDB : DB :=
  { emptyDB with withdrawals := [maxedWithdrawal] }

/-- A withdrawal that two admins have approved. -/
def approvedWithdrawal : Withdrawal :=
  { freshWithdrawal with Status := "pending_broadcast", CurrentApprovals := 2 }

/-- The database with the one withdrawal `approvedWithdrawal`. -/
def approvedDB : DB :=
  { emptyDB with withdrawals := [approvedWithdrawal] }

/-- A stored withdrawal in status "pending", which no review has seen. -/
def pendingWithdrawal : Withdrawal :=
  { freshWithdrawal with Status := "pending" }

/-- The database with the one withdrawal `pendingWithdrawal`. -/
def pendingDB : DB :=
  { emptyDB with withdrawals := [pendingWithdrawal] }

/-- Stand-in for `decimal.NewFromString`: knows the texts "0" and "1". -/
def toyNewFromString (s : String) : Except GoError Decimal :=
  if s = "0" then .ok { value := 0, exp := 0 }
  else if s = "1" then .ok { value := 1, exp := 0 }
  else .error (.lib ("can't convert " ++ s ++ " to decimal"))

/-- Stand-in for the libraries of the sweeper. -/
def toyChainLib : ChainLib where
  HexToAddress := fun _ => List.replicate 20 0
  AddressHex := fun _ => "0x0000000000000000000000000000000000000000"
  SignTx := fun _ _ _ => .ok [1]
  TxHashHex := fun t => "0x" ++ toString t.tx.Nonce
  NewFromString := toyNewFromString

/-- Stand-in for the extended keys: a key is a number, a child adds its index. -/
def toyKeyOps : KeyOps Nat where
  ECPubKey := fun _ => .ok [2]
  ECPrivKey := fun _ => .ok [1]
  Derive := fun k i => .ok (k + i)
  IsPrivate := fun _ => true
  Address := fun _ => "unknown"
  Neuter := fun k => .ok k
  String := fun _ => "xprv"

/-- A sweeper in simulated mode (no RPC client). -/
def simulatedSweeper : SweeperService Nat where
  ethClient := none
  masterKey := 1
  chainID := 1
  hotWalletAddr := List.replicate 20 0

/-- A chain client that reports a balance of 0 and then fails on the nonce. -/
def flakyClient : EthClient where
  BalanceAt := fun _ => .ok 0
  PendingNonceAt := fun _ => .error (.lib "connection refused")
  SuggestGasPrice := .ok 20000000000
  SendTransaction := fun _ => none

/-- A sweeper with the client `flakyClient`. -/
def flakySweeper : SweeperService Nat :=
  { simulatedSweeper with ethClient := some flakyClient }

/-- A chain client that reports a balance of 0, nonce 0 and a gas price of 20 Gwei. -/
def emptyAccountClient : EthClient :=
  { flakyClient with PendingNonceAt := fun _ => .ok 0 }

/-- A sweeper with the client `emptyAccountClient`. -/
def emptyAccountSweeper : SweeperService Nat :=
  { simulatedSweeper with ethClient := some emptyAccountClient }

/-- The deposit address of user 7. -/
def toyAddress : Address where
  ID := 1
  UserID := 7
  Chain := "ETH"
  Address := "0x00000000000000000000000000000000000000aa"
  HDPathIndex := 3

/-- A world whose database holds the deposit address of user 7, nothing sent. -/
def toyWorld : World where
  db := { emptyDB with addresses := [toyAddress] }
  sent := []

/-- A world with an empty database, nothing sent. -/
def emptyWorld : World where
  db := emptyDB
  sent := []

/-- A deposit event of user 7 with amount "0". -/
def toyEvent : DepositEvent where
  UserID := 7
  Amount := "0"
  TxHash := "0xabc"
  Chain := "ETH"

/-- The mnemonic "hi". -/
def toyMnemonic : Bytes := [104, 105]

/-- The password "pw". -/
def toyPassword : Bytes := [112, 119]

/-- The password "px". -/
def toyOtherPassword : Bytes := [112, 120]

/-- The envelope `EncryptMnemonic toyLib toyTape toyMnemonic toyPassword`. -/
def toyEnvelope : EncryptedKeyJSON where
  Crypto := {
    Cipher := "aes-256-gcm"
    CipherText := "686991919191919191919191919191919191"
    CipherParams := { IV := "2122232425262728292a2b2c" }
    KDF := "scrypt"
    KDFParams := {
      DKLen := 32
      N := 262144
      R := 8
      P := 1
      Salt := "0102030405060708090a0b0c0d0e0f101112131415161718191a1b1c1d1e1f20" }
    MAC := "70770102030405060708090a0b0c0d0e0f101112131415161718191a1b1c1d1e" }
  Id := "2d2e2f30-3132-3334-3536-3738393a3b3c"
  Version := 3

/-- The envelope `toyEnvelope` with the last byte of the ciphertext (of the tag)
changed from 91 to 90; the stored MAC still matches under `toyLib`. -/
def toyTamperedEnvelope : EncryptedKeyJSON :=
  { toyEnvelope with
    Crypto := { toyEnvelope.Crypto with
      CipherText := "686991919191919191919191919191919190" } }

/-- Stand-in for `decimal.NewFromString` that also knows an amount with 19
fractional digits. -/
def preciseNewFromString (s : String) : Except GoError Decimal :=
  if s = "1.0000000000000000005" then .ok { value := 10000000000000000005, exp := -19 }
  else toyNewFromString s

/-- The stand-in `toyChainLib` with the parser `preciseNewFromString`. -/
def preciseChainLib : ChainLib :=
  { toyChainLib with NewFromString := preciseNewFromString }

/-- A deposit event of user 7 with amount "1". -/
def oneEtherEvent : DepositEvent :=
  { toyEvent with Amount := "1" }

/-- A deposit event of user 7 with amount "1.0000000000000000005". -/
def preciseEvent : DepositEvent :=
  { toyEvent with Amount := "1.0000000000000000005" }

/-- The deposit address of user 8. -/
def otherAddress : Address where
  ID := 2
  UserID := 8
  Chain := "ETH"
  Address := "0x00000000000000000000000000000000000000bb"
  HDPathIndex := 4

/-- A deposit event of user 8 with amount "2". -/
def otherEvent : DepositEvent where
  UserID := 8
  Amount := "2"
  TxHash := "0xdef"
  Chain := "ETH"

/-- A world whose database holds the deposit addresses of the users 7 and 8, nothing
sent. -/
def twoAddressWorld : World where
  db := { emptyDB with addresses := [toyAddress, otherAddress] }
  sent := []

/-- The stand-in `toyChainLib` with an address of 20 bytes `aa` for the deposit
address of user 7 and 20 bytes `bb` for every other one, and with the decimal value
of a transaction as its hash. -/
def fundedChainLib : ChainLib :=
  { toyChainLib with
    HexToAddress := fun a =>
      if a = "0x00000000000000000000000000000000000000aa" then List.replicate 20 170
      else List.replicate 20 187
    TxHashHex := fun t => "0x" ++ toString t.tx.Value }

/-- A chain client that reports a balance of 10^18 wei for the address of user 7 and
of 2 × 10^18 wei for every other one, nonce 0, a gas price of 20 Gwei, and accepts
every transaction. -/
def fundedClient : EthClient where
  BalanceAt := fun a =>
    if a = List.replicate 20 170 then .ok 1000000000000000000 else .ok 2000000000000000000
  PendingNonceAt := fun _ => .ok 0
  SuggestGasPrice := .ok 20000000000
  SendTransaction := fun _ => none

/-- A sweeper with the client `fundedClient`. -/
def fundedSweeper : SweeperService Nat :=
  { simulatedSweeper with ethClient := some fundedClient }

/-- The transaction that sweeps the deposit address of user 7 under `fundedClient`. -/
def firstSweepTx : SignedTx where
  tx := {
    Nonce := 0
    To := List.replicate 20 0
    Value := 999580000000000000
    Gas := 21000
    GasPrice := 20000000000
    Data := [] }
  sig := [1]

/-- The transaction that sweeps the deposit address of user 8 under `fundedClient`. -/
def secondSweepTx : SignedTx where
  tx := {
    Nonce := 0
    To := List.replicate 20 0
    Value := 1999580000000000000
    Gas := 21000
    GasPrice := 20000000000
    Data := [] }
  sig := [1]

/-- The Collection row of the sweep `firstSweepTx`. -/
def firstSweepRow : Collection where
  ID := 1
  DepositID := 0
  TxHash := "0x999580000000000000"
  FromAddress := "0x00000000000000000000000000000000000000aa"
  ToAddress := "0x0000000000000000000000000000000000000000"
  Amount := { value := 999580000000000000, exp := 0 }
  GasFee := { value := 420000000000000, exp := 0 }
  Status := "pending"

/-- A Redis server that can be reached and holds no key. -/
def emptyRedis : Redis where
  reachable := true
  keys := []

/-- The world after `oneEtherEvent` was handled once under `fundedClient`. -/
def sweptWorld : World where
  db := { toyWorld.db with collections := [firstSweepRow] }
  sent := [firstSweepTx]

/-- The client `fundedClient` once the account has sent a transaction: nonce 1. -/
def refundedClient : EthClient :=
  { fundedClient with PendingNonceAt := fun _ => .ok 1 }

/-- A sweeper with the client `refundedClient`. -/
def refundedSweeper : SweeperService Nat :=
  { simulatedSweeper with ethClient := some refundedClient }

/-- The transaction that sweeps the deposit address of user 7 under `refundedClient`. -/
def resweepTx : SignedTx :=
  { firstSweepTx with tx := { firstSweepTx.tx with Nonce := 1 } }

/-- Stand-in for `decimal.NewFromString`: it knows the strings of decimal digits. -/
def digitsNewFromString (s : String) : Except GoError Decimal :=
  if s.data ≠ [] ∧ s.data.all (fun c => 48 ≤ c.toNat ∧ c.toNat ≤ 57) then
    .ok { value := s.data.foldl (fun n c => 10 * n + (c.toNat - 48 : Nat)) (0 : Nat), exp := 0 }
  else .error (.lib ("can't convert " ++ s ++ " to decimal"))

/-- Stand-in for the libraries of the observer: the payload is the list of the
character codes of amount, chain, hash and user id, separated by commas. -/
def toyObserverLib : ObserverLib where
  NewFromString := digitsNewFromString
  DecimalString := fun d => toString d.value
  Marshal := fun userID amount txHash chain =>
    .ok ((amount ++ "," ++ chain ++ "," ++ txHash ++ "," ++ toString userID).data.map
      (fun c => Fin.ofNat c.toNat))

/-- A transfer of 5 to the deposit address of user 7. -/
def toyTransfer : observer.Transaction where
  Hash := "0xabc"
  From := "0x00000000000000000000000000000000000000cc"
  To := "0x00000000000000000000000000000000000000aa"
  Value := "5"
  Status := 1

/-- The transfer `toyTransfer` with a value that is not a number. -/
def malformedTransfer : observer.Transaction :=
  { toyTransfer with Value := "abc" }

/-- The transfer `toyTransfer` with the value 10^15, which has too many digits for
the column `decimal(32,18)`. -/
def hugeTransfer : observer.Transaction :=
  { toyTransfer with Value := "1000000000000000" }

/-- Stand-in for a message bus: its state is the list of the payloads it accepted;
it refuses the topic "down". -/
def toyProducer : Producer (List Bytes) where
  Publish := fun bus topic _ payload =>
    if topic = "down" then (bus, some (.lib "broker unreachable"))
    else (bus ++ [payload], none)

/-- A pending outbox row with the id `id`, the topic `topic` and the payload `[id]`. -/
def pendingMessage (id : Nat) (topic : String) : OutboxMessage where
  ID := id
  Topic := topic
  Payload := [Fin.ofNat id]
  Status := "PENDING"
  DeletedAt := none

/-- A database whose outbox returns the pending row 2 before the pending row 1. -/
def unorderedOutboxDB : DB :=
  { emptyDB with
    outbox := [pendingMessage 2 "wallet_events_deposit", pendingMessage 1 "wallet_events_deposit"] }

/-- A database whose outbox holds the pending rows 1 (topic "down"), 2 and a sent
row 3. -/
def mixedOutboxDB : DB :=
  { emptyDB with
    outbox := [pendingMessage 1 "down", pendingMessage 2 "wallet_events_deposit",
      { pendingMessage 3 "wallet_events_deposit" with Status := "SENT" }] }

/-- Stand-in for extended public keys: `toyKeyOps` with `IsPrivate` false. -/
def toyPublicKeyOps : KeyOps Nat :=
  { toyKeyOps with IsPrivate := fun _ => false, String := fun _ => "xpub" }

/-- The network parameters named "mainnet". -/
def toyNetwork : chaincfg.Params where
  Name := "mainnet"

/-- Stand-in for the serialisations and the generators: the address is "btc" or
"eth" followed by the low hex digit of the first byte of the key. -/
def toyAddressLib : AddressLib where
  SerializeCompressed := fun k => k
  SerializeUncompressed := fun k => k
  BTCPubKeyToAddress := fun _ k => .ok ("btc" ++ String.mk [ldigit ((k.headD 0).val % 16)])
  ETHPubKeyToAddress := fun k => .ok ("eth" ++ String.mk [ldigit ((k.headD 0).val % 16)])

/-- Stand-in for public keys whose EC public key is the one byte `k % 256`. -/
def indexedKeyOps : KeyOps Nat :=
  { toyPublicKeyOps with ECPubKey := fun k => .ok [Fin.ofNat k] }

/-- The address service over the stand-ins, with master key 1. -/
def toyAddressService : SQLAddressService Nat where
  masterKey := 1
  btcGen := toyAddressLib.BTCPubKeyToAddress toyNetwork
  ethGen := toyAddressLib.ETHPubKeyToAddress
  networkType := "mainnet"

/-- A database with the address row of user 8 on "ETH" at path index 1. -/
def takenIndexDB : DB :=
  { emptyDB with
    addresses := [{ ID := 1, UserID := 8, Chain := "ETH", Address := "eth9", HDPathIndex := 1 }] }

/-- Stand-in for `strconv.Quote`: the text between double quotes, nothing escaped. -/
def toyQuote (s : String) : String :=
  "\"" ++ s ++ "\""

/-- Stand-in for extended keys: a key is the list of the indices it was derived
with, the last one first. -/
def pathKeyOps : KeyOps (List Nat) where
  ECPubKey := fun _ => .ok [2]
  ECPrivKey := fun _ => .ok [1]
  Derive := fun k i => .ok (i :: k)
  IsPrivate := fun _ => true
  Address := fun _ => "unknown"
  Neuter := fun k => .ok k
  String := fun _ => "xprv"

/-- Stand-in for Keccak-256: 32 bytes, byte `i` being `37 * i + 11` plus the sum of
the input, modulo 256. -/
def toyKeccak (data : Bytes) : Bytes :=
  (List.range 32).map (fun i =>
    (Fin.ofNat (37 * i + 11 + data.foldl (fun n b => n + b.val) 0) : Byte))

/-- Stand-in for the libraries of the generator. -/
def toyKeccakLib : KeccakLib where
  Keccak256 := toyKeccak
  UnicodeToLower := fun s => s
  UnicodeToUpper := fun c => [c]

/-- Stand-in for go-bip39: the entropy is the next `bitSize / 8` bytes of the tape,
the mnemonic the entropy itself. -/
def toyBip39 : Bip39Lib where
  NewEntropy := fun bitSize tape =>
    if bitSize % 32 ≠ 0 ∨ bitSize < 128 ∨ bitSize > 256 then
      .error (.errorsNew "Entropy length must be [128, 256] and a multiple of 32")
    else .ok (tape.take (bitSize / 8).toNat, tape.drop (bitSize / 8).toNat)
  NewMnemonic := fun entropy => .ok entropy

/-- A run of `init` with the password "secret" typed twice and no file in the way. -/
def toyInitEnv : InitEnv where
  outputFile := "wallet.json"
  fileExists := false
  password := .ok [115, 101, 99, 114, 101, 116]
  confirmPassword := .ok [115, 101, 99, 114, 101, 116]
  tape := toyTape
  writeFile := fun _ _ => none

/-- Stand-in for the Shamir library with the checks of the library on its
arguments: share `i` is the secret followed by the byte `i`, and `Combine` takes the
secret from the first part. (It shares nothing secretly.) -/
def toyShamir : ShamirLib where
  Split := fun _ secret parts threshold =>
    if parts < threshold then .error (.lib "parts cannot be less than threshold")
    else if parts > 255 then .error (.lib "parts cannot exceed 255")
    else if threshold < 2 then .error (.lib "threshold must be at least 2")
    else if threshold > 255 then .error (.lib "threshold cannot exceed 255")
    else if secret.length = 0 then .error (.lib "cannot split an empty secret")
    else .ok ((List.range parts.toNat).map (fun i => secret ++ [(Fin.ofNat (i + 1) : Byte)]))
  Combine := fun parts =>
    if parts.length < 2 then
      .error (.lib "less than two parts cannot be used to reconstruct the secret")
    else
      match parts with
      | first :: _ =>
        if first.length < 2 then .error (.lib "parts must be at least two bytes")
        else .ok first.dropLast
      | [] => .error (.lib "less than two parts cannot be used to reconstruct the secret")

/-- Stand-in for the libraries of the observer that also knows the value "0.5". -/
def mockObserverLib : ObserverLib :=
  { toyObserverLib with
    NewFromString := fun s =>
      if s = "0.5" then .ok { value := 5, exp := -1 } else digitsNewFromString s }

/-- A database with the ETH deposit address of user 7 that `mockFetchBlock` sends
to. -/
def mockAddressDB : DB :=
  { emptyDB with
    addresses := [{ ID := 1, UserID := 7, Chain := "ETH",
                    Address := "0x40ceeEdE9fA9ee09e594aFFb63CFc4994aF5B14e", HDPathIndex := 1 }] }

/-- An observer at height 5 with an empty queue for one worker. -/
def startedObserver : EthObserver where
  currentHeight := 5
  blocksChan := []
  capacity := 2

/-- A stand-in for DES in CBC mode: every byte is moved by the first byte of the key. -/
def toyDES : DESLib where
  CryptBlocks := fun key _ src => src.map (fun b => b - key.headD 0)

/-- A DES key of 8 bytes. -/
def desKey : Bytes := [1, 2, 3, 4, 5, 6, 7, 8]

/-- A ciphertext that is the initialisation vector and nothing else. -/
def ivOnly : Bytes := [9, 9, 9, 9, 9, 9, 9, 9]

/-- A stand-in for the curve and the hash: the group of the integers modulo 13 with
base point 1. The left half of the hash is a number from 1 to 11 made from the sums
of the key and of the data, the right half repeats the sum of the data. -/
def toyHD : HDLib (ZMod 13) where
  G := 1
  n := 13
  serP := fun p => [2, Fin.ofNat p.val]
  HMACSHA512 := fun key data =>
    List.replicate 31 0 ++
      [Fin.ofNat (1 + (key.foldl (fun n b => n + b.val) 0
        + data.foldl (fun n b => n + b.val) 0) % 11)] ++
      List.replicate 32 (Fin.ofNat (data.foldl (fun n b => n + b.val) 0))
  Address := fun _ => .ok "1toy"
  String := fun k => if hdkeychain.IsPrivate k then "xprv" else "xpub"

/-! # Theorems -/

/-! ## Hex printing and scanning -/

set_option maxRecDepth 100000 in
theorem hexDigit_ldigit : ∀ n, n < 16 → hexDigit (ldigit n) = some n := by
  decide

set_option maxRecDepth 100000 in
theorem ldigit_not_space : ∀ n, n < 16 → isSpace (ldigit n) = false ∧ ldigit n ≠ '\n' := by
  decide

theorem byte_join (b : Byte) : (Fin.ofNat (b.val / 16 * 16 + b.val % 16) : Byte) = b := by
  apply Fin.ext
  simp [Fin.ofNat]
  omega

theorem hexBytes_hexChars (bs : Bytes) : hexBytes (hexChars bs) = .ok bs := by
  induction bs with
  | nil => rfl
  | cons b bs ih =>
    have h1 : b.val / 16 < 16 := by omega
    have h2 : b.val % 16 < 16 := by omega
    simp [hexChars, hexOfByte, hexBytes, hexDigit_ldigit _ h1, hexDigit_ldigit _ h2, ih,
      byte_join]

theorem skipSpace_hexChars (b : Byte) (bs : Bytes) :
    skipSpace (hexChars (b :: bs)) = .ok (hexChars (b :: bs)) := by
  have h1 : b.val / 16 < 16 := by omega
  obtain ⟨hs, hn⟩ := ldigit_not_space _ h1
  simp [hexChars, hexOfByte, skipSpace, hs, hn]

theorem sscanfHex_hexChars (bs : Bytes) (hne : bs ≠ []) : sscanfHex (hexChars bs) = .ok bs := by
  cases bs with
  | nil => exact absurd rfl hne
  | cons b bs =>
    have hk := skipSpace_hexChars b bs
    have hb := hexBytes_hexChars (b :: bs)
    unfold sscanfHex
    rw [hk]
    simp only [hk]
    have hc : hexChars (b :: bs) = ldigit (b.val / 16) :: ldigit (b.val % 16) :: hexChars bs := rfl
    rw [hc] at hb ⊢
    simp only [hb]

/-- What `%x` prints for a non-empty byte slice, `parseHex` reads back. -/
theorem parseHex_sprintfHex (bs : Bytes) (hne : bs ≠ []) : parseHex (sprintfHex bs) = .ok bs := by
  simpa [parseHex, sprintfHex] using sscanfHex_hexChars bs hne

theorem hexChars_length (bs : Bytes) : (hexChars bs).length = 2 * bs.length := by
  induction bs with
  | nil => rfl
  | cons b bs ih => simp [hexChars, hexOfByte, ih]; omega

theorem compareMACLoop_eq : ∀ (a b : Bytes), a.length = b.length →
    (compareMACLoop a b = true ↔ a = b)
  | [], [], _ => by simp [compareMACLoop]
  | [], _ :: _, h => by simp at h
  | _ :: _, [], h => by simp at h
  | x :: xs, y :: ys, h => by
    have ih := compareMACLoop_eq xs ys (by simpa using h)
    by_cases hxy : x = y
    · simp [compareMACLoop, hxy, ih]
    · simp [compareMACLoop, hxy]

/-- The loop of `compareMAC` decides equality of the two slices. -/
theorem compareMAC_eq_true (a b : Bytes) : compareMAC a b = true ↔ a = b := by
  unfold compareMAC
  by_cases h : a.length = b.length
  · simp [h, compareMACLoop_eq a b h]
  · simp [h]
    intro hab
    exact h (by rw [hab])

theorem readFull_ok {tape : Bytes} {n : Nat} {buf rest : Bytes}
    (h : readFull tape n = .ok (buf, rest)) :
    buf = tape.take n ∧ rest = tape.drop n ∧ buf.length = n := by
  unfold readFull at h
  split at h
  · rename_i hle
    simp only [Except.ok.injEq, Prod.mk.injEq] at h
    obtain ⟨h1, h2⟩ := h
    subst h1 h2
    simp [hle]
  · split at h <;> simp at h

/-! ## keystore.go -/

/-- What a successful `EncryptMnemonic` has computed. -/
theorem EncryptMnemonic_ok {L : CryptoLib} {tape m p : Bytes} {env : EncryptedKeyJSON}
    (h : EncryptMnemonic L tape m p = .ok env) :
    ∃ K : Bytes,
      (tape.take 32).length = 32 ∧ ((tape.drop 32).take 12).length = 12 ∧
      L.scryptKey p (tape.take 32) scryptN scryptR scryptP scryptDKLen = .ok K ∧
      (K.length = 16 ∨ K.length = 24 ∨ K.length = 32) ∧
      env = {
        Version := 3
        Id := generateUUID ((tape.drop 32).drop 12)
        Crypto := {
          Cipher := "aes-256-gcm"
          CipherText := sprintfHex (L.gcmSeal K ((tape.drop 32).take 12) m)
          CipherParams := { IV := sprintfHex ((tape.drop 32).take 12) }
          KDF := "scrypt"
          KDFParams := {
            DKLen := 32
            N := 262144
            R := 8
            P := 1
            Salt := sprintfHex (tape.take 32) }
          MAC := sprintfHex
            (L.sha256Sum256 (K ++ L.gcmSeal K ((tape.drop 32).take 12) m)).val } } := by
  unfold EncryptMnemonic at h
  split at h
  · simp at h
  · rename_i salt tape1 hsalt
    obtain ⟨hs1, hs2, hs3⟩ := readFull_ok hsalt
    split at h
    · simp at h
    · rename_i K hK
      split at h
      · simp at h
      · rename_i block hblock
        split at h
        · simp at h
        · rename_i nonce tape2 hnonce
          obtain ⟨hn1, hn2, hn3⟩ := readFull_ok hnonce
          have hlen : (K.length = 16 ∨ K.length = 24 ∨ K.length = 32) ∧ block = K := by
            unfold aesNewCipher at hblock
            split at hblock
            · rename_i hl
              simp only [Except.ok.injEq] at hblock
              exact ⟨hl, hblock.symm⟩
            · simp at hblock
          obtain ⟨hl, hbk⟩ := hlen
          subst hbk hs1 hs2 hn1 hn2
          refine ⟨block, hs3, hn3, hK, hl, ?_⟩
          simp only [Except.ok.injEq] at h
          rw [← h]
          rfl

theorem aesNewCipher_inv {K block : Bytes} (h : aesNewCipher K = .ok block) :
    (K.length = 16 ∨ K.length = 24 ∨ K.length = 32) ∧ block = K := by
  unfold aesNewCipher at h
  split at h
  · rename_i hl
    simp only [Except.ok.injEq] at h
    exact ⟨hl, h.symm⟩
  · simp at h

theorem aesNewCipher_ok {K : Bytes} (h : K.length = 16 ∨ K.length = 24 ∨ K.length = 32) :
    aesNewCipher K = .ok K := by
  simp [aesNewCipher, h]

/-- Decrypting a fresh envelope with any password `p2`: scrypt derives a key `K2`
from `p2` and the stored salt, the MAC check compares the SHA-256 of
`K2 ‖ ciphertext` with the stored one, then AES-GCM opens the ciphertext under `K2`. -/
theorem DecryptMnemonic_fresh {L : CryptoLib} (hG : GCMContract L) {tape m p p2 : Bytes}
    {env : EncryptedKeyJSON} {K : Bytes}
    (h : EncryptMnemonic L tape m p = .ok env)
    (hK : L.scryptKey p (tape.take 32) scryptN scryptR scryptP scryptDKLen = .ok K) :
    DecryptMnemonic L env p2 =
      match L.scryptKey p2 (tape.take 32) scryptN scryptR scryptP scryptDKLen with
      | .error e => .error e
      | .ok K2 =>
        if (L.sha256Sum256 (K ++ L.gcmSeal K ((tape.drop 32).take 12) m)).val =
            (L.sha256Sum256 (K2 ++ L.gcmSeal K ((tape.drop 32).take 12) m)).val then
          match aesNewCipher K2 with
          | .error e => .error e
          | .ok block =>
            match L.gcmOpen block ((tape.drop 32).take 12)
                (L.gcmSeal K ((tape.drop 32).take 12) m) with
            | .error (.error err) => .error (.error (.fmtErrorf "decryption failed: " err))
            | .error (.panic msg) => .error (.panic msg)
            | .ok plaintext => .ok plaintext
        else
          .error (.error (.errorsNew "invalid password or corrupted data (MAC mismatch)")) := by
  obtain ⟨K1, hs, hn, hK1, hl, henv⟩ := EncryptMnemonic_ok h
  rw [hK] at hK1
  simp only [Except.ok.injEq] at hK1
  subst hK1
  have hsalt : parseHex (sprintfHex (tape.take 32)) = .ok (tape.take 32) :=
    parseHex_sprintfHex _ (by intro h0; rw [h0] at hs; simp at hs)
  have hnonce : parseHex (sprintfHex ((tape.drop 32).take 12)) = .ok ((tape.drop 32).take 12) :=
    parseHex_sprintfHex _ (by intro h0; rw [h0] at hn; simp at hn)
  have hct : parseHex (sprintfHex (L.gcmSeal K ((tape.drop 32).take 12) m)) =
      .ok (L.gcmSeal K ((tape.drop 32).take 12) m) :=
    parseHex_sprintfHex _ (by
      intro h0
      have := hG.seal_length K ((tape.drop 32).take 12) m
      rw [h0] at this
      simp at this)
  have hmac : parseHex (sprintfHex
      (L.sha256Sum256 (K ++ L.gcmSeal K ((tape.drop 32).take 12) m)).val) =
      .ok (L.sha256Sum256 (K ++ L.gcmSeal K ((tape.drop 32).take 12) m)).val :=
    parseHex_sprintfHex _ (by
      intro h0
      have := (L.sha256Sum256 (K ++ L.gcmSeal K ((tape.drop 32).take 12) m)).property
      rw [h0] at this
      simp at this)
  subst henv
  unfold DecryptMnemonic
  simp only [parseHexOr, hsalt, hnonce, hct, hmac]
  simp only [scryptN, scryptR, scryptP, scryptDKLen]
  cases hK2 : L.scryptKey p2 (tape.take 32) 262144 8 1 32 with
  | error e => rfl
  | ok K2 =>
    simp only []
    by_cases hm : (L.sha256Sum256 (K ++ L.gcmSeal K ((tape.drop 32).take 12) m)).val =
        (L.sha256Sum256 (K2 ++ L.gcmSeal K ((tape.drop 32).take 12) m)).val
    · have hc := (compareMAC_eq_true _ _).mpr hm
      rw [if_pos hm]
      simp only [hc, Bool.not_true, Bool.false_eq_true, if_false]
    · have hc : compareMAC
          (L.sha256Sum256 (K ++ L.gcmSeal K ((tape.drop 32).take 12) m)).val
          (L.sha256Sum256 (K2 ++ L.gcmSeal K ((tape.drop 32).take 12) m)).val = false := by
        rw [Bool.eq_false_iff]
        intro hc
        exact hm ((compareMAC_eq_true _ _).mp hc)
      rw [if_neg hm]
      simp only [hc, Bool.not_false, if_true]

/-- A password that derives the same key decrypts a fresh envelope. -/
theorem DecryptMnemonic_same_key {L : CryptoLib} (hG : GCMContract L) {tape m p p2 : Bytes}
    {env : EncryptedKeyJSON} {K : Bytes}
    (h : EncryptMnemonic L tape m p = .ok env)
    (hK : L.scryptKey p (tape.take 32) scryptN scryptR scryptP scryptDKLen = .ok K)
    (hK2 : L.scryptKey p2 (tape.take 32) scryptN scryptR scryptP scryptDKLen = .ok K) :
    DecryptMnemonic L env p2 = .ok m := by
  rw [DecryptMnemonic_fresh hG h hK, hK2]
  obtain ⟨K1, hs, hn, hK1, hl, -⟩ := EncryptMnemonic_ok h
  rw [hK] at hK1
  simp only [Except.ok.injEq] at hK1
  subst hK1
  simp only [if_true, aesNewCipher_ok hl, hG.open_seal K _ m hl hn]

/-- With 44 bytes of entropy and a 32 byte key from scrypt, `EncryptMnemonic` succeeds. -/
theorem EncryptMnemonic_succeeds (L : CryptoLib) (tape m p K : Bytes) (ht : 44 ≤ tape.length)
    (hK : L.scryptKey p (tape.take 32) scryptN scryptR scryptP scryptDKLen = .ok K)
    (hl : K.length = 32) : ∃ env, EncryptMnemonic L tape m p = .ok env := by
  have h1 : readFull tape 32 = .ok (tape.take 32, tape.drop 32) := by
    unfold readFull
    rw [if_pos (by omega)]
  have h2 : readFull (tape.drop 32) gcmNonceSize =
      .ok ((tape.drop 32).take 12, (tape.drop 32).drop 12) := by
    unfold readFull gcmNonceSize
    rw [if_pos (by simp; omega)]
  unfold EncryptMnemonic
  simp only [h1, hK, aesNewCipher_ok (Or.inr (Or.inr hl)), h2]
  exact ⟨_, rfl⟩

theorem toyLib_gcm : GCMContract toyLib where
  open_seal := by
    intro key nonce pt _ hn
    show toyOpen key nonce (toySeal key nonce pt) = .ok pt
    have ht : (toyTag key nonce).length = 16 := by simp [toyTag]
    unfold toyOpen toySeal
    rw [if_neg (by simpa using hn), if_neg (by simp [ht])]
    simp [ht]
  seal_length := by
    intro key nonce pt
    show (toySeal key nonce pt).length = pt.length + 16
    simp [toySeal, toyTag]

theorem toyLib_scrypt : ScryptContract toyLib := by
  intro password salt
  refine ⟨_, rfl, ?_⟩
  simp [scryptDKLen]
  omega

/-! ## Claims about the keystore -/

/-- C1. Round trip: whenever `EncryptMnemonic(m, p)` succeeds with envelope `env`,
`DecryptMnemonic(env, p)` returns exactly `m` and no error; the hex fields written
with `%x` are read back to the same salt, nonce, ciphertext and MAC. The AES-GCM
library is assumed to meet its contract (`Open` inverts `Seal`). -/
theorem DecryptMnemonic_EncryptMnemonic (L : CryptoLib) (hG : GCMContract L)
    (tape m p : Bytes) (env : EncryptedKeyJSON)
    (h : EncryptMnemonic L tape m p = .ok env) :
    DecryptMnemonic L env p = .ok m := by
  obtain ⟨K, -, -, hK, -, -⟩ := EncryptMnemonic_ok h
  exact DecryptMnemonic_same_key hG h hK hK

set_option maxRecDepth 100000 in
theorem DecryptMnemonic_EncryptMnemonic_witness :
    EncryptMnemonic toyLib toyTape toyMnemonic toyPassword = .ok toyEnvelope ∧
    DecryptMnemonic toyLib toyEnvelope toyPassword = .ok toyMnemonic :=
  ⟨by rfl, DecryptMnemonic_EncryptMnemonic toyLib toyLib_gcm toyTape toyMnemonic
    toyPassword toyEnvelope (by rfl)⟩

/-- C2, as stated, fails for every library that meets the contracts of scrypt and
AES-GCM: scrypt maps the passwords of 33 bytes, of which there are more than keys of
32 bytes, to keys, so two different passwords derive the same key, and each of them
decrypts what the other encrypted. -/
theorem wrong_password_not_always_rejected :
    ¬ ∃ L : CryptoLib, GCMContract L ∧ ScryptContract L ∧
      ∀ (tape m p p2 : Bytes) (env : EncryptedKeyJSON), p2 ≠ p →
        EncryptMnemonic L tape m p = .ok env → ∃ f, DecryptMnemonic L env p2 = .error f := by
  rintro ⟨L, hG, hS, hclaim⟩
  choose key hkey using fun pw : Bytes => hS pw (toyTape.take 32)
  let f : Mathlib.Vector Byte 33 → Mathlib.Vector Byte 32 :=
    fun v => ⟨key v.val, (hkey v.val).2⟩
  have hcard : Fintype.card (Mathlib.Vector Byte 32) < Fintype.card (Mathlib.Vector Byte 33) := by
    simp only [card_vector, Fintype.card_fin]
    exact Nat.pow_lt_pow_right (by norm_num) (by norm_num)
  obtain ⟨v, w, hne, hvw⟩ := Fintype.exists_ne_map_eq_of_card_lt f hcard
  have hkeq : key v.val = key w.val := congrArg Subtype.val hvw
  have hne2 : w.val ≠ v.val := fun hh => hne (Subtype.ext hh.symm)
  have hlen : 44 ≤ toyTape.length := by decide
  obtain ⟨env, henc⟩ := EncryptMnemonic_succeeds L toyTape [] v.val (key v.val) hlen
    (hkey v.val).1 (hkey v.val).2
  obtain ⟨flt, hflt⟩ := hclaim toyTape [] v.val w.val env hne2 henc
  have hw : L.scryptKey w.val (toyTape.take 32) scryptN scryptR scryptP scryptDKLen =
      .ok (key v.val) := by
    rw [hkeq]
    exact (hkey w.val).1
  rw [DecryptMnemonic_same_key hG henc (hkey v.val).1 hw] at hflt
  cases hflt

/-- C2, amended. For an envelope made by `EncryptMnemonic(m, p)` with key `K`, nonce
and ciphertext `ct`, and any password `p2`: `DecryptMnemonic` returns a plaintext only
if scrypt derives from `p2` a key `K2` whose SHA-256 over `K2 ‖ ct` equals the stored
MAC and under which AES-GCM opens `ct`; whenever the recomputed MAC differs from the
stored one it returns the MAC mismatch error and no plaintext. -/
theorem DecryptMnemonic_other_password (L : CryptoLib) (hG : GCMContract L)
    (tape m p p2 : Bytes) (env : EncryptedKeyJSON)
    (h : EncryptMnemonic L tape m p = .ok env) :
    ∃ K : Bytes, L.scryptKey p (tape.take 32) scryptN scryptR scryptP scryptDKLen = .ok K ∧
      (∀ x, DecryptMnemonic L env p2 = .ok x →
        ∃ K2, L.scryptKey p2 (tape.take 32) scryptN scryptR scryptP scryptDKLen = .ok K2 ∧
          (L.sha256Sum256 (K2 ++ L.gcmSeal K ((tape.drop 32).take 12) m)).val =
            (L.sha256Sum256 (K ++ L.gcmSeal K ((tape.drop 32).take 12) m)).val ∧
          L.gcmOpen K2 ((tape.drop 32).take 12) (L.gcmSeal K ((tape.drop 32).take 12) m) =
            .ok x) ∧
      (∀ K2, L.scryptKey p2 (tape.take 32) scryptN scryptR scryptP scryptDKLen = .ok K2 →
        (L.sha256Sum256 (K2 ++ L.gcmSeal K ((tape.drop 32).take 12) m)).val ≠
            (L.sha256Sum256 (K ++ L.gcmSeal K ((tape.drop 32).take 12) m)).val →
        DecryptMnemonic L env p2 =
          .error (.error (.errorsNew "invalid password or corrupted data (MAC mismatch)"))) := by
  obtain ⟨K, -, -, hK, -, -⟩ := EncryptMnemonic_ok h
  refine ⟨K, hK, ?_, ?_⟩
  · intro x hx
    rw [DecryptMnemonic_fresh hG h hK] at hx
    cases hK2 : L.scryptKey p2 (tape.take 32) scryptN scryptR scryptP scryptDKLen with
    | error e => rw [hK2] at hx; cases hx
    | ok K2 =>
      rw [hK2] at hx
      simp only [] at hx
      split at hx
      · rename_i hm
        refine ⟨K2, rfl, hm.symm, ?_⟩
        cases hb : aesNewCipher K2 with
        | error e => rw [hb] at hx; cases hx
        | ok block =>
          rw [hb] at hx
          obtain ⟨-, hbk⟩ := aesNewCipher_inv hb
          subst hbk
          simp only [] at hx
          cases ho : L.gcmOpen block ((tape.drop 32).take 12)
              (L.gcmSeal K ((tape.drop 32).take 12) m) with
          | error e =>
            rw [ho] at hx
            cases e <;> cases hx
          | ok pt =>
            rw [ho] at hx
            simp only [Except.ok.injEq] at hx
            rw [hx]
      · cases hx
  · intro K2 hK2 hne
    rw [DecryptMnemonic_fresh hG h hK, hK2]
    simp only []
    rw [if_neg (fun hh => hne hh.symm)]

set_option maxRecDepth 100000 in
theorem DecryptMnemonic_other_password_witness :
    toyOtherPassword ≠ toyPassword ∧
    DecryptMnemonic toyLib toyEnvelope toyOtherPassword =
      .error (.error (.errorsNew "invalid password or corrupted data (MAC mismatch)")) := by
  obtain ⟨K, hK, -, hmac⟩ := DecryptMnemonic_other_password toyLib toyLib_gcm toyTape
    toyMnemonic toyPassword toyOtherPassword toyEnvelope (by rfl)
  refine ⟨by decide, ?_⟩
  have hKv : K = (toyPassword ++ toyTape.take 32).take 32 := by
    have : toyLib.scryptKey toyPassword (toyTape.take 32) scryptN scryptR scryptP scryptDKLen
        = .ok ((toyPassword ++ toyTape.take 32).take 32) := by rfl
    rw [this] at hK
    simp only [Except.ok.injEq] at hK
    exact hK.symm
  subst hKv
  exact hmac ((toyOtherPassword ++ toyTape.take 32).take 32) (by rfl) (by decide)

/-- C3, as stated, fails: under the stand-in library the envelope `toyEnvelope`
opened with another password stops at the MAC check, the envelope with a changed tag
opened with the right password passes the MAC check and stops in AES-GCM, and the
two errors returned are different values with different messages. -/
theorem DecryptMnemonic_errors_differ :
    DecryptMnemonic toyLib toyEnvelope toyOtherPassword =
        .error (.error (.errorsNew "invalid password or corrupted data (MAC mismatch)")) ∧
    DecryptMnemonic toyLib toyTamperedEnvelope toyPassword =
        .error (.error (.fmtErrorf "decryption failed: "
          (.lib "cipher: message authentication failed"))) ∧
    (GoError.errorsNew "invalid password or corrupted data (MAC mismatch)").Error
        (fun _ => "") ≠
      (GoError.fmtErrorf "decryption failed: "
        (.lib "cipher: message authentication failed")).Error (fun _ => "") := by
  refine ⟨by rfl, by rfl, by decide⟩

theorem mac_message_ne_decryption_message (s : String) :
    "invalid password or corrupted data (MAC mismatch)" ≠ "decryption failed: " ++ s := by
  intro h
  have h2 := congrArg String.data h
  rw [String.data_append] at h2
  simp at h2

/-- C3, amended. When the hex fields parse and scrypt derives `K`: if the recomputed
MAC does not match, `DecryptMnemonic` returns the error
"invalid password or corrupted data (MAC mismatch)"; if it matches, `K` is an AES key
and `gcm.Open` fails with `err`, it returns the error "decryption failed: " followed
by the text of `err`. Both return no plaintext, and the two errors differ, as values
and in their messages, whatever `err` is. -/
theorem DecryptMnemonic_credential_errors (L : CryptoLib) (env : EncryptedKeyJSON)
    (password salt nonce ct mac K : Bytes)
    (hsalt : parseHex env.Crypto.KDFParams.Salt = .ok salt)
    (hiv : parseHex env.Crypto.CipherParams.IV = .ok nonce)
    (hct : parseHex env.Crypto.CipherText = .ok ct)
    (hmac : parseHex env.Crypto.MAC = .ok mac)
    (hK : L.scryptKey password salt env.Crypto.KDFParams.N env.Crypto.KDFParams.R
      env.Crypto.KDFParams.P env.Crypto.KDFParams.DKLen = .ok K) :
    (mac ≠ (L.sha256Sum256 (K ++ ct)).val →
      DecryptMnemonic L env password =
        .error (.error (.errorsNew "invalid password or corrupted data (MAC mismatch)"))) ∧
    (mac = (L.sha256Sum256 (K ++ ct)).val →
      (K.length = 16 ∨ K.length = 24 ∨ K.length = 32) →
      ∀ err, L.gcmOpen K nonce ct = .error (.error err) →
        DecryptMnemonic L env password =
          .error (.error (.fmtErrorf "decryption failed: " err))) ∧
    (∀ err : GoError,
      GoError.errorsNew "invalid password or corrupted data (MAC mismatch)" ≠
        GoError.fmtErrorf "decryption failed: " err) ∧
    (∀ (scanMsg : ScanError → String) (err : GoError),
      (GoError.errorsNew "invalid password or corrupted data (MAC mismatch)").Error scanMsg ≠
        (GoError.fmtErrorf "decryption failed: " err).Error scanMsg) := by
  refine ⟨?_, ?_, ?_, ?_⟩
  · intro hne
    have hc : compareMAC mac (L.sha256Sum256 (K ++ ct)).val = false := by
      rw [Bool.eq_false_iff]
      intro hc
      exact hne ((compareMAC_eq_true _ _).mp hc)
    unfold DecryptMnemonic
    simp only [parseHexOr, hsalt, hiv, hct, hmac, hK, hc, Bool.not_false, if_true]
  · intro heq hl err hopen
    have hc := (compareMAC_eq_true _ _).mpr heq
    unfold DecryptMnemonic
    simp only [parseHexOr, hsalt, hiv, hct, hmac, hK, hc, Bool.not_true, Bool.false_eq_true,
      if_false, aesNewCipher_ok hl, hopen]
  · intro err h
    cases h
  · intro scanMsg err
    exact mac_message_ne_decryption_message _

set_option maxRecDepth 100000 in
theorem DecryptMnemonic_credential_errors_witness :
    DecryptMnemonic toyLib toyTamperedEnvelope toyPassword =
      .error (.error (.fmtErrorf "decryption failed: "
        (.lib "cipher: message authentication failed"))) :=
  (DecryptMnemonic_credential_errors toyLib toyTamperedEnvelope toyPassword
    (toyTape.take 32) ((toyTape.drop 32).take 12)
    (toyMnemonic ++ List.replicate 15 145 ++ [144])
    ((toyPassword ++ toyTape.take 32).take 32) ((toyPassword ++ toyTape.take 32).take 32)
    (by rfl) (by rfl) (by rfl) (by rfl) (by rfl)).2.1 (by rfl) (by decide) _ (by rfl)

/-- C4. Every envelope returned by `EncryptMnemonic(m, p)` has version 3, cipher
"aes-256-gcm", kdf "scrypt", kdfparams dklen 32, n 262144, r 8, p 1, the hex of a 32
byte salt (64 digits), the hex of a 12 byte iv (24 digits), the hex of the ciphertext
`Seal(K, iv, m)` and as mac the hex (64 digits) of SHA-256(K ‖ ciphertext), where
`K = scrypt(p, salt, 262144, 8, 1, 32)` has 32 bytes, the key size of AES-256. That
scrypt returns `keyLen` bytes is the contract of the library. -/
theorem EncryptMnemonic_envelope (L : CryptoLib)
    (hlen : ∀ pw salt K, L.scryptKey pw salt 262144 8 1 32 = .ok K → K.length = 32)
    (tape m p : Bytes) (env : EncryptedKeyJSON)
    (h : EncryptMnemonic L tape m p = .ok env) :
    env.Version = 3 ∧ env.Crypto.Cipher = "aes-256-gcm" ∧ env.Crypto.KDF = "scrypt" ∧
    env.Crypto.KDFParams.DKLen = 32 ∧ env.Crypto.KDFParams.N = 262144 ∧
    env.Crypto.KDFParams.R = 8 ∧ env.Crypto.KDFParams.P = 1 ∧
    ∃ salt nonce K : Bytes,
      salt.length = 32 ∧ env.Crypto.KDFParams.Salt = sprintfHex salt ∧
      env.Crypto.KDFParams.Salt.length = 64 ∧
      nonce.length = 12 ∧ env.Crypto.CipherParams.IV = sprintfHex nonce ∧
      env.Crypto.CipherParams.IV.length = 24 ∧
      L.scryptKey p salt 262144 8 1 32 = .ok K ∧ K.length = 32 ∧
      env.Crypto.CipherText = sprintfHex (L.gcmSeal K nonce m) ∧
      env.Crypto.MAC = sprintfHex (L.sha256Sum256 (K ++ L.gcmSeal K nonce m)).val ∧
      env.Crypto.MAC.length = 64 := by
  obtain ⟨K, hs, hn, hK, -, henv⟩ := EncryptMnemonic_ok h
  subst henv
  refine ⟨rfl, rfl, rfl, rfl, rfl, rfl, rfl, tape.take 32, (tape.drop 32).take 12, K,
    hs, rfl, ?_, hn, rfl, ?_, hK, hlen _ _ _ hK, rfl, rfl, ?_⟩
  · simp only [sprintfHex, String.length, hexChars_length, hs]
  · simp only [sprintfHex, String.length, hexChars_length, hn]
  · simp only [sprintfHex, String.length, hexChars_length]
    rw [(L.sha256Sum256 _).property]

set_option maxRecDepth 100000 in
theorem EncryptMnemonic_envelope_witness :
    toyEnvelope.Crypto.KDFParams.Salt.length = 64 ∧ toyEnvelope.Crypto.MAC.length = 64 := by
  have hlen : ∀ pw salt K, toyLib.scryptKey pw salt 262144 8 1 32 = .ok K → K.length = 32 := by
    intro pw salt K hK
    have h2 : toyScryptKey pw salt 262144 8 1 32 = .ok K := hK
    simp only [toyScryptKey, Except.ok.injEq] at h2
    rw [← h2]
    simp
    omega
  obtain ⟨-, -, -, -, -, -, -, salt, nonce, K, -, -, h1, -, -, -, -, -, -, -, h2⟩ :=
    EncryptMnemonic_envelope toyLib hlen toyTape toyMnemonic toyPassword toyEnvelope (by rfl)
  exact ⟨h1, h2⟩

/-! ## The withdrawal review workflow -/

theorem First_ok {db : DB} {id : Nat} {w : Withdrawal} (h : First db id = .ok w) :
    w.ID = id ∧ w ∈ db.withdrawals := by
  unfold First at h
  split at h
  · rename_i w2 hf
    simp only [Except.ok.injEq] at h
    subst h
    have h1 := List.find?_some hf
    exact ⟨by simpa using h1, List.mem_of_find?_eq_some hf⟩
  · cases h

theorem find?_replace (l : List Withdrawal) (w2 : Withdrawal) (id : Nat) :
    (l.map (fun x => if x.ID = w2.ID then w2 else x)).find? (fun x => x.ID = id) =
      if id = w2.ID then (l.find? (fun x => x.ID = id)).map (fun _ => w2)
      else l.find? (fun x => x.ID = id) := by
  induction l with
  | nil => simp
  | cons x xs ih =>
    by_cases hid : id = w2.ID
    · subst hid
      rw [if_pos rfl] at ih ⊢
      by_cases hx : x.ID = w2.ID
      · simp [List.find?, hx]
      · simp [List.find?, hx, ih]
    · rw [if_neg hid] at ih ⊢
      by_cases hx : x.ID = w2.ID
      · have h1 : ¬ w2.ID = id := fun h => hid h.symm
        have h2 : ¬ x.ID = id := fun h => hid (h.symm.trans hx)
        simp [List.find?, hx, h1, h2, ih]
      · by_cases hx2 : x.ID = id
        · subst hx2
          simp [List.find?, hx]
        · simp [List.find?, hx, hx2, ih]

/-- Reading a withdrawal after `Save` of a row whose id is in the table. -/
theorem First_Save (db : DB) (w w2 : Withdrawal) (id : Nat)
    (hw : First db w2.ID = .ok w) :
    First (Save db w2) id = if id = w2.ID then .ok w2 else First db id := by
  have hmem := (First_ok hw).2
  have hid := (First_ok hw).1
  have hany : db.withdrawals.any (fun x => x.ID = w2.ID) = true := by
    rw [List.any_eq_true]
    exact ⟨w, hmem, by simpa using hid⟩
  unfold Save
  rw [if_pos hany]
  unfold First
  simp only [find?_replace]
  by_cases h : id = w2.ID
  · subst h
    simp only [if_true]
    unfold First at hw
    split at hw
    · rename_i w3 hf
      simp [hf]
    · cases hw
  · simp only [if_neg h]

theorem applyAction_ID (w : Withdrawal) (action : String) : (applyAction w action).ID = w.ID := by
  unfold applyAction
  split
  · simp only []
    split <;> rfl
  · split <;> rfl

/-- The ways a call of `ReviewWithdrawal` can go. -/
theorem ReviewWithdrawal_cases (db : DB) (txID adminID : Nat) (action remark : String) :
    (∃ e, First db txID = .error e ∧
      ReviewWithdrawal db txID adminID action remark = (db, some e)) ∨
    (∃ w, First db txID = .ok w ∧ w.Status ≠ "pending_review" ∧
      ReviewWithdrawal db txID adminID action remark = (db, some errNotPending)) ∨
    (∃ w, First db txID = .ok w ∧ w.Status = "pending_review" ∧
      countReviews db w.ID adminID > 0 ∧
      ReviewWithdrawal db txID adminID action remark = (db, some errAlreadyReviewed)) ∨
    (∃ w e, First db txID = .ok w ∧ w.Status = "pending_review" ∧
      countReviews db w.ID adminID = 0 ∧ varchar 16 action = .error e ∧
      ReviewWithdrawal db txID adminID action remark = (db, some e)) ∨
    (∃ w status, First db txID = .ok w ∧ w.Status = "pending_review" ∧
      countReviews db w.ID adminID = 0 ∧ varchar 16 action = .ok status ∧
      ReviewWithdrawal db txID adminID action remark =
        (reviewed db w adminID action status remark, none)) := by
  unfold ReviewWithdrawal Transaction reviewWithdrawalTx
  cases hF : First db txID with
  | error e => exact Or.inl ⟨e, rfl, rfl⟩
  | ok w =>
    right
    by_cases hs : w.Status = "pending_review"
    · right
      by_cases hc : countReviews db w.ID adminID > 0
      · left
        refine ⟨w, rfl, hs, hc, ?_⟩
        simp only [hs, ne_eq, not_true_eq_false, if_false, hc, if_true]
        rfl
      · right
        have hc0 : countReviews db w.ID adminID = 0 := by omega
        cases hv : varchar 16 action with
        | error e =>
          left
          refine ⟨w, e, rfl, hs, hc0, rfl, ?_⟩
          simp only [hs, ne_eq, not_true_eq_false, if_false, hc, CreateReview, hv]
        | ok status =>
          right
          refine ⟨w, status, rfl, hs, hc0, rfl, ?_⟩
          simp only [hs, ne_eq, not_true_eq_false, if_false, hc, CreateReview, hv,
            applyAction_ID, reviewed]
    · left
      refine ⟨w, rfl, hs, ?_⟩
      simp only [ne_eq, hs, not_false_eq_true, if_true]
      rfl

theorem ReviewWithdrawal_ok {db : DB} {txID adminID : Nat} {action remark status : String}
    {w : Withdrawal} (hw : First db txID = .ok w) (hs : w.Status = "pending_review")
    (hnone : countReviews db w.ID adminID = 0) (hv : varchar 16 action = .ok status) :
    ReviewWithdrawal db txID adminID action remark =
      (reviewed db w adminID action status remark, none) := by
  rcases ReviewWithdrawal_cases db txID adminID action remark with
    ⟨e, h1, -⟩ | ⟨w2, h1, h2, -⟩ | ⟨w2, h1, -, h3, -⟩ | ⟨w2, e, h1, -, -, h4, -⟩ |
    ⟨w2, st, h1, -, -, h4, h5⟩
  · rw [hw] at h1; cases h1
  · rw [hw] at h1; cases h1; exact absurd hs h2
  · rw [hw] at h1; cases h1; omega
  · rw [hv] at h4; cases h4
  · rw [hw] at h1; cases h1
    rw [hv] at h4; cases h4
    exact h5

theorem First_reviewed {db : DB} {txID adminID : Nat} {action remark status : String}
    {w : Withdrawal} (hw : First db txID = .ok w) (id : Nat) :
    First (reviewed db w adminID action status remark) id =
      if id = txID then .ok (applyAction w action) else First db id := by
  have hid := (First_ok hw).1
  unfold reviewed
  have h1 : First { db with reviews := db.reviews ++
      [{ ID := nextID (db.reviews.map (fun r => r.ID)), WithdrawalID := w.ID,
         AdminID := adminID, Status := status, Remark := remark }] }
      (applyAction w action).ID = .ok w := by
    rw [applyAction_ID, hid]
    exact hw
  rw [First_Save _ w _ id h1, applyAction_ID, hid]
  rfl

theorem wrapInt64_id {x : Int} (h1 : -2 ^ 63 ≤ x) (h2 : x < 2 ^ 63) : wrapInt64 x = x := by
  unfold wrapInt64
  omega

theorem varchar_approve : varchar 16 "approve" = .ok "approve" := by
  rfl

theorem varchar_reject : varchar 16 "reject" = .ok "reject" := by
  rfl

theorem reviewed_reviews (db : DB) (w : Withdrawal) (adminID : Nat)
    (action status remark : String) :
    (reviewed db w adminID action status remark).reviews = db.reviews ++
      [{ ID := nextID (db.reviews.map (fun r => r.ID)), WithdrawalID := w.ID,
         AdminID := adminID, Status := status, Remark := remark }] := by
  unfold reviewed Save
  split <;> rfl

/-- One call of `ReviewWithdrawal` either leaves a stored withdrawal as it is or, when
it is the reviewed one, in `pending_review` and not yet reviewed by the admin, applies
the action to it. -/
theorem First_after_review {db : DB} {id : Nat} {w : Withdrawal} (hw : First db id = .ok w)
    (txID adminID : Nat) (action remark : String) :
    First (ReviewWithdrawal db txID adminID action remark).1 id = .ok w ∨
    (txID = id ∧ w.Status = "pending_review" ∧ countReviews db w.ID adminID = 0 ∧
      (ReviewWithdrawal db txID adminID action remark).2 = none ∧
      First (ReviewWithdrawal db txID adminID action remark).1 id =
        .ok (applyAction w action)) := by
  rcases ReviewWithdrawal_cases db txID adminID action remark with
    ⟨e, -, h⟩ | ⟨w2, -, -, h⟩ | ⟨w2, -, -, -, h⟩ | ⟨w2, e, -, -, -, -, h⟩ |
    ⟨w2, st, h1, h2, h3, -, h⟩
  · left; rw [h]; exact hw
  · left; rw [h]; exact hw
  · left; rw [h]; exact hw
  · left; rw [h]; exact hw
  · rw [h]
    simp only []
    rw [First_reviewed h1]
    by_cases hid : id = txID
    · right
      subst hid
      rw [hw] at h1
      cases h1
      exact ⟨rfl, h2, h3, trivial, by rw [if_pos rfl]⟩
    · left
      rw [if_neg hid]
      exact hw

/-- A withdrawal that is not in `pending_review` is not changed by any sequence of
`ReviewWithdrawal` calls. -/
theorem First_runReviews_of_not_pending {id : Nat} {w : Withdrawal}
    (hs : w.Status ≠ "pending_review") (calls : List ReviewCall) :
    ∀ db : DB, First db id = .ok w → First (runReviews db calls) id = .ok w := by
  induction calls with
  | nil => intro db hw; exact hw
  | cons c cs ih =>
    intro db hw
    unfold runReviews
    apply ih
    rcases First_after_review hw c.txID c.adminID c.action c.remark with h | ⟨-, h, -⟩
    · exact h
    · exact absurd h hs

theorem ReviewWithdrawal_of_not_pending {db : DB} {txID : Nat} {w : Withdrawal}
    (hw : First db txID = .ok w) (hs : w.Status ≠ "pending_review")
    (adminID : Nat) (action remark : String) :
    ReviewWithdrawal db txID adminID action remark = (db, some errNotPending) := by
  rcases ReviewWithdrawal_cases db txID adminID action remark with
    ⟨e, h1, -⟩ | ⟨w2, -, -, h⟩ | ⟨w2, h1, h2, -⟩ | ⟨w2, e, h1, h2, -⟩ | ⟨w2, st, h1, h2, -⟩
  · rw [hw] at h1; cases h1
  · exact h
  · rw [hw] at h1; cases h1; exact absurd h2 hs
  · rw [hw] at h1; cases h1; exact absurd h2 hs
  · rw [hw] at h1; cases h1; exact absurd h2 hs

theorem rejected_after_reject {db : DB} {txID adminID : Nat} {remark : String}
    (h : (ReviewWithdrawal db txID adminID "reject" remark).2 = none) :
    ∃ w, First (ReviewWithdrawal db txID adminID "reject" remark).1 txID = .ok w ∧
      w.Status = "rejected" := by
  rcases ReviewWithdrawal_cases db txID adminID "reject" remark with
    ⟨e, -, h1⟩ | ⟨w2, -, -, h1⟩ | ⟨w2, -, -, -, h1⟩ | ⟨w2, e, -, -, -, -, h1⟩ |
    ⟨w2, st, h1, -, -, -, h5⟩
  · rw [h1] at h; cases h
  · rw [h1] at h; cases h
  · rw [h1] at h; cases h
  · rw [h1] at h; cases h
  · rw [h5]
    simp only []
    rw [First_reviewed h1, if_pos rfl]
    refine ⟨_, rfl, ?_⟩
    unfold applyAction
    have hne : ¬ ("reject" = "approve") := by decide
    simp only [hne, if_false, if_true]

theorem UniqueReviews_step {db : DB} (hu : UniqueReviews db) (txID adminID : Nat)
    (action remark : String) :
    UniqueReviews (ReviewWithdrawal db txID adminID action remark).1 := by
  rcases ReviewWithdrawal_cases db txID adminID action remark with
    ⟨e, -, h⟩ | ⟨w2, -, -, h⟩ | ⟨w2, -, -, -, h⟩ | ⟨w2, e, -, -, -, -, h⟩ |
    ⟨w2, st, h1, h2, h3, -, h⟩
  · rw [h]; exact hu
  · rw [h]; exact hu
  · rw [h]; exact hu
  · rw [h]; exact hu
  · rw [h]
    intro wid aid
    have hr := reviewed_reviews db w2 adminID action st remark
    unfold countReviews at h3 ⊢
    rw [hr, List.filter_append, List.length_append]
    have hold := hu wid aid
    unfold countReviews at hold
    by_cases hp : w2.ID = wid ∧ adminID = aid
    · obtain ⟨hp1, hp2⟩ := hp
      subst hp1 hp2
      rw [h3]
      simp
    · have : List.filter (fun r : WithdrawalReview => decide (r.WithdrawalID = wid ∧ r.AdminID = aid))
          [{ ID := nextID (db.reviews.map (fun r => r.ID)), WithdrawalID := w2.ID,
             AdminID := adminID, Status := st, Remark := remark }] = [] := by
        simp [List.filter, hp]
      rw [this]
      simpa using hold

theorem UniqueReviews_runReviews (calls : List ReviewCall) :
    ∀ db : DB, UniqueReviews db → UniqueReviews (runReviews db calls) := by
  induction calls with
  | nil => intro db hu; exact hu
  | cons c cs ih =>
    intro db hu
    unfold runReviews
    exact ih _ (UniqueReviews_step hu c.txID c.adminID c.action c.remark)

theorem le_foldl_max (l : List Nat) : ∀ a : Nat, a ≤ l.foldl max a ∧ ∀ x ∈ l, x ≤ l.foldl max a := by
  induction l with
  | nil => intro a; simp
  | cons y ys ih =>
    intro a
    obtain ⟨h1, h2⟩ := ih (max a y)
    refine ⟨le_trans (le_max_left a y) h1, ?_⟩
    intro x hx
    rcases List.mem_cons.mp hx with h | h
    · subst h
      exact le_trans (le_max_right a x) h1
    · exact h2 x h

/-- The id an `autoIncrement` key gets is not in the table. -/
theorem lt_nextID {ids : List Nat} {x : Nat} (hx : x ∈ ids) : x < nextID ids := by
  unfold nextID
  have := (le_foldl_max ids 0).2 x hx
  omega

theorem find?_append_new (l : List Withdrawal) (row : Withdrawal)
    (hfree : ∀ x ∈ l, x.ID ≠ row.ID) :
    (l ++ [row]).find? (fun x => x.ID = row.ID) = some row := by
  rw [List.find?_append]
  have hnone : l.find? (fun x => x.ID = row.ID) = none := by
    rw [List.find?_eq_none]
    intro x hx
    simpa using hfree x hx
  rw [hnone]
  simp [List.find?]

theorem withdrawalColumns_ok {req row : Withdrawal} (h : withdrawalColumns req = .ok row) :
    row.ID = req.ID ∧ row.RequiredApprovals = req.RequiredApprovals ∧
    row.CurrentApprovals = req.CurrentApprovals ∧ varchar 32 req.Status = .ok row.Status := by
  unfold withdrawalColumns at h
  split at h
  · cases h
  · split at h
    · cases h
    · split at h
      · cases h
      · split at h
        · cases h
        · split at h
          · cases h
          · rename_i status hst
            simp only [Except.ok.injEq] at h
            subst h
            exact ⟨rfl, rfl, rfl, hst⟩

/-- What a successful `CreateWithdrawal` has stored: a row under the returned id, in
`pending_review`, with two approvals required and none given. -/
theorem CreateWithdrawal_ok {db db0 : DB} {userID : Nat} {req row : Withdrawal}
    (h : CreateWithdrawal db userID req = (db0, row, none)) :
    ∃ w, First db0 row.ID = .ok w ∧ w.Status = "pending_review" ∧
      w.RequiredApprovals = 2 ∧ w.CurrentApprovals = 0 := by
  unfold CreateWithdrawal at h
  simp only [] at h
  split at h
  · cases h
  · rename_i db2 id hrow
    simp only [Prod.mk.injEq, and_true] at h
    obtain ⟨h1, h2⟩ := h
    subst h1 h2
    unfold CreateWithdrawalRow at hrow
    split at hrow
    · cases hrow
    · rename_i stored hcols
      obtain ⟨hid, hreq, hcur, hst⟩ := withdrawalColumns_ok hcols
      have hstatus : stored.Status = "pending_review" := by
        have hv : varchar 32 "pending_review" = .ok "pending_review" := by rfl
        simp only [] at hst
        rw [hv] at hst
        simp only [Except.ok.injEq] at hst
        exact hst.symm
      simp only [] at hreq hcur hid
      split at hrow
      · simp only [Except.ok.injEq, Prod.mk.injEq] at hrow
        obtain ⟨hdb, hidn⟩ := hrow
        subst hdb hidn
        refine ⟨{ stored with ID := nextID (db.withdrawals.map (fun w => w.ID)) }, ?_,
          hstatus, hreq, hcur⟩
        unfold First
        simp only []
        rw [find?_append_new db.withdrawals
          { stored with ID := nextID (db.withdrawals.map (fun w => w.ID)) }]
        intro x hx
        have hlt : x.ID < nextID (db.withdrawals.map (fun w => w.ID)) :=
          lt_nextID (List.mem_map_of_mem (fun w : Withdrawal => w.ID) hx)
        exact Nat.ne_of_lt hlt
      · split at hrow
        · cases hrow
        · rename_i hany
          simp only [Except.ok.injEq, Prod.mk.injEq] at hrow
          obtain ⟨hdb, hidn⟩ := hrow
          subst hdb hidn
          refine ⟨stored, ?_, hstatus, hreq, hcur⟩
          unfold First
          simp only []
          rw [← hid, find?_append_new db.withdrawals stored]
          intro x hx hxe
          apply hany
          rw [List.any_eq_true]
          exact ⟨x, hx, by simpa [hid] using hxe⟩

theorem ApprovalsInv_applyAction {w : Withdrawal} (hi : ApprovalsInv w)
    (hs : w.Status = "pending_review") (action : String) :
    ApprovalsInv (applyAction w action) := by
  obtain ⟨h1, h2, h3, h4⟩ := hi
  have h5 := h4 hs
  have hwrap : wrapInt64 (w.CurrentApprovals + 1) = w.CurrentApprovals + 1 :=
    wrapInt64_id (by omega) (by omega)
  unfold applyAction
  split
  · simp only [hwrap]
    split
    · refine ⟨h1, by simp only []; omega, by simp only []; omega, ?_⟩
      intro hc
      simp only [] at hc
      exact absurd hc (by decide)
    · rename_i hlt
      simp only [h1] at hlt
      refine ⟨h1, by simp only []; omega, by simp only []; omega, ?_⟩
      intro _
      simp only []
      omega
  · split
    · refine ⟨h1, h2, h3, ?_⟩
      intro hc
      simp only [] at hc
      exact absurd hc (by decide)
    · exact ⟨h1, h2, h3, h4⟩

theorem ApprovalsInv_runReviews (id : Nat) (calls : List ReviewCall) :
    ∀ (db : DB) (w : Withdrawal), First db id = .ok w → ApprovalsInv w →
      ∃ w2, First (runReviews db calls) id = .ok w2 ∧ ApprovalsInv w2 := by
  induction calls with
  | nil => intro db w hw hi; exact ⟨w, hw, hi⟩
  | cons c cs ih =>
    intro db w hw hi
    unfold runReviews
    rcases First_after_review hw c.txID c.adminID c.action c.remark with
      h | ⟨-, hs, -, -, h⟩
    · exact ih _ w h hi
    · exact ih _ _ h (ApprovalsInv_applyAction hi hs c.action)

/-! ## Claims about the withdrawal review -/

/-- The counter is a Go `int`: in a row whose `current_approvals` is
9223372036854775807, approving wraps the counter to -9223372036854775808. No code of
the repository writes such a row: `CreateWithdrawal` stores 0 and `ReviewWithdrawal`
stops at `required_approvals` = 2. -/
theorem ReviewWithdrawal_approve_wraps :
    First maxedDB 1 = .ok maxedWithdrawal ∧
    maxedWithdrawal.Status = "pending_review" ∧ countReviews maxedDB 1 7 = 0 ∧
    (ReviewWithdrawal maxedDB 1 7 "approve" "").2 = none ∧
    First (ReviewWithdrawal maxedDB 1 7 "approve" "").1 1 =
      .ok { maxedWithdrawal with CurrentApprovals := -9223372036854775808 } := by
  refine ⟨by rfl, by rfl, by rfl, by rfl, by rfl⟩

/-- For a withdrawal in `pending_review` whose `current_approvals` is an `int`
below the largest one, and an admin without a review row for it:
"approve" returns no error, appends exactly one review row, increases
`current_approvals` by exactly 1 and sets the status to `pending_broadcast` if the
new count reaches `required_approvals`, else leaves it `pending_review`; "reject"
returns no error, appends exactly one review row, sets the status to `rejected` and
leaves `current_approvals` as it was. -/
theorem ReviewWithdrawal_approve_reject (db : DB) (txID adminID : Nat) (remark : String)
    (w : Withdrawal) (hw : First db txID = .ok w) (hs : w.Status = "pending_review")
    (hnone : countReviews db w.ID adminID = 0)
    (hint : -2 ^ 63 ≤ w.CurrentApprovals ∧ w.CurrentApprovals < 2 ^ 63 - 1) :
    ((ReviewWithdrawal db txID adminID "approve" remark).2 = none ∧
      (ReviewWithdrawal db txID adminID "approve" remark).1.reviews = db.reviews ++
        [{ ID := nextID (db.reviews.map (fun r => r.ID)), WithdrawalID := w.ID,
           AdminID := adminID, Status := "approve", Remark := remark }] ∧
      First (ReviewWithdrawal db txID adminID "approve" remark).1 txID =
        .ok { w with
          CurrentApprovals := w.CurrentApprovals + 1
          Status := if w.CurrentApprovals + 1 ≥ w.RequiredApprovals then "pending_broadcast"
            else "pending_review" }) ∧
    ((ReviewWithdrawal db txID adminID "reject" remark).2 = none ∧
      (ReviewWithdrawal db txID adminID "reject" remark).1.reviews = db.reviews ++
        [{ ID := nextID (db.reviews.map (fun r => r.ID)), WithdrawalID := w.ID,
           AdminID := adminID, Status := "reject", Remark := remark }] ∧
      First (ReviewWithdrawal db txID adminID "reject" remark).1 txID =
        .ok { w with Status := "rejected" }) := by
  have hwrap : wrapInt64 (w.CurrentApprovals + 1) = w.CurrentApprovals + 1 :=
    wrapInt64_id (by omega) (by omega)
  constructor
  · rw [ReviewWithdrawal_ok hw hs hnone varchar_approve]
    refine ⟨rfl, ?_, ?_⟩
    · unfold reviewed Save
      split <;> rfl
    · rw [First_reviewed hw, if_pos rfl]
      unfold applyAction
      simp only [if_true, hwrap]
      split
      · rfl
      · rw [hs]
  · rw [ReviewWithdrawal_ok hw hs hnone varchar_reject]
    refine ⟨rfl, ?_, ?_⟩
    · unfold reviewed Save
      split <;> rfl
    · rw [First_reviewed hw, if_pos rfl]
      unfold applyAction
      have hne : ¬ ("reject" = "approve") := by decide
      simp only [hne, if_false, if_true]

theorem ReviewWithdrawal_approve_reject_witness :
    First (ReviewWithdrawal freshDB 1 7 "approve" "ok").1 1 =
      .ok { freshWithdrawal with CurrentApprovals := 1, Status := "pending_review" } :=
  (ReviewWithdrawal_approve_reject freshDB 1 7 "ok" freshWithdrawal (by rfl) (by rfl)
    (by rfl) (by decide)).1.2.2

/-- C5. A withdrawal is created by `CreateWithdrawal` and any sequence of
`ReviewWithdrawal` calls follows (for any withdrawals, admins and actions, failed
calls included). Whenever the stored withdrawal is then in `pending_review` and an
admin has no review row for it: "approve" by that admin returns no error, appends
exactly one review row, increases `current_approvals` by exactly 1 and sets the
status to `pending_broadcast` if the new count reaches `required_approvals`, else
leaves it `pending_review`; "reject" returns no error, appends exactly one review
row, sets the status to `rejected` and leaves `current_approvals` as it was. -/
theorem ReviewWithdrawal_transitions (db db0 : DB) (userID : Nat) (req row : Withdrawal)
    (hc : CreateWithdrawal db userID req = (db0, row, none)) (calls : List ReviewCall)
    (adminID : Nat) (remark : String) (w : Withdrawal)
    (hw : First (runReviews db0 calls) row.ID = .ok w) (hs : w.Status = "pending_review")
    (hnone : countReviews (runReviews db0 calls) w.ID adminID = 0) :
    ((ReviewWithdrawal (runReviews db0 calls) row.ID adminID "approve" remark).2 = none ∧
      (ReviewWithdrawal (runReviews db0 calls) row.ID adminID "approve" remark).1.reviews =
        (runReviews db0 calls).reviews ++
        [{ ID := nextID ((runReviews db0 calls).reviews.map (fun r => r.ID)),
           WithdrawalID := w.ID, AdminID := adminID, Status := "approve", Remark := remark }] ∧
      First (ReviewWithdrawal (runReviews db0 calls) row.ID adminID "approve" remark).1 row.ID =
        .ok { w with
          CurrentApprovals := w.CurrentApprovals + 1
          Status := if w.CurrentApprovals + 1 ≥ w.RequiredApprovals then "pending_broadcast"
            else "pending_review" }) ∧
    ((ReviewWithdrawal (runReviews db0 calls) row.ID adminID "reject" remark).2 = none ∧
      (ReviewWithdrawal (runReviews db0 calls) row.ID adminID "reject" remark).1.reviews =
        (runReviews db0 calls).reviews ++
        [{ ID := nextID ((runReviews db0 calls).reviews.map (fun r => r.ID)),
           WithdrawalID := w.ID, AdminID := adminID, Status := "reject", Remark := remark }] ∧
      First (ReviewWithdrawal (runReviews db0 calls) row.ID adminID "reject" remark).1 row.ID =
        .ok { w with Status := "rejected" }) := by
  obtain ⟨w0, hw0, hs0, hreq, hcur⟩ := CreateWithdrawal_ok hc
  have hi0 : ApprovalsInv w0 := by
    refine ⟨hreq, ?_, ?_, ?_⟩
    · rw [hcur]
    · rw [hcur]; decide
    · intro _; rw [hcur]; decide
  obtain ⟨w2, hw2, hi2⟩ := ApprovalsInv_runReviews row.ID calls db0 w0 hw0 hi0
  rw [hw] at hw2
  cases hw2
  obtain ⟨-, hlo, hhi, -⟩ := hi2
  exact ReviewWithdrawal_approve_reject (runReviews db0 calls) row.ID adminID remark w hw hs
    hnone ⟨by omega, by omega⟩

theorem ReviewWithdrawal_transitions_witness :
    First (ReviewWithdrawal (runReviews freshDB [⟨1, 7, "approve", "ok"⟩]) 1 8 "approve"
        "ok").1 1 =
      .ok { freshWithdrawal with CurrentApprovals := 2, Status := "pending_broadcast" } :=
  (ReviewWithdrawal_transitions emptyDB freshDB 1 freshRequest
    { freshRequest with
      ID := 1, Status := "pending_review", RequiredApprovals := 2, CurrentApprovals := 0 }
    (by rfl) [⟨1, 7, "approve", "ok"⟩] 8 "ok"
    { freshWithdrawal with CurrentApprovals := 1 } (by rfl) (by rfl) (by rfl)).1.2.2

/-- C6. For a stored withdrawal whose status is not `pending_review`,
`ReviewWithdrawal` returns the error "withdrawal is not in pending_review state" for
every admin and action and leaves the database as it was (no review row, status and
`current_approvals` unchanged), and this stays so after any further sequence of
`ReviewWithdrawal` calls. In particular, once a reject has succeeded for a withdrawal,
every later approve of it fails. -/
theorem ReviewWithdrawal_not_pending_review (db : DB) (txID : Nat) (w : Withdrawal)
    (hw : First db txID = .ok w) (hs : w.Status ≠ "pending_review") :
    (∀ (adminID : Nat) (action remark : String),
      ReviewWithdrawal db txID adminID action remark = (db, some errNotPending)) ∧
    (∀ (calls : List ReviewCall) (adminID : Nat) (action remark : String),
      First (runReviews db calls) txID = .ok w ∧
      ReviewWithdrawal (runReviews db calls) txID adminID action remark =
        (runReviews db calls, some errNotPending)) ∧
    (∀ (db0 : DB) (adminID : Nat) (remark : String),
      (ReviewWithdrawal db0 txID adminID "reject" remark).2 = none →
      ∀ (calls : List ReviewCall) (adminID2 : Nat) (remark2 : String),
        ReviewWithdrawal
            (runReviews (ReviewWithdrawal db0 txID adminID "reject" remark).1 calls)
            txID adminID2 "approve" remark2 =
          (runReviews (ReviewWithdrawal db0 txID adminID "reject" remark).1 calls,
            some errNotPending)) := by
  refine ⟨?_, ?_, ?_⟩
  · intro adminID action remark
    exact ReviewWithdrawal_of_not_pending hw hs adminID action remark
  · intro calls adminID action remark
    have h := First_runReviews_of_not_pending hs calls db hw
    exact ⟨h, ReviewWithdrawal_of_not_pending h hs adminID action remark⟩
  · intro db0 adminID remark hrej calls adminID2 remark2
    obtain ⟨w1, hw1, hs1⟩ := rejected_after_reject hrej
    have hne : w1.Status ≠ "pending_review" := by
      rw [hs1]
      decide
    exact ReviewWithdrawal_of_not_pending
      (First_runReviews_of_not_pending hne calls _ hw1) hne adminID2 "approve" remark2

theorem ReviewWithdrawal_not_pending_review_witness :
    (ReviewWithdrawal freshDB 1 7 "reject" "no").2 = none ∧
    ReviewWithdrawal (ReviewWithdrawal freshDB 1 7 "reject" "no").1 1 8 "approve" "ok" =
      ((ReviewWithdrawal freshDB 1 7 "reject" "no").1, some errNotPending) :=
  ⟨by rfl, (ReviewWithdrawal_not_pending_review
    (ReviewWithdrawal freshDB 1 7 "reject" "no").1 1
    { freshWithdrawal with Status := "rejected" } (by rfl) (by decide)).1 8 "approve" "ok"⟩

/-- C7. If an admin already has a review row for a stored withdrawal, a further
`ReviewWithdrawal` by that admin on it returns an error and changes neither the
withdrawals nor the review rows; and a database with at most one review row per
`(withdrawal_id, admin_id)`, such as one without review rows, keeps that property
over any sequence of `ReviewWithdrawal` calls. -/
theorem ReviewWithdrawal_duplicate (db : DB) (txID adminID : Nat) (action remark : String)
    (w : Withdrawal) (hw : First db txID = .ok w)
    (hdup : countReviews db w.ID adminID > 0) :
    (ReviewWithdrawal db txID adminID action remark =
        (db, some (if w.Status = "pending_review" then errAlreadyReviewed
          else errNotPending))) ∧
    (∀ (db0 : DB) (calls : List ReviewCall), UniqueReviews db0 →
      UniqueReviews (runReviews db0 calls)) ∧
    (∀ (db0 : DB) (calls : List ReviewCall), db0.reviews = [] →
      ∀ withdrawalID admin : Nat,
        countReviews (runReviews db0 calls) withdrawalID admin ≤ 1) := by
  refine ⟨?_, ?_, ?_⟩
  · rcases ReviewWithdrawal_cases db txID adminID action remark with
      ⟨e, h1, -⟩ | ⟨w2, h1, h2, h⟩ | ⟨w2, h1, h2, -, h⟩ | ⟨w2, e, h1, -, h3, -⟩ |
      ⟨w2, st, h1, -, h3, -⟩
    · rw [hw] at h1; cases h1
    · rw [hw] at h1; cases h1
      rw [h, if_neg h2]
    · rw [hw] at h1; cases h1
      rw [h, if_pos h2]
    · rw [hw] at h1; cases h1; omega
    · rw [hw] at h1; cases h1; omega
  · intro db0 calls hu
    exact UniqueReviews_runReviews calls db0 hu
  · intro db0 calls hnil
    apply UniqueReviews_runReviews calls db0
    intro wid aid
    unfold countReviews
    rw [hnil]
    simp

theorem ReviewWithdrawal_duplicate_witness :
    ReviewWithdrawal (ReviewWithdrawal freshDB 1 7 "approve" "ok").1 1 7 "approve" "again" =
      ((ReviewWithdrawal freshDB 1 7 "approve" "ok").1, some errAlreadyReviewed) :=
  (ReviewWithdrawal_duplicate (ReviewWithdrawal freshDB 1 7 "approve" "ok").1 1 7
    "approve" "again" { freshWithdrawal with CurrentApprovals := 1 } (by rfl) (by decide)).1

/-- C8. In every state reached from a withdrawal created by `CreateWithdrawal`
through any sequence of `ReviewWithdrawal` calls (any withdrawals, admins and
actions), the withdrawal is stored with `current_approvals ≤ required_approvals`,
and its status is `pending_review` only while
`current_approvals < required_approvals`. -/
theorem approvals_never_exceed_required (db db0 : DB) (userID : Nat) (req row : Withdrawal)
    (hc : CreateWithdrawal db userID req = (db0, row, none)) (calls : List ReviewCall) :
    ∃ w, First (runReviews db0 calls) row.ID = .ok w ∧
      w.CurrentApprovals ≤ w.RequiredApprovals ∧
      (w.Status = "pending_review" → w.CurrentApprovals < w.RequiredApprovals) := by
  obtain ⟨w0, hw0, hs, hreq, hcur⟩ := CreateWithdrawal_ok hc
  have hi : ApprovalsInv w0 := by
    refine ⟨hreq, ?_, ?_, ?_⟩
    · rw [hcur]
    · rw [hcur]; decide
    · intro _; rw [hcur]; decide
  obtain ⟨w, hw, h1, h2, h3, h4⟩ := ApprovalsInv_runReviews row.ID calls db0 w0 hw0 hi
  refine ⟨w, hw, ?_, ?_⟩
  · rw [h1]; exact h3
  · intro hp
    rw [h1]
    exact h4 hp

theorem approvals_never_exceed_required_witness :
    ∃ w, First (runReviews freshDB
        [⟨1, 7, "approve", "ok"⟩, ⟨1, 7, "approve", "again"⟩, ⟨1, 8, "approve", "ok"⟩,
         ⟨1, 9, "approve", "late"⟩]) 1 = .ok w ∧
      w.CurrentApprovals ≤ w.RequiredApprovals ∧
      (w.Status = "pending_review" → w.CurrentApprovals < w.RequiredApprovals) :=
  approvals_never_exceed_required emptyDB freshDB 1 freshRequest
    { freshRequest with
      ID := 1, Status := "pending_review", RequiredApprovals := 2, CurrentApprovals := 0 }
    (by rfl) _


/-! ## The broadcasters -/

/-- A primary key identifies the row. -/
theorem eq_of_ID_eq {l : List Withdrawal} (hpk : (l.map (fun w => w.ID)).Nodup)
    {x y : Withdrawal} (hx : x ∈ l) (hy : y ∈ l) (h : x.ID = y.ID) : x = y :=
  List.inj_on_of_nodup_map hpk hx hy h

theorem PollerStep_replace {orig cur : List Withdrawal} (w : Withdrawal) (now : Int)
    (hw : w.Status = "pending_broadcast")
    (huniq : ∀ x ∈ orig, x.ID = w.ID → x = w)
    (h : List.Forall₂ PollerStep orig cur) :
    List.Forall₂ PollerStep orig
      (cur.map (fun y => if y.ID = w.ID then
        { w with Status := "completed", TxHash := mockedTxHash w.ID now } else y)) := by
  induction h with
  | nil => exact List.Forall₂.nil
  | @cons x y xs ys hxy _ ih =>
    rw [List.map_cons]
    refine List.Forall₂.cons ?_ (ih (fun z hz => huniq z (List.mem_cons_of_mem _ hz)))
    have hyid : y.ID = x.ID := by
      rcases hxy with h1 | ⟨-, now2, h1⟩
      · rw [h1]
      · rw [h1]
    by_cases hid : y.ID = w.ID
    · have hxw : x = w := huniq x (List.mem_cons_self _ _) (hyid ▸ hid)
      rw [if_pos hid]
      subst hxw
      exact Or.inr ⟨hw, now, rfl⟩
    · rw [if_neg hid]
      exact hxy

theorem Forall₂_PollerStep_ID {orig cur : List Withdrawal}
    (h : List.Forall₂ PollerStep orig cur) :
    cur.map (fun w => w.ID) = orig.map (fun w => w.ID) := by
  induction h with
  | nil => rfl
  | @cons x y xs ys hxy _ ih =>
    simp only [List.map_cons, ih]
    rcases hxy with h1 | ⟨-, now2, h1⟩
    · rw [h1]
    · rw [h1]

theorem broadcastAll_steps (clock : Nat → Int) (orig : List Withdrawal)
    (hpk : (orig.map (fun w => w.ID)).Nodup) (ws : List Withdrawal) :
    ∀ (db : DB) (i : Nat),
      (∀ w ∈ ws, w ∈ orig ∧ w.Status = "pending_broadcast") →
      List.Forall₂ PollerStep orig db.withdrawals →
      List.Forall₂ PollerStep orig (broadcastAll clock db i ws).withdrawals ∧
      (broadcastAll clock db i ws).reviews = db.reviews ∧
      (broadcastAll clock db i ws).addresses = db.addresses ∧
      (broadcastAll clock db i ws).collections = db.collections := by
  induction ws with
  | nil => intro db i _ h; exact ⟨h, rfl, rfl, rfl⟩
  | cons w ws ih =>
    intro db i hws h
    obtain ⟨hmem, hst⟩ := hws w (List.mem_cons_self _ _)
    unfold broadcastAll
    have hany : db.withdrawals.any (fun x => x.ID = w.ID) = true := by
      rw [List.any_eq_true]
      have hin : w.ID ∈ db.withdrawals.map (fun w => w.ID) := by
        rw [Forall₂_PollerStep_ID h]
        exact List.mem_map_of_mem (fun w : Withdrawal => w.ID) hmem
      obtain ⟨x, hx, hxid⟩ := List.mem_map.mp hin
      exact ⟨x, hx, by simpa using hxid⟩
    have hsave : broadcastOne db w (clock i) =
        { db with
          withdrawals := List.map (fun y => if y.ID = w.ID then
            { w with Status := "completed", TxHash := mockedTxHash w.ID (clock i) } else y)
            db.withdrawals } := by
      unfold broadcastOne Save
      rw [if_pos hany]
    have hstep := PollerStep_replace w (clock i) hst
      (fun x hx hxid => eq_of_ID_eq hpk hx hmem hxid) h
    obtain ⟨h1, h2, h3, h4⟩ := ih (broadcastOne db w (clock i)) (i + 1)
      (fun z hz => hws z (List.mem_cons_of_mem _ hz)) (by rw [hsave]; exact hstep)
    refine ⟨h1, ?_, ?_, ?_⟩
    · rw [h2, hsave]
    · rw [h3, hsave]
    · rw [h4, hsave]

theorem Forall₂_refl_PollerStep (l : List Withdrawal) : List.Forall₂ PollerStep l l := by
  induction l with
  | nil => exact List.Forall₂.nil
  | cons x xs ih => exact List.Forall₂.cons (Or.inl rfl) ih

theorem Forall₂_refl_WorkerStep (l : List Withdrawal) : List.Forall₂ WorkerStep l l := by
  induction l with
  | nil => exact List.Forall₂.nil
  | cons x xs ih => exact List.Forall₂.cons (Or.inl rfl) ih

theorem broadcast_steps (db : DB) (tx : Withdrawal) (now : Int)
    (hst : tx.Status = "pending" ∨ tx.Status = "pending_broadcast")
    (huniq : ∀ x ∈ db.withdrawals, x.ID = tx.ID → x = tx) :
    List.Forall₂ WorkerStep db.withdrawals (broadcast db tx now).withdrawals := by
  unfold broadcast
  simp only []
  generalize db.withdrawals = l at huniq
  induction l with
  | nil => exact List.Forall₂.nil
  | cons x xs ih =>
    rw [List.map_cons]
    refine List.Forall₂.cons ?_ (ih (fun z hz => huniq z (List.mem_cons_of_mem _ hz)))
    by_cases hid : x.ID = tx.ID
    · rw [if_pos hid]
      have hx := huniq x (List.mem_cons_self _ _) hid
      subst hx
      exact Or.inr ⟨hst, now, rfl⟩
    · rw [if_neg hid]
      exact Or.inl rfl

theorem First_error_iff {db : DB} {id : Nat} {e : GoError} (h : First db id = .error e) :
    ∀ x ∈ db.withdrawals, x.ID ≠ id := by
  unfold First at h
  split at h
  · cases h
  · rename_i hnone
    rw [List.find?_eq_none] at hnone
    intro x hx
    simpa using hnone x hx


/-! ## Claims about the broadcasters and the sweeper -/

/-- C9, as stated, fails for the event-driven worker: for an event whose withdrawal
id 7 is not stored it broadcasts a stand-in built from the event, and a stored
withdrawal in status "pending", which no admin has approved, is broadcast and marked
completed. -/
theorem HandleWithdrawalEvent_broadcasts_unapproved :
    First emptyDB 7 = .error (.lib "record not found") ∧
    HandleWithdrawalEvent toyNewFromString emptyDB (.ok ⟨7, 1, "0xabc", "1", "ETH"⟩) 5 =
      (emptyDB,
       [{ ID := 7, UserID := 1, ToAddress := "0xabc", Amount := { value := 1, exp := 0 },
          Chain := "ETH", TxHash := "", Status := "pending", RequiredApprovals := 0,
          CurrentApprovals := 0 }],
       none) ∧
    HandleWithdrawalEvent toyNewFromString pendingDB (.ok ⟨1, 1, "0xabc", "1", "ETH"⟩) 5 =
      ({ emptyDB with withdrawals :=
          [{ pendingWithdrawal with Status := "completed", TxHash := "0x_kafka_broadcast_5" }] },
       [pendingWithdrawal], none) := by
  refine ⟨by rfl, by rfl, by rfl⟩

/-- C9, amended. With the primary key of the withdrawals unique: the polling
broadcaster hands to `broadcastOne` at most 10 withdrawals, each a stored row in
`pending_broadcast`, and changes a row only by completing one that was in
`pending_broadcast`. The event-driven worker returns no error; when the row of the
event loads it broadcasts it if and only if its status is `pending` or
`pending_broadcast`; when no row loads it broadcasts a stand-in built from the event;
and it changes a row only by completing one that was in `pending` or
`pending_broadcast`. -/
theorem broadcasters_act_on (db : DB) (hpk : (db.withdrawals.map (fun w => w.ID)).Nodup) :
    (∀ clock : Nat → Int,
      (processPendingWithdrawals db clock).2.length ≤ 10 ∧
      (∀ w ∈ (processPendingWithdrawals db clock).2,
        w ∈ db.withdrawals ∧ w.Status = "pending_broadcast") ∧
      List.Forall₂ PollerStep db.withdrawals (processPendingWithdrawals db clock).1.withdrawals) ∧
    (∀ (NewFromString : String → Except GoError Decimal)
        (decoded : Except GoError WithdrawalCreatedEvent) (now : Int),
      (HandleWithdrawalEvent NewFromString db decoded now).2.2 = none ∧
      (∀ ev w, decoded = .ok ev → First db ev.WithdrawalID = .ok w →
        (HandleWithdrawalEvent NewFromString db decoded now).2.1 =
          if w.Status = "pending" ∨ w.Status = "pending_broadcast" then [w] else []) ∧
      (∀ ev e, decoded = .ok ev → First db ev.WithdrawalID = .error e →
        ∃ tx, (HandleWithdrawalEvent NewFromString db decoded now).2.1 = [tx] ∧
          tx.ID = ev.WithdrawalID ∧ tx.Status = "pending" ∧
          (HandleWithdrawalEvent NewFromString db decoded now).1 = db) ∧
      List.Forall₂ WorkerStep db.withdrawals
        (HandleWithdrawalEvent NewFromString db decoded now).1.withdrawals) := by
  constructor
  · intro clock
    have hsub : ∀ w ∈ (db.withdrawals.filter (fun w => w.Status = "pending_broadcast")).take 10,
        w ∈ db.withdrawals ∧ w.Status = "pending_broadcast" := by
      intro w hw
      have h1 := List.mem_of_mem_take hw
      rw [List.mem_filter] at h1
      exact ⟨h1.1, by simpa using h1.2⟩
    refine ⟨?_, hsub, ?_⟩
    · unfold processPendingWithdrawals
      simp only [List.length_take]
      omega
    · unfold processPendingWithdrawals
      exact (broadcastAll_steps clock db.withdrawals hpk _ db 0 hsub
        (Forall₂_refl_PollerStep _)).1
  · intro NewFromString decoded now
    cases decoded with
    | error e =>
      refine ⟨rfl, ?_, ?_, ?_⟩
      · intro ev w h; cases h
      · intro ev e2 h; cases h
      · exact Forall₂_refl_WorkerStep _
    | ok eventData =>
      cases hF : First db eventData.WithdrawalID with
      | ok w =>
        by_cases hst : w.Status = "pending" ∨ w.Status = "pending_broadcast"
        · have hcond : ¬ (w.Status ≠ "pending" ∧ w.Status ≠ "pending_broadcast") := by
            rintro ⟨h1, h2⟩
            rcases hst with h | h
            · exact h1 h
            · exact h2 h
          have hrun : HandleWithdrawalEvent NewFromString db (.ok eventData) now =
              (broadcast db w now, [w], none) := by
            unfold HandleWithdrawalEvent
            simp only [hF]
            rw [if_neg hcond]
          rw [hrun]
          refine ⟨rfl, ?_, ?_, ?_⟩
          · intro ev w2 hev hw2
            cases hev
            rw [hF] at hw2
            cases hw2
            rw [if_pos hst]
          · intro ev e hev he
            cases hev
            rw [hF] at he
            cases he
          · have hw := First_ok hF
            exact broadcast_steps db w now hst
              (fun x hx hxid => eq_of_ID_eq hpk hx hw.2 hxid)
        · have hcond : w.Status ≠ "pending" ∧ w.Status ≠ "pending_broadcast" :=
            ⟨fun h => hst (Or.inl h), fun h => hst (Or.inr h)⟩
          have hrun : HandleWithdrawalEvent NewFromString db (.ok eventData) now =
              (db, [], none) := by
            unfold HandleWithdrawalEvent
            simp only [hF]
            rw [if_pos hcond]
          rw [hrun]
          refine ⟨rfl, ?_, ?_, ?_⟩
          · intro ev w2 hev hw2
            cases hev
            rw [hF] at hw2
            cases hw2
            rw [if_neg hst]
          · intro ev e hev he
            cases hev
            rw [hF] at he
            cases he
          · exact Forall₂_refl_WorkerStep _
      | error e =>
        have hfree := First_error_iff hF
        have hmap : ∀ (tx : Withdrawal), tx.ID = eventData.WithdrawalID →
            broadcast db tx now = db := by
          intro tx htx
          unfold broadcast
          have : db.withdrawals.map (fun x =>
              if x.ID = tx.ID then
                { x with Status := "completed", TxHash := "0x_kafka_broadcast_" ++ toString now }
              else x) = db.withdrawals := by
            conv_rhs => rw [← List.map_id db.withdrawals]
            apply List.map_congr_left
            intro x hx
            rw [if_neg (by rw [htx]; exact hfree x hx)]
            rfl
          rw [this]
        unfold HandleWithdrawalEvent
        simp only [hF]
        have hne : ¬ (("pending" : String) ≠ "pending" ∧
            ("pending" : String) ≠ "pending_broadcast") := by decide
        simp only [hne, if_false]
        refine ⟨trivial, ?_, ?_, ?_⟩
        · intro ev w hev hw
          cases hev
          rw [hF] at hw
          cases hw
        · intro ev e2 hev _
          cases hev
          exact ⟨_, rfl, rfl, rfl, hmap _ rfl⟩
        · rw [hmap _ rfl]
          exact Forall₂_refl_WorkerStep _

theorem broadcasters_act_on_witness :
    (processPendingWithdrawals approvedDB (fun _ => 1700000000)).2 = [approvedWithdrawal] ∧
    List.Forall₂ PollerStep approvedDB.withdrawals
      (processPendingWithdrawals approvedDB (fun _ => 1700000000)).1.withdrawals :=
  ⟨by rfl, ((broadcasters_act_on approvedDB (by decide)).1 (fun _ => 1700000000)).2.2⟩


/-- The steps of `sweepETH` before the comparison of the balance with the fee can
fail: with a client that reports balance 0 and then fails on the nonce query,
`sweepETH` returns that error; and in simulated mode, for an event with amount "0"
of a user without a deposit address, it returns the error of the address lookup. -/
theorem sweepETH_gas_exhaust_may_fail :
    depositAddress toyWorld.db toyEvent = some toyAddress ∧
    flakyClient.BalanceAt (toyChainLib.HexToAddress toyAddress.Address) = .ok 0 ∧
    flakyClient.SuggestGasPrice = .ok 20000000000 ∧
    (0 : Int) ≤ 21000 * 20000000000 ∧
    (sweepETH toyChainLib toyKeyOps flakySweeper toyWorld toyEvent).2 =
      some (.error (.lib "connection refused")) ∧
    (sweepETH toyChainLib toyKeyOps simulatedSweeper emptyWorld toyEvent).2 =
      some (.error (.fmtErrorf "找不到用户地址: " (.lib "record not found"))) := by
  refine ⟨by rfl, by rfl, by rfl, by decide, by rfl, by rfl⟩

/-- C10. For a deposit event for which `sweepETH` comes to compare the balance with
the fee (the deposit address is found, the private key at m/0/index is derived, and
the balance, the nonce and the gas price are obtained, from the chain or simulated)
and balance ≤ 21000 × gas price: `sweepETH` returns without error and leaves the
world as it was, so it broadcasts no transaction and inserts no Collection row. With
such a balance the world is left as it was also when the derivation of the key
fails; `sweepETH` then returns the error of the step that failed. -/
theorem sweepETH_balance_not_above_fee {K : Type} (C : ChainLib) (ops : KeyOps K)
    (s : SweeperService K) (st : World) (event : DepositEvent) (addr : Address)
    (balance gasPrice : Int) (nonce : Nat)
    (haddr : depositAddress st.db event = some addr)
    (hchain : chainState C s addr event = .ok (balance, nonce, gasPrice))
    (hle : balance ≤ 21000 * gasPrice) :
    (∀ chainKey childKey privKey, ops.Derive s.masterKey 0 = .ok chainKey →
      ops.Derive chainKey (addr.HDPathIndex % 2 ^ 32).toNat = .ok childKey →
      ops.ECPrivKey childKey = .ok privKey →
      sweepETH C ops s st event = (st, none)) ∧
    (sweepETH C ops s st event).1 = st ∧
    (∀ e, ops.Derive s.masterKey 0 = .error e →
      sweepETH C ops s st event = (st, some (.error e))) ∧
    (∀ chainKey e, ops.Derive s.masterKey 0 = .ok chainKey →
      ops.Derive chainKey (addr.HDPathIndex % 2 ^ 32).toNat = .error e →
      sweepETH C ops s st event = (st, some (.error e))) ∧
    (∀ chainKey childKey e, ops.Derive s.masterKey 0 = .ok chainKey →
      ops.Derive chainKey (addr.HDPathIndex % 2 ^ 32).toNat = .ok childKey →
      ops.ECPrivKey childKey = .error e →
      sweepETH C ops s st event = (st, some (.error e))) := by
  have hfee : balance ≤ ((21000 : Nat) : Int) * gasPrice := by
    simpa using hle
  refine ⟨?_, ?_, ?_, ?_, ?_⟩
  · intro chainKey childKey privKey h1 h2 h3
    unfold sweepETH
    rw [haddr]
    simp only [h1, h2, h3, hchain]
    rw [if_pos hfee]
  · unfold sweepETH
    rw [haddr]
    simp only []
    cases ops.Derive s.masterKey 0 with
    | error e => rfl
    | ok chainKey =>
      simp only []
      cases ops.Derive chainKey (addr.HDPathIndex % 2 ^ 32).toNat with
      | error e => rfl
      | ok childKey =>
        simp only []
        cases ops.ECPrivKey childKey with
        | error e => rfl
        | ok privKey =>
          simp only [hchain]
          rw [if_pos hfee]
  · intro e h1
    unfold sweepETH
    rw [haddr]
    simp only [h1]
  · intro chainKey e h1 h2
    unfold sweepETH
    rw [haddr]
    simp only [h1, h2]
  · intro chainKey childKey e h1 h2 h3
    unfold sweepETH
    rw [haddr]
    simp only [h1, h2, h3]

theorem sweepETH_balance_not_above_fee_witness :
    sweepETH toyChainLib toyKeyOps emptyAccountSweeper toyWorld toyEvent = (toyWorld, none) :=
  (sweepETH_balance_not_above_fee toyChainLib toyKeyOps emptyAccountSweeper toyWorld
    toyEvent toyAddress 0 20000000000 0 (by rfl) (by rfl) (by decide)).1 1 4 [1]
    (by rfl) (by rfl) (by rfl)

/-! ## Claims about the transaction and the Collection row of a sweep -/

theorem chainState_simulated {K : Type} {C : ChainLib} {s : SweeperService K} {addr : Address}
    {event : DepositEvent} {balance gasPrice : Int} {nonce : Nat}
    (hsim : s.ethClient = none)
    (hchain : chainState C s addr event = .ok (balance, nonce, gasPrice)) :
    nonce = 0 ∧ gasPrice = 20000000000 ∧
    ∃ d : Decimal, balance = truncatedWei d ∧
      (C.NewFromString event.Amount = .ok d ∨
        ((∃ e, C.NewFromString event.Amount = .error e) ∧ d = { value := 0, exp := 0 })) := by
  unfold chainState at hchain
  rw [hsim] at hchain
  simp only [] at hchain
  have key : ∀ d : Decimal,
      (match d.Mul (Decimal.New 1 18) with
        | .error f => (.error f : Except Fault (Int × Nat × Int))
        | .ok d2 => .ok (d2.BigInt, 0, 20000000000)) = .ok (balance, nonce, gasPrice) →
      nonce = 0 ∧ gasPrice = 20000000000 ∧ balance = truncatedWei d := by
    intro d h
    unfold Decimal.Mul Decimal.New at h
    simp only [] at h
    split at h
    · cases h
    · rename_i d2 hd2
      split at hd2
      · cases hd2
      · simp only [Except.ok.injEq] at hd2
        subst hd2
        simp only [Except.ok.injEq, Prod.mk.injEq] at h
        obtain ⟨hb, hn, hg⟩ := h
        refine ⟨hn.symm, hg.symm, ?_⟩
        rw [← hb]
        unfold Decimal.BigInt truncatedWei
        simp only [mul_one, ge_iff_le]
  cases hp : C.NewFromString event.Amount with
  | ok d =>
    rw [hp] at hchain
    obtain ⟨h1, h2, h3⟩ := key d hchain
    exact ⟨h1, h2, d, h3, Or.inl rfl⟩
  | error e =>
    rw [hp] at hchain
    obtain ⟨h1, h2, h3⟩ := key { value := 0, exp := 0 } hchain
    exact ⟨h1, h2, _, h3, Or.inr ⟨⟨e, rfl⟩, rfl⟩⟩

theorem truncatedWei_exact (d : Decimal) (h : 0 ≤ d.exp + 18) :
    ((truncatedWei d : Int) : ℚ) = (d.value : ℚ) * (10 : ℚ) ^ d.exp * 10 ^ 18 := by
  unfold truncatedWei
  rw [if_pos h]
  have h10 : (10 : ℚ) ≠ 0 := by norm_num
  have hz : ((10 : ℚ) ^ (d.exp + 18).toNat) = (10 : ℚ) ^ (d.exp + 18) := by
    rw [← zpow_natCast, Int.toNat_of_nonneg h]
  push_cast
  rw [hz, zpow_add₀ h10, mul_assoc]
  norm_num

theorem sweepETH_sign_error {K : Type} {C : ChainLib} {ops : KeyOps K}
    {s : SweeperService K} {st : World} {event : DepositEvent} {addr : Address}
    {chainKey childKey : K} {privKey : Bytes} {balance gasPrice : Int} {nonce : Nat}
    (haddr : depositAddress st.db event = some addr)
    (hk1 : ops.Derive s.masterKey 0 = .ok chainKey)
    (hk2 : ops.Derive chainKey (addr.HDPathIndex % 2 ^ 32).toNat = .ok childKey)
    (hk3 : ops.ECPrivKey childKey = .ok privKey)
    (hchain : chainState C s addr event = .ok (balance, nonce, gasPrice))
    (hgt : 21000 * gasPrice < balance) {e : GoError}
    (hsign : C.SignTx (sweepTransaction s nonce balance gasPrice) s.chainID privKey = .error e) :
    sweepETH C ops s st event = (st, some (.error (.fmtErrorf "签名失败: " e))) := by
  have hfee : ¬ balance ≤ ((21000 : Nat) : Int) * gasPrice := by
    simpa using hgt
  unfold sweepTransaction at hsign
  unfold sweepETH
  rw [haddr]
  simp only [hk1, hk2, hk3, hchain]
  rw [if_neg hfee]
  simp only [Nat.cast_ofNat, hsign]

theorem sweepETH_signed {K : Type} {C : ChainLib} {ops : KeyOps K}
    {s : SweeperService K} {st : World} {event : DepositEvent} {addr : Address}
    {chainKey childKey : K} {privKey : Bytes} {balance gasPrice : Int} {nonce : Nat}
    (haddr : depositAddress st.db event = some addr)
    (hk1 : ops.Derive s.masterKey 0 = .ok chainKey)
    (hk2 : ops.Derive chainKey (addr.HDPathIndex % 2 ^ 32).toNat = .ok childKey)
    (hk3 : ops.ECPrivKey childKey = .ok privKey)
    (hchain : chainState C s addr event = .ok (balance, nonce, gasPrice))
    (hgt : 21000 * gasPrice < balance) {sig : Bytes}
    (hsign : C.SignTx (sweepTransaction s nonce balance gasPrice) s.chainID privKey = .ok sig) :
    sweepETH C ops s st event =
      sweepRecord C s st addr { tx := sweepTransaction s nonce balance gasPrice, sig := sig }
        balance gasPrice := by
  have hfee : ¬ balance ≤ ((21000 : Nat) : Int) * gasPrice := by
    simpa using hgt
  unfold sweepTransaction at hsign
  unfold sweepETH sweepRecord sweepCollection sweepTransaction
  rw [haddr]
  simp only [hk1, hk2, hk3, hchain]
  rw [if_neg hfee]
  simp only [Nat.cast_ofNat, hsign]

/-- C11, the part that fails: in simulated mode the balance is the amount of the
event times 10^18 cut to an integer. For the amount "1.0000000000000000005" (parsed
as 10000000000000000005 × 10^-19) the balance is 10^18 wei, which is enough to build
a transaction, and is not the amount times 10^18. -/
theorem chainState_simulated_truncates :
    preciseChainLib.NewFromString preciseEvent.Amount
      = .ok { value := 10000000000000000005, exp := -19 } ∧
    chainState preciseChainLib simulatedSweeper toyAddress preciseEvent
      = .ok (1000000000000000000, 0, 20000000000) ∧
    (21000 * 20000000000 : Int) < 1000000000000000000 ∧
    ((1000000000000000000 : Int) : ℚ)
      ≠ (10000000000000000005 : ℚ) * (10 : ℚ) ^ (-19 : Int) * 10 ^ 18 := by
  refine ⟨by rfl, by rfl, by decide, ?_⟩
  norm_num

/-- C11, amended. Whenever `sweepETH` gets as far as building a transaction (the
deposit address is found, the private key is derived, balance, nonce and gas price
are obtained and balance > 21000 × gas price), the transaction it hands to the signer
has to = the configured hot wallet address, gas limit 21000, empty data, the nonce and
the gas price obtained, and value = balance − 21000 × gas price, which is strictly
positive and with the gas fee adds up to the balance: a signing error ends the call
with that error, and otherwise that transaction with its signature is what is
broadcast (when there is a client) and recorded. In simulated mode nonce = 0,
gas price = 20 000 000 000 wei, the amount of the event parsed as a decimal d, and
balance = d × 10^18 cut to an integer toward zero, which is d × 10^18 exactly when d
has at most 18 fractional digits. -/
theorem sweepETH_transaction {K : Type} (C : ChainLib) (ops : KeyOps K)
    (s : SweeperService K) (st : World) (event : DepositEvent) (addr : Address)
    (chainKey childKey : K) (privKey : Bytes) (balance gasPrice : Int) (nonce : Nat)
    (haddr : depositAddress st.db event = some addr)
    (hk1 : ops.Derive s.masterKey 0 = .ok chainKey)
    (hk2 : ops.Derive chainKey (addr.HDPathIndex % 2 ^ 32).toNat = .ok childKey)
    (hk3 : ops.ECPrivKey childKey = .ok privKey)
    (hchain : chainState C s addr event = .ok (balance, nonce, gasPrice))
    (hgt : 21000 * gasPrice < balance) :
    (0 < balance - 21000 * gasPrice ∧ balance - 21000 * gasPrice + 21000 * gasPrice = balance) ∧
    (∀ e, C.SignTx { Nonce := nonce, To := s.hotWalletAddr, Value := balance - 21000 * gasPrice,
                     Gas := 21000, GasPrice := gasPrice, Data := [] } s.chainID privKey = .error e →
      sweepETH C ops s st event = (st, some (.error (.fmtErrorf "签名失败: " e)))) ∧
    (∀ sig, C.SignTx { Nonce := nonce, To := s.hotWalletAddr, Value := balance - 21000 * gasPrice,
                       Gas := 21000, GasPrice := gasPrice, Data := [] } s.chainID privKey = .ok sig →
      sweepETH C ops s st event
        = sweepRecord C s st addr
            { tx := { Nonce := nonce, To := s.hotWalletAddr,
                      Value := balance - 21000 * gasPrice,
                      Gas := 21000, GasPrice := gasPrice, Data := [] }, sig := sig }
            balance gasPrice ∧
      (∀ client, s.ethClient = some client →
        (sweepETH C ops s st event).1.sent
          = st.sent ++ [{ tx := { Nonce := nonce, To := s.hotWalletAddr,
                                  Value := balance - 21000 * gasPrice,
                                  Gas := 21000, GasPrice := gasPrice, Data := [] },
                          sig := sig }])) ∧
    (s.ethClient = none →
      nonce = 0 ∧ gasPrice = 20000000000 ∧
      ∃ d : Decimal, C.NewFromString event.Amount = .ok d ∧ balance = truncatedWei d ∧
        (0 ≤ d.exp + 18 →
          (balance : ℚ) = (d.value : ℚ) * (10 : ℚ) ^ d.exp * 10 ^ 18)) := by
  refine ⟨⟨by omega, by omega⟩, ?_, ?_, ?_⟩
  · intro e he
    exact sweepETH_sign_error haddr hk1 hk2 hk3 hchain hgt he
  · intro sig hsig
    have heq := sweepETH_signed haddr hk1 hk2 hk3 hchain hgt hsig
    refine ⟨heq, ?_⟩
    intro client hclient
    rw [heq]
    unfold sweepRecord
    rw [hclient]
    simp only []
    cases client.SendTransaction _ with
    | some e => rfl
    | none =>
      simp only []
      split <;> rfl
  · intro hsim
    obtain ⟨hn, hg, d, hb, hd⟩ := chainState_simulated hsim hchain
    refine ⟨hn, hg, ?_⟩
    rcases hd with hd | ⟨_, hd⟩
    · exact ⟨d, hd, hb, fun h => by rw [hb]; exact truncatedWei_exact d h⟩
    · exfalso
      subst hd
      subst hg
      have : balance = 0 := by
        rw [hb]
        decide
      omega

theorem sweepETH_transaction_witness :
    (0 < (1000000000000000000 : Int) - 21000 * 20000000000 ∧
      (1000000000000000000 : Int) - 21000 * 20000000000 + 21000 * 20000000000
        = 1000000000000000000) ∧
    (0 = 0 ∧ (20000000000 : Int) = 20000000000 ∧
      ∃ d : Decimal, toyChainLib.NewFromString oneEtherEvent.Amount = .ok d ∧
        (1000000000000000000 : Int) = truncatedWei d ∧
        (0 ≤ d.exp + 18 →
          ((1000000000000000000 : Int) : ℚ) = (d.value : ℚ) * (10 : ℚ) ^ d.exp * 10 ^ 18)) :=
  have h := sweepETH_transaction toyChainLib toyKeyOps simulatedSweeper toyWorld oneEtherEvent
    toyAddress 1 4 [1] 1000000000000000000 20000000000 0 (by rfl) (by rfl) (by rfl) (by rfl)
    (by rfl) (by decide)
  ⟨h.1, h.2.2.2 rfl⟩

theorem varchar_fits {n : Nat} {s : String} (h : s.length ≤ n) : varchar n s = .ok s := by
  unfold varchar
  rw [if_pos h]

theorem numeric_integer {p : Nat} {v : Int} (h : v.natAbs < 10 ^ p) :
    numeric p 0 { value := v, exp := 0 } = .ok { value := v, exp := 0 } := by
  unfold numeric
  simp only [Nat.cast_zero, add_zero, ge_iff_le, le_refl, if_true, Int.toNat_zero, pow_zero,
    mul_one, neg_zero]
  rw [if_neg (by omega)]

theorem collectionColumns_fits {c : Collection}
    (h1 : c.TxHash.length ≤ 66) (h2 : c.FromAddress.length ≤ 42) (h3 : c.ToAddress.length ≤ 42)
    (h4 : c.Amount.exp = 0) (h5 : c.Amount.value.natAbs < 10 ^ 30)
    (h6 : c.GasFee.exp = 0) (h7 : c.GasFee.value.natAbs < 10 ^ 30)
    (h8 : c.Status.length ≤ 20) : collectionColumns c = .ok c := by
  obtain ⟨i, d, t, f, t2, ⟨av, ae⟩, ⟨gv, ge⟩, st⟩ := c
  simp only at h1 h2 h3 h4 h5 h6 h7 h8
  subst h4
  subst h6
  unfold collectionColumns
  simp only [varchar_fits h1, varchar_fits h2, varchar_fits h3, varchar_fits h8,
    numeric_integer h5, numeric_integer h7]

/-- C12, as the code behaves: the Collection row carries deposit id 0, not the id of
the swept deposit, and `deposit_id` is unique. Sweeping the deposits of two different
users, each sweep broadcasting its own transaction, leaves one Collection row: the
second insertion is refused, its error is dropped and the call ends without error. -/
theorem sweepETH_two_deposits_one_row :
    sweepETH fundedChainLib toyKeyOps fundedSweeper twoAddressWorld oneEtherEvent
      = ({ db := { twoAddressWorld.db with collections := [firstSweepRow] },
           sent := [firstSweepTx] }, none) ∧
    sweepETH fundedChainLib toyKeyOps fundedSweeper
        { db := { twoAddressWorld.db with collections := [firstSweepRow] },
          sent := [firstSweepTx] } otherEvent
      = ({ db := { twoAddressWorld.db with collections := [firstSweepRow] },
           sent := [firstSweepTx, secondSweepTx] }, none) ∧
    firstSweepTx ≠ secondSweepTx ∧ firstSweepRow.DepositID = 0 := by
  refine ⟨by rfl, by rfl, by decide, by rfl⟩

/-- The row of a first sweep: a sweep that signs its transaction and whose broadcast
succeeds (or that runs in simulated mode) ends without error, and when the
collections hold no row with deposit id 0 and none with the hash of the signed
transaction, and the hash and the addresses fit their columns (66 and 42 characters,
amounts below 10^30), it inserts one Collection row with deposit id 0, tx_hash =
hash of the signed transaction, from = the deposit address, to = the hot wallet,
amount = balance − gas fee, gas_fee = 21000 × gas price and status "pending"; the
other tables are left as they were. -/
theorem sweepETH_records_collection {K : Type} (C : ChainLib) (ops : KeyOps K)
    (s : SweeperService K) (st : World) (event : DepositEvent) (addr : Address)
    (chainKey childKey : K) (privKey sig : Bytes) (balance gasPrice : Int) (nonce : Nat)
    (signedTx : SignedTx)
    (haddr : depositAddress st.db event = some addr)
    (hk1 : ops.Derive s.masterKey 0 = .ok chainKey)
    (hk2 : ops.Derive chainKey (addr.HDPathIndex % 2 ^ 32).toNat = .ok childKey)
    (hk3 : ops.ECPrivKey childKey = .ok privKey)
    (hchain : chainState C s addr event = .ok (balance, nonce, gasPrice))
    (hgt : 21000 * gasPrice < balance)
    (htx : signedTx = { tx := { Nonce := nonce, To := s.hotWalletAddr,
                                Value := balance - 21000 * gasPrice, Gas := 21000,
                                GasPrice := gasPrice, Data := [] }, sig := sig })
    (hsign : C.SignTx signedTx.tx s.chainID privKey = .ok sig)
    (hsend : ∀ client, s.ethClient = some client → client.SendTransaction signedTx = none)
    (hfree : ∀ x ∈ st.db.collections, x.DepositID ≠ 0 ∧ x.TxHash ≠ C.TxHashHex signedTx)
    (hhash : (C.TxHashHex signedTx).length ≤ 66)
    (hfrom : addr.Address.length ≤ 42)
    (hto : (C.AddressHex s.hotWalletAddr).length ≤ 42)
    (hamount : balance < 10 ^ 30) (hfee : 0 ≤ gasPrice) :
    (sweepETH C ops s st event).2 = none ∧
    (sweepETH C ops s st event).1.db =
      { st.db with
        collections := st.db.collections ++ [
          { ID := nextID (st.db.collections.map (fun x => x.ID)),
            DepositID := 0,
            TxHash := C.TxHashHex signedTx,
            FromAddress := addr.Address,
            ToAddress := C.AddressHex s.hotWalletAddr,
            Amount := { value := balance - 21000 * gasPrice, exp := 0 },
            GasFee := { value := 21000 * gasPrice, exp := 0 },
            Status := "pending" }] } := by
  subst htx
  have heq := sweepETH_signed haddr hk1 hk2 hk3 hchain hgt hsign
  have hcols : collectionColumns
      (sweepCollection C s addr
        { tx := sweepTransaction s nonce balance gasPrice, sig := sig } balance gasPrice)
      = .ok (sweepCollection C s addr
        { tx := sweepTransaction s nonce balance gasPrice, sig := sig } balance gasPrice) := by
    apply collectionColumns_fits
    · exact hhash
    · exact hfrom
    · exact hto
    · rfl
    · show (balance - 21000 * gasPrice).natAbs < 10 ^ 30
      omega
    · rfl
    · show (21000 * gasPrice).natAbs < 10 ^ 30
      omega
    · show ("pending" : String).length ≤ 20
      decide
  have hany : (st.db.collections.any (fun x =>
      decide (x.DepositID = (sweepCollection C s addr
        { tx := sweepTransaction s nonce balance gasPrice, sig := sig } balance gasPrice).DepositID
        ∨ x.TxHash = (sweepCollection C s addr
        { tx := sweepTransaction s nonce balance gasPrice, sig := sig } balance gasPrice).TxHash)))
      = false := by
    rw [List.any_eq_false]
    intro x hx
    have := hfree x hx
    simp only [sweepCollection, decide_eq_true_eq, not_or]
    exact this
  have hcreate : ∀ db : DB, db.collections = st.db.collections →
      CreateCollection db (sweepCollection C s addr
        { tx := sweepTransaction s nonce balance gasPrice, sig := sig } balance gasPrice)
      = .ok { db with collections := db.collections ++ [
          { sweepCollection C s addr
              { tx := sweepTransaction s nonce balance gasPrice, sig := sig } balance gasPrice with
            ID := nextID (db.collections.map (fun x => x.ID)) }] } := by
    intro db hdb
    unfold CreateCollection
    rw [hcols]
    simp only [hdb, hany]
    rfl
  rw [heq]
  unfold sweepRecord
  cases hc : s.ethClient with
  | none =>
    simp only [hcreate st.db rfl]
    exact ⟨trivial, rfl⟩
  | some client =>
    have hs := hsend client hc
    simp only [sweepTransaction] at hs ⊢
    simp only [hs]
    have := hcreate st.db rfl
    simp only [sweepTransaction] at this
    simp only [this]
    exact ⟨trivial, rfl⟩

theorem sweepETH_records_collection_witness :
    (sweepETH fundedChainLib toyKeyOps fundedSweeper toyWorld oneEtherEvent).2 = none ∧
    (sweepETH fundedChainLib toyKeyOps fundedSweeper toyWorld oneEtherEvent).1.db =
      { toyWorld.db with
        collections := toyWorld.db.collections ++ [
          { ID := nextID (toyWorld.db.collections.map (fun x => x.ID)),
            DepositID := 0,
            TxHash := fundedChainLib.TxHashHex firstSweepTx,
            FromAddress := toyAddress.Address,
            ToAddress := fundedChainLib.AddressHex fundedSweeper.hotWalletAddr,
            Amount := { value := 1000000000000000000 - 21000 * 20000000000, exp := 0 },
            GasFee := { value := 21000 * 20000000000, exp := 0 },
            Status := "pending" }] } :=
  sweepETH_records_collection fundedChainLib toyKeyOps fundedSweeper toyWorld oneEtherEvent
    toyAddress 1 4 [1] [1] 1000000000000000000 20000000000 0 firstSweepTx
    (by rfl) (by rfl) (by rfl) (by rfl) (by rfl) (by decide) (by rfl) (by rfl)
    (fun client h => by
      have hc : fundedClient = client := Option.some.inj h
      subst hc
      rfl)
    (fun _ h => by cases h) (by decide) (by decide) (by decide) (by decide)
    (by decide)

/-! ## Claims about `handleDeposit` -/

/-- C13, as the code behaves: the check against a second sweep counts the Collection
rows whose `tx_hash` is the hash of the deposit, but `sweepETH` stores the row under
the hash of the sweep transaction. The event `oneEtherEvent` (deposit hash "0xabc") is
handled twice, the chain reporting a balance of 10^18 wei both times (nonce 0, then
nonce 1): both handlings sign and broadcast a transaction, and afterwards no
Collection row has the `tx_hash` of the event. -/
theorem handleDeposit_twice_sweeps_twice :
    handleDeposit fundedChainLib toyKeyOps fundedSweeper toyWorld emptyRedis (.ok oneEtherEvent)
      = (sweptWorld, emptyRedis, none) ∧
    handleDeposit fundedChainLib toyKeyOps refundedSweeper sweptWorld emptyRedis
        (.ok oneEtherEvent)
      = ({ sweptWorld with sent := [firstSweepTx, resweepTx] }, emptyRedis, none) ∧
    sweptWorld.db.collections = [firstSweepRow] ∧
    (sweptWorld.db.collections.filter (fun c => c.TxHash = oneEtherEvent.TxHash)).length = 0 := by
  refine ⟨by rfl, by rfl, by rfl, by rfl⟩

/-! ## Claims about the observer and the outbox -/

theorem processTransaction_unknown {L : ObserverLib} {db : DB} {h : Nat}
    {tx : observer.Transaction}
    (hnone : (db.addresses.filter (fun a => a.Address = tx.To ∧ a.Chain = "ETH")).length = 0) :
    processTransaction L db h tx = (db, none) := by
  unfold processTransaction
  simp only [hnone, gt_iff_lt, lt_self_iff_false, if_false]

theorem processTransaction_inserted {L : ObserverLib} {db : DB} {h : Nat}
    {tx : observer.Transaction} {addr : Address} {amount stored : Decimal} {bytes : Bytes}
    (hknown : 0 < (db.addresses.filter (fun a => a.Address = tx.To ∧ a.Chain = "ETH")).length)
    (haddr : db.addresses.find? (fun a => a.Address = tx.To) = some addr)
    (hparse : L.NewFromString tx.Value = .ok amount)
    (hhash : tx.Hash.length ≤ 255)
    (hamount : numeric 32 18 amount = .ok stored)
    (hnew : db.deposits.any (fun x => x.TxHash = tx.Hash) = false)
    (hjson : L.Marshal addr.UserID (L.DecimalString amount) tx.Hash "ETH" = .ok bytes) :
    processTransaction L db h tx =
      ({ db with
         deposits := db.deposits ++ [depositRow db h tx addr stored],
         outbox := db.outbox ++ [depositMessage db bytes] }, none) := by
  unfold processTransaction
  simp only [gt_iff_lt, hknown, if_true, hparse]
  unfold Transaction CreateDeposit
  simp only [haddr, varchar_fits hhash, hamount]
  rw [varchar_fits (show ("confirmed" : String).length ≤ 20 by decide)]
  simp only [hnew, Bool.false_eq_true, if_false, hjson]
  unfold CreateOutboxMessage CreateOutbox
  simp only []
  rw [varchar_fits (show ("wallet_events_deposit" : String).length ≤ 255 by decide),
    varchar_fits (show ("PENDING" : String).length ≤ 50 by decide)]
  rfl

theorem processTransaction_repeated {L : ObserverLib} {db : DB} {h : Nat}
    {tx : observer.Transaction}
    (hhash : tx.Hash.length ≤ 255)
    (hold : db.deposits.any (fun x => x.TxHash = tx.Hash) = true) :
    (processTransaction L db h tx).1 = db := by
  unfold processTransaction
  simp only [gt_iff_lt]
  by_cases hc : 0 < (db.addresses.filter (fun a => a.Address = tx.To ∧ a.Chain = "ETH")).length
  · rw [if_pos hc]
    cases L.NewFromString tx.Value with
    | error e => rfl
    | ok amount =>
      simp only []
      unfold Transaction CreateDeposit
      simp only [varchar_fits hhash]
      cases numeric 32 18 amount with
      | error e => rfl
      | ok stored =>
        simp only []
        rw [varchar_fits (show ("confirmed" : String).length ≤ 20 by decide)]
        simp only [hold, if_true]
  · rw [if_neg hc]

theorem processTransaction_both_or_neither (L : ObserverLib) (db : DB) (h : Nat)
    (tx : observer.Transaction) :
    (processTransaction L db h tx).1 = db ∨
    ∃ (d : Deposit) (m : OutboxMessage),
      (processTransaction L db h tx) =
        ({ db with deposits := db.deposits ++ [d], outbox := db.outbox ++ [m] }, none) ∧
      varchar 255 tx.Hash = .ok d.TxHash ∧
      db.deposits.any (fun x => x.TxHash = d.TxHash) = false ∧
      m.Topic = "wallet_events_deposit" ∧ m.Status = "PENDING" ∧ m.DeletedAt = none := by
  unfold processTransaction
  simp only [gt_iff_lt]
  by_cases hc : 0 < (db.addresses.filter (fun a => a.Address = tx.To ∧ a.Chain = "ETH")).length
  · rw [if_pos hc]
    cases L.NewFromString tx.Value with
    | error e => exact Or.inl rfl
    | ok amount =>
      simp only []
      unfold Transaction CreateDeposit
      simp only []
      cases hv : varchar 255 tx.Hash with
      | error e => exact Or.inl rfl
      | ok txHash =>
        simp only []
        cases numeric 32 18 amount with
        | error e => exact Or.inl rfl
        | ok stored =>
          simp only []
          rw [varchar_fits (show ("confirmed" : String).length ≤ 20 by decide)]
          simp only []
          cases hany : db.deposits.any (fun x => decide (x.TxHash = txHash)) with
          | true =>
            simp only [if_true]
            exact Or.inl trivial
          | false =>
            simp only [Bool.false_eq_true, if_false]
            unfold CreateOutboxMessage CreateOutbox
            cases L.Marshal _ _ _ _ with
            | error e => exact Or.inl rfl
            | ok bytes =>
              simp only []
              rw [varchar_fits (show ("wallet_events_deposit" : String).length ≤ 255 by decide),
                varchar_fits (show ("PENDING" : String).length ≤ 50 by decide)]
              simp only []
              refine Or.inr ⟨_, _, rfl, rfl, hany, rfl, rfl, rfl⟩
  · rw [if_neg hc]
    exact Or.inl rfl

theorem processTransactionTimes_repeated {L : ObserverLib} {h : Nat}
    {tx : observer.Transaction} (hhash : tx.Hash.length ≤ 255) (k : Nat) :
    ∀ db : DB, db.deposits.any (fun x => x.TxHash = tx.Hash) = true →
      processTransactionTimes L h tx k db = db := by
  induction k with
  | zero => intro db _; rfl
  | succ k ih =>
    intro db hold
    unfold processTransactionTimes
    rw [processTransaction_repeated hhash hold]
    exact ih db hold

/-- C14, the part that fails: a transaction to a known ETH deposit address whose
value is not a number makes `processTransaction` panic, and one whose value (10^15)
does not fit the column `decimal(32,18)` makes the insertion fail: after one run and
after three runs there is no Deposit row and no outbox message. -/
theorem processTransaction_no_deposit_row :
    toyAddress ∈ toyWorld.db.addresses ∧ toyAddress.Address = malformedTransfer.To ∧
    toyAddress.Address = hugeTransfer.To ∧ toyAddress.Chain = "ETH" ∧
    processTransaction toyObserverLib toyWorld.db 9 malformedTransfer
      = (toyWorld.db, some (.panic "can't convert abc to decimal")) ∧
    processTransaction toyObserverLib toyWorld.db 9 hugeTransfer
      = (toyWorld.db, some (.error (.lib "numeric field overflow"))) ∧
    processTransactionTimes toyObserverLib 9 malformedTransfer 3 toyWorld.db = toyWorld.db ∧
    processTransactionTimes toyObserverLib 9 hugeTransfer 3 toyWorld.db = toyWorld.db ∧
    toyWorld.db.deposits = [] ∧ toyWorld.db.outbox = [] := by
  refine ⟨by decide, by rfl, by rfl, by rfl, by rfl, by rfl, by rfl, by rfl, by rfl, by rfl⟩

/-- C14, amended. For a transaction whose to-address is a known ETH deposit address
and whose hash has at most 255 characters: every run of `processTransaction` either
leaves the database as it was or appends one Deposit row with the hash of the
transaction together with one PENDING `wallet_events_deposit` outbox message, and
nothing else; when a Deposit row with that hash exists, k runs leave the database as
it was; and when no such row exists, the value parses as a decimal that fits the
column `decimal(32,18)` and the payload can be marshalled, k ≥ 1 runs leave exactly
the one Deposit row and the one outbox message that the first run inserts. -/
theorem processTransaction_exactly_once (L : ObserverLib) (db : DB) (h : Nat)
    (tx : observer.Transaction) (k : Nat)
    (hknown : ∃ a ∈ db.addresses, a.Address = tx.To ∧ a.Chain = "ETH")
    (hk : 1 ≤ k) (hhash : tx.Hash.length ≤ 255) :
    (∀ db2 : DB, (processTransaction L db2 h tx).1 = db2 ∨
      ∃ (d : Deposit) (m : OutboxMessage),
        processTransaction L db2 h tx =
          ({ db2 with deposits := db2.deposits ++ [d], outbox := db2.outbox ++ [m] }, none) ∧
        d.TxHash = tx.Hash ∧ (∀ x ∈ db2.deposits, x.TxHash ≠ tx.Hash) ∧
        m.Topic = "wallet_events_deposit" ∧ m.Status = "PENDING" ∧ m.DeletedAt = none) ∧
    ((∃ x ∈ db.deposits, x.TxHash = tx.Hash) → processTransactionTimes L h tx k db = db) ∧
    (∀ (addr : Address) (amount stored : Decimal) (bytes : Bytes),
      db.addresses.find? (fun a => a.Address = tx.To) = some addr →
      L.NewFromString tx.Value = .ok amount →
      numeric 32 18 amount = .ok stored →
      L.Marshal addr.UserID (L.DecimalString amount) tx.Hash "ETH" = .ok bytes →
      (∀ x ∈ db.deposits, x.TxHash ≠ tx.Hash) →
      processTransactionTimes L h tx k db =
        { db with
          deposits := db.deposits ++ [depositRow db h tx addr stored],
          outbox := db.outbox ++ [depositMessage db bytes] } ∧
      ((processTransactionTimes L h tx k db).deposits.filter
        (fun x => x.TxHash = tx.Hash)).length = 1 ∧
      (depositRow db h tx addr stored).TxHash = tx.Hash ∧
      (depositMessage db bytes).Topic = "wallet_events_deposit" ∧
      (depositMessage db bytes).Status = "PENDING" ∧
      (depositMessage db bytes).Payload = bytes) := by
  refine ⟨?_, ?_, ?_⟩
  · intro db2
    rcases processTransaction_both_or_neither L db2 h tx with hsame | ⟨d, m, heq, hv, hany, hm⟩
    · exact Or.inl hsame
    · rw [varchar_fits hhash] at hv
      have hd : d.TxHash = tx.Hash := by
        injection hv with hv
        exact hv.symm
      refine Or.inr ⟨d, m, heq, hd, ?_, hm⟩
      intro x hx hxe
      rw [List.any_eq_false] at hany
      exact hany x hx (by simp only [decide_eq_true_eq]; rw [hxe, hd])
  · rintro ⟨x, hx, hxe⟩
    apply processTransactionTimes_repeated hhash k db
    rw [List.any_eq_true]
    exact ⟨x, hx, by simp only [decide_eq_true_eq]; exact hxe⟩
  · intro addr amount stored bytes haddr hparse hnum hjson hnew
    obtain ⟨a, ha, hato, hachain⟩ := hknown
    have hcount : 0 < (db.addresses.filter
        (fun a => a.Address = tx.To ∧ a.Chain = "ETH")).length := by
      apply @List.length_pos_of_mem _ a
      rw [List.mem_filter]
      exact ⟨ha, by simp only [decide_eq_true_eq]; exact ⟨hato, hachain⟩⟩
    have hany : db.deposits.any (fun x => x.TxHash = tx.Hash) = false := by
      rw [List.any_eq_false]
      intro x hx
      simp only [decide_eq_true_eq]
      exact hnew x hx
    have hfirst : processTransaction L db h tx =
        ({ db with
           deposits := db.deposits ++ [depositRow db h tx addr stored],
           outbox := db.outbox ++ [depositMessage db bytes] }, none) :=
      processTransaction_inserted hcount haddr hparse hhash hnum hany hjson
    obtain ⟨j, rfl⟩ : ∃ j, k = j + 1 := ⟨k - 1, by omega⟩
    have hrun : processTransactionTimes L h tx (j + 1) db =
        { db with
          deposits := db.deposits ++ [depositRow db h tx addr stored],
          outbox := db.outbox ++ [depositMessage db bytes] } := by
      show processTransactionTimes L h tx j (processTransaction L db h tx).1 = _
      rw [hfirst]
      apply processTransactionTimes_repeated hhash j
      rw [List.any_eq_true]
      exact ⟨depositRow db h tx addr stored, by simp, by simp [depositRow]⟩
    refine ⟨hrun, ?_, rfl, rfl, rfl, rfl⟩
    rw [hrun]
    have hfilter : db.deposits.filter (fun x => decide (x.TxHash = tx.Hash)) = [] := by
      rw [List.filter_eq_nil_iff]
      intro x hx
      simp only [decide_eq_true_eq]
      exact hnew x hx
    simp only [List.filter_append, hfilter, List.nil_append]
    simp [depositRow]

theorem processTransaction_exactly_once_witness :
    processTransactionTimes toyObserverLib 9 toyTransfer 2 toyWorld.db =
      { toyWorld.db with
        deposits := toyWorld.db.deposits ++
          [depositRow toyWorld.db 9 toyTransfer toyAddress
            { value := 5000000000000000000, exp := -18 }],
        outbox := toyWorld.db.outbox ++
          [depositMessage toyWorld.db
            [53, 44, 69, 84, 72, 44, 48, 120, 97, 98, 99, 44, 55]] } :=
  ((processTransaction_exactly_once toyObserverLib toyWorld.db 9 toyTransfer 2
    ⟨toyAddress, by decide, by rfl, by rfl⟩ (by decide) (by decide)).2.2
    toyAddress { value := 5, exp := 0 } { value := 5000000000000000000, exp := -18 }
    [53, 44, 69, 84, 72, 44, 48, 120, 97, 98, 99, 44, 55]
    (by rfl) (by rfl) (by rfl) (by rfl) (fun _ hx => by cases hx)).1

theorem processPendingMessages_eq {σ : Type} (P : Producer σ) (db : DB) (bus : σ) :
    processPendingMessages P db bus = relayMessages P db bus (FindPending db) := by
  unfold processPendingMessages
  simp only []
  split
  · rename_i h
    rw [List.length_eq_zero] at h
    rw [h]
    rfl
  · rfl

theorem UpdateStatus_sent (db : DB) (msg : OutboxMessage) :
    UpdateStatus db msg "SENT" =
      { db with
        outbox := db.outbox.map (fun r =>
          if msg.ID ≠ 0 ∧ r.ID = msg.ID ∧ r.DeletedAt = none then { r with Status := "SENT" }
          else r) } := by
  unfold UpdateStatus
  by_cases h0 : msg.ID = 0
  · rw [if_pos h0]
    simp [h0]
  · rw [if_neg h0, varchar_fits (show ("SENT" : String).length ≤ 50 by decide)]
    simp only [ne_eq, h0, not_false_eq_true, true_and]

theorem relayMessages_cons_error {σ : Type} {P : Producer σ} {db : DB} {bus bus1 : σ}
    {msg : OutboxMessage} {rest : List OutboxMessage} {e : GoError}
    (hp : P.Publish bus msg.Topic "" msg.Payload = (bus1, some e)) :
    relayMessages P db bus (msg :: rest) =
      ((relayMessages P db bus1 rest).1, (relayMessages P db bus1 rest).2.1,
        { msg := msg, topic := msg.Topic, key := "", payload := msg.Payload, result := some e }
          :: (relayMessages P db bus1 rest).2.2) := by
  rw [relayMessages]
  simp only [hp]

theorem relayMessages_cons_ok {σ : Type} {P : Producer σ} {db : DB} {bus bus1 : σ}
    {msg : OutboxMessage} {rest : List OutboxMessage}
    (hp : P.Publish bus msg.Topic "" msg.Payload = (bus1, none)) :
    relayMessages P db bus (msg :: rest) =
      ((relayMessages P (UpdateStatus db msg "SENT") bus1 rest).1,
        (relayMessages P (UpdateStatus db msg "SENT") bus1 rest).2.1,
        { msg := msg, topic := msg.Topic, key := "", payload := msg.Payload, result := none }
          :: (relayMessages P (UpdateStatus db msg "SENT") bus1 rest).2.2) := by
  rw [relayMessages]
  simp only [hp]

theorem relayMessages_spec {σ : Type} (P : Producer σ) (ms : List OutboxMessage) :
    ∀ (db : DB) (bus : σ),
      (relayMessages P db bus ms).2.2.map (fun c => c.msg) = ms ∧
      (∀ c ∈ (relayMessages P db bus ms).2.2,
        c.topic = c.msg.Topic ∧ c.key = "" ∧ c.payload = c.msg.Payload) ∧
      (relayMessages P db bus ms).1 =
        { db with
          outbox := db.outbox.map (fun r =>
            if r.DeletedAt = none ∧ (relayMessages P db bus ms).2.2.any
                (fun c => c.msg.ID = r.ID ∧ c.msg.ID ≠ 0 ∧ c.result = none)
            then { r with Status := "SENT" } else r) } := by
  induction ms with
  | nil =>
    intro db bus
    simp [relayMessages]
  | cons msg rest ih =>
    intro db bus
    cases hp : P.Publish bus msg.Topic "" msg.Payload with
    | mk bus1 err =>
      cases err with
      | some e =>
        rw [relayMessages_cons_error hp]
        obtain ⟨h1, h2, h3⟩ := ih db bus1
        refine ⟨?_, ?_, ?_⟩
        · simp only [List.map_cons, h1]
        · intro c hc
          rw [List.mem_cons] at hc
          rcases hc with rfl | hc
          · exact ⟨rfl, rfl, rfl⟩
          · exact h2 c hc
        · simp only []
          rw [h3]
          simp
      | none =>
        rw [relayMessages_cons_ok hp]
        obtain ⟨h1, h2, h3⟩ := ih (UpdateStatus db msg "SENT") bus1
        refine ⟨?_, ?_, ?_⟩
        · simp only [List.map_cons, h1]
        · intro c hc
          rw [List.mem_cons] at hc
          rcases hc with rfl | hc
          · exact ⟨rfl, rfl, rfl⟩
          · exact h2 c hc
        · simp only []
          rw [h3, UpdateStatus_sent]
          simp only [List.map_map, List.any_cons]
          congr 1
          apply List.map_congr_left
          intro r _
          simp only [Function.comp]
          generalize (relayMessages P _ bus1 rest).2.2 = calls
          by_cases hd : r.DeletedAt = none
          · by_cases hi : r.ID = msg.ID
            · by_cases h0 : msg.ID = 0
              · simp [hd, hi, h0]
              · simp [hd, hi, h0]
            · have hi2 : ¬ msg.ID = r.ID := fun h => hi h.symm
              simp [hd, hi, hi2]
          · simp [hd]

theorem FindPending_sublist (db : DB) : List.Sublist (FindPending db) db.outbox :=
  (List.take_sublist _ _).trans (List.filter_sublist _)

theorem FindPending_pending {db : DB} {m : OutboxMessage} (h : m ∈ FindPending db) :
    m ∈ db.outbox ∧ m.Status = "PENDING" ∧ m.DeletedAt = none := by
  have hm := List.mem_of_mem_take h
  rw [List.mem_filter] at hm
  obtain ⟨h1, h2⟩ := hm
  simp only [decide_eq_true_eq] at h2
  exact ⟨h1, h2.1, h2.2⟩

theorem eq_of_ID_eq_outbox {l : List OutboxMessage} (hpk : (l.map (fun r => r.ID)).Nodup)
    {a b : OutboxMessage} (ha : a ∈ l) (hb : b ∈ l) (h : a.ID = b.ID) : a = b :=
  List.inj_on_of_nodup_map hpk ha hb h

/-- C15. For an outbox with distinct primary keys, a run of `processPendingMessages`
calls `Publish` once for each row it selected, in the order selected and also after a
failed call, with the topic and the payload of the row and the key ""; every row
published is a PENDING row that is not marked as deleted; and afterwards the outbox is
as before except that the status is "SENT" for exactly the rows with a primary key
other than 0 whose call of `Publish` returned no error during this run. So a row
that is changed was PENDING, is SENT now and had a call of `Publish` without error;
a row whose call returned an error is in the outbox as it was, with status PENDING;
and a row that was not PENDING is neither published nor changed. -/
theorem processPendingMessages_sent_iff_published {σ : Type} (P : Producer σ) (db : DB)
    (bus : σ) (hpk : (db.outbox.map (fun r => r.ID)).Nodup) :
    (processPendingMessages P db bus).2.2.map (fun c => c.msg) = FindPending db ∧
    (∀ c ∈ (processPendingMessages P db bus).2.2,
      c.msg ∈ db.outbox ∧ c.msg.Status = "PENDING" ∧ c.msg.DeletedAt = none ∧
      c.topic = c.msg.Topic ∧ c.key = "" ∧ c.payload = c.msg.Payload) ∧
    (∀ c ∈ (processPendingMessages P db bus).2.2,
      ∀ c2 ∈ (processPendingMessages P db bus).2.2, c2.msg = c.msg → c2 = c) ∧
    (processPendingMessages P db bus).1 =
      { db with
        outbox := db.outbox.map (fun r =>
          if r.ID ≠ 0 ∧ (processPendingMessages P db bus).2.2.any
              (fun c => c.msg = r ∧ c.result = none)
          then { r with Status := "SENT" } else r) } ∧
    (∀ r ∈ db.outbox, ∀ r2 ∈ (processPendingMessages P db bus).1.outbox,
      r2.ID = r.ID → r2 ≠ r →
      r.Status = "PENDING" ∧ r2 = { r with Status := "SENT" } ∧
      ∃ c ∈ (processPendingMessages P db bus).2.2, c.msg = r ∧ c.result = none) ∧
    (∀ c ∈ (processPendingMessages P db bus).2.2, c.result ≠ none →
      c.msg ∈ (processPendingMessages P db bus).1.outbox) ∧
    (∀ r ∈ db.outbox, r.Status ≠ "PENDING" →
      r ∈ (processPendingMessages P db bus).1.outbox ∧
      ∀ c ∈ (processPendingMessages P db bus).2.2, c.msg ≠ r) := by
  rw [processPendingMessages_eq]
  obtain ⟨h1, h2, h3⟩ := relayMessages_spec P (FindPending db) db bus
  have hmem : ∀ c ∈ (relayMessages P db bus (FindPending db)).2.2,
      c.msg ∈ db.outbox ∧ c.msg.Status = "PENDING" ∧ c.msg.DeletedAt = none := by
    intro c hc
    apply FindPending_pending
    rw [← h1]
    exact List.mem_map_of_mem (fun c => c.msg) hc
  have hnodup : ((relayMessages P db bus (FindPending db)).2.2.map (fun c => c.msg)).Nodup := by
    rw [h1]
    exact (List.Nodup.of_map _ hpk).sublist (FindPending_sublist db)
  have hinj : ∀ c ∈ (relayMessages P db bus (FindPending db)).2.2,
      ∀ c2 ∈ (relayMessages P db bus (FindPending db)).2.2, c2.msg = c.msg → c2 = c :=
    fun c hc c2 hc2 heq => List.inj_on_of_nodup_map hnodup hc2 hc heq
  have hdb : (relayMessages P db bus (FindPending db)).1 =
      { db with
        outbox := db.outbox.map (fun r =>
          if r.ID ≠ 0 ∧ (relayMessages P db bus (FindPending db)).2.2.any
              (fun c => c.msg = r ∧ c.result = none)
          then { r with Status := "SENT" } else r) } := ?_
  refine ⟨h1, ?_, hinj, hdb, ?_, ?_, ?_⟩
  · intro c hc
    obtain ⟨ha, hb, hd⟩ := hmem c hc
    obtain ⟨he, hf, hg⟩ := h2 c hc
    exact ⟨ha, hb, hd, he, hf, hg⟩
  · intro r hr r2 hr2 hid hne
    rw [hdb] at hr2
    simp only [List.mem_map] at hr2
    obtain ⟨r0, hr0, hr02⟩ := hr2
    by_cases hcond : r0.ID ≠ 0 ∧ (relayMessages P db bus (FindPending db)).2.2.any
        (fun c => decide (c.msg = r0 ∧ c.result = none)) = true
    · rw [if_pos hcond] at hr02
      have hid0 : r0.ID = r.ID := by rw [← hid, ← hr02]
      have hrr : r0 = r := eq_of_ID_eq_outbox hpk hr0 hr hid0
      subst hrr
      obtain ⟨_, hany⟩ := hcond
      rw [List.any_eq_true] at hany
      obtain ⟨c, hc, hcm⟩ := hany
      simp only [decide_eq_true_eq] at hcm
      refine ⟨?_, hr02.symm, c, hc, hcm.1, hcm.2⟩
      rw [← hcm.1]
      exact (hmem c hc).2.1
    · rw [if_neg hcond] at hr02
      have hid0 : r0.ID = r.ID := by rw [← hid, ← hr02]
      have hrr : r0 = r := eq_of_ID_eq_outbox hpk hr0 hr hid0
      exact absurd (hr02.symm.trans hrr) hne
  · intro c hc hres
    rw [hdb]
    simp only [List.mem_map]
    refine ⟨c.msg, (hmem c hc).1, ?_⟩
    have hnot : ¬ (c.msg.ID ≠ 0 ∧ (relayMessages P db bus (FindPending db)).2.2.any
        (fun c2 => decide (c2.msg = c.msg ∧ c2.result = none)) = true) := by
      rintro ⟨_, hany⟩
      rw [List.any_eq_true] at hany
      obtain ⟨c2, hc2, hcm⟩ := hany
      simp only [decide_eq_true_eq] at hcm
      have := hinj c hc c2 hc2 hcm.1
      rw [this] at hcm
      exact hres hcm.2
    rw [if_neg hnot]
  · intro r hr hstatus
    have hnocall : ∀ c ∈ (relayMessages P db bus (FindPending db)).2.2, c.msg ≠ r := by
      intro c hc heq
      apply hstatus
      rw [← heq]
      exact (hmem c hc).2.1
    refine ⟨?_, hnocall⟩
    rw [hdb]
    simp only [List.mem_map]
    refine ⟨r, hr, ?_⟩
    have hnot : ¬ (r.ID ≠ 0 ∧ (relayMessages P db bus (FindPending db)).2.2.any
        (fun c2 => decide (c2.msg = r ∧ c2.result = none)) = true) := by
      rintro ⟨_, hany⟩
      rw [List.any_eq_true] at hany
      obtain ⟨c2, hc2, hcm⟩ := hany
      simp only [decide_eq_true_eq] at hcm
      exact hnocall c2 hc2 hcm.1
    rw [if_neg hnot]
  · rw [h3]
    congr 1
    apply List.map_congr_left
    intro r hr
    generalize hcalls : (relayMessages P db bus (FindPending db)).2.2 = calls at hmem
    have hiff : (r.DeletedAt = none ∧
        calls.any (fun c => decide (c.msg.ID = r.ID ∧ c.msg.ID ≠ 0 ∧ c.result = none)) = true) ↔
        (r.ID ≠ 0 ∧ calls.any (fun c => decide (c.msg = r ∧ c.result = none)) = true) := by
      simp only [List.any_eq_true, decide_eq_true_eq]
      constructor
      · rintro ⟨_, c, hc, hid, h0, hres⟩
        have hcr : c.msg = r := eq_of_ID_eq_outbox hpk (hmem c hc).1 hr hid
        exact ⟨by rw [← hid]; exact h0, c, hc, hcr, hres⟩
      · rintro ⟨h0, c, hc, hcr, hres⟩
        refine ⟨by rw [← hcr]; exact (hmem c hc).2.2, c, hc, by rw [hcr], by rw [hcr]; exact h0,
          hres⟩
    by_cases hcond : r.ID ≠ 0 ∧ calls.any (fun c => decide (c.msg = r ∧ c.result = none)) = true
    · rw [if_pos hcond, if_pos (hiff.mpr hcond)]
    · rw [if_neg hcond, if_neg (fun h => hcond (hiff.mp h))]

theorem processPendingMessages_sent_iff_published_witness :
    (processPendingMessages toyProducer mixedOutboxDB []).1 =
      { mixedOutboxDB with
        outbox := mixedOutboxDB.outbox.map (fun r =>
          if r.ID ≠ 0 ∧ (processPendingMessages toyProducer mixedOutboxDB []).2.2.any
              (fun c => c.msg = r ∧ c.result = none)
          then { r with Status := "SENT" } else r) } :=
  (processPendingMessages_sent_iff_published toyProducer mixedOutboxDB [] (by decide)).2.2.2.1

/-- C16, the part that fails: the query of the relay has no `ORDER BY`. On an outbox
that returns the pending row 2 before the pending row 1, the relay publishes row 2
first. -/
theorem processPendingMessages_not_in_id_order :
    unorderedOutboxDB.outbox.map (fun r => (r.ID, r.Topic, r.Status))
      = [(2, "wallet_events_deposit", "PENDING"), (1, "wallet_events_deposit", "PENDING")] ∧
    (processPendingMessages toyProducer unorderedOutboxDB []).2.2.map (fun c => c.msg.ID)
      = [2, 1] ∧
    (processPendingMessages toyProducer unorderedOutboxDB []).2.1 = [[2], [1]] := by
  refine ⟨by rfl, by rfl, by rfl⟩

/-- C16, amended. On each tick the relay selects the first 50 (or all, when there
are fewer) of the PENDING rows that are not marked as deleted, in the order in which
the query without `ORDER BY` returns the rows of the outbox, and publishes them in
that order with the key "": at most 50 calls of `Publish`; the ids are published in
ascending order when the outbox returns its rows in ascending id order. -/
theorem processPendingMessages_batch {σ : Type} (P : Producer σ) (db : DB) (bus : σ) :
    (processPendingMessages P db bus).2.2.length ≤ 50 ∧
    (processPendingMessages P db bus).2.2.map (fun c => c.msg)
      = (db.outbox.filter (fun m => m.Status = "PENDING" ∧ m.DeletedAt = none)).take 50 ∧
    List.Sublist ((processPendingMessages P db bus).2.2.map (fun c => c.msg)) db.outbox ∧
    (∀ c ∈ (processPendingMessages P db bus).2.2,
      c.topic = c.msg.Topic ∧ c.key = "" ∧ c.payload = c.msg.Payload) ∧
    (db.outbox.Pairwise (fun a b => a.ID < b.ID) →
      ((processPendingMessages P db bus).2.2.map (fun c => c.msg.ID)).Pairwise
        (fun a b => a < b)) := by
  rw [processPendingMessages_eq]
  obtain ⟨h1, h2, _⟩ := relayMessages_spec P (FindPending db) db bus
  have hsub : List.Sublist ((relayMessages P db bus (FindPending db)).2.2.map (fun c => c.msg))
      db.outbox := by
    rw [h1]
    exact FindPending_sublist db
  refine ⟨?_, h1, hsub, h2, ?_⟩
  · have hlen := congrArg List.length h1
    rw [List.length_map] at hlen
    rw [hlen]
    unfold FindPending
    rw [List.length_take]
    exact Nat.min_le_left _ _
  · intro hsorted
    have hp := hsorted.sublist hsub
    rw [List.pairwise_map] at hp
    rw [List.pairwise_map]
    exact hp

theorem processPendingMessages_batch_witness :
    ((processPendingMessages toyProducer mixedOutboxDB []).2.2.map (fun c => c.msg.ID)).Pairwise
      (fun a b => a < b) :=
  (processPendingMessages_batch toyProducer mixedOutboxDB []).2.2.2.2 (by decide)

theorem CreateAddress_ok {db db1 : DB} {a : Address} (h : CreateAddress db a = .ok db1) :
    ∃ chain address, varchar 20 a.Chain = .ok chain ∧ varchar 255 a.Address = .ok address ∧
      db1 = { db with addresses :=
        db.addresses ++ [{ a with
          ID := nextID (db.addresses.map (fun x => x.ID)), Chain := chain, Address := address }] } := by
  unfold CreateAddress at h
  cases hc : varchar 20 a.Chain with
  | error e => rw [hc] at h; cases h
  | ok chain =>
    cases ha : varchar 255 a.Address with
    | error e => rw [hc, ha] at h; cases h
    | ok address =>
      rw [hc, ha] at h
      simp only [] at h
      split at h
      · cases h
      · injection h with h
        exact ⟨chain, address, rfl, rfl, h.symm⟩

theorem GetDepositAddress_found {K : Type} {L : AddressLib} {ops : KeyOps K}
    {s : SQLAddressService K} {db : DB} {redis : Redis} {uid : Nat} {chain : String}
    {r : Address}
    (h : db.addresses.find? (fun a => a.UserID = uid ∧ a.Chain = chain) = some r) :
    GetDepositAddress L ops s db redis uid chain = (db, redis, .ok (r.Address, r.HDPathIndex)) := by
  unfold GetDepositAddress
  rw [h]

theorem GetDepositAddress_ok_cases {K : Type} {L : AddressLib} {ops : KeyOps K}
    {s : SQLAddressService K} {db db1 : DB} {redis redis1 : Redis} {uid : Nat} {chain : String}
    {a : String} {i : Int}
    (h : GetDepositAddress L ops s db redis uid chain = (db1, redis1, .ok (a, i))) :
    (∃ r, db.addresses.find? (fun x => x.UserID = uid ∧ x.Chain = chain) = some r ∧
      db1 = db ∧ redis1 = redis ∧ a = r.Address ∧ i = r.HDPathIndex) ∨
    (db.addresses.find? (fun x => x.UserID = uid ∧ x.Chain = chain) = none ∧
      Incr redis ("wallet:hd_index:" ++ chain) = .ok (redis1, i) ∧
      ((chain = "BTC" ∧ ∃ pk, s.btcGen pk = .ok a) ∨ (chain = "ETH" ∧ ∃ pk, s.ethGen pk = .ok a)) ∧
      CreateAddress db { ID := 0, UserID := uid, Chain := chain, Address := a, HDPathIndex := i }
        = .ok db1) := by
  unfold GetDepositAddress at h
  cases hf : db.addresses.find? (fun x => decide (x.UserID = uid ∧ x.Chain = chain)) with
  | some r =>
    rw [hf] at h
    simp only [Prod.mk.injEq, Except.ok.injEq] at h
    obtain ⟨h1, h2, h3, h4⟩ := h
    exact Or.inl ⟨r, rfl, h1.symm, h2.symm, h3.symm, h4.symm⟩
  | none =>
    rw [hf] at h
    simp only [] at h
    right
    refine ⟨rfl, ?_⟩
    cases hi : Incr redis ("wallet:hd_index:" ++ chain) with
    | error e => rw [hi] at h; simp at h
    | ok p =>
      obtain ⟨r1, index⟩ := p
      rw [hi] at h
      simp only [] at h
      cases hd1 : ops.Derive s.masterKey 0 with
      | error e => rw [hd1] at h; simp at h
      | ok chainKey =>
        rw [hd1] at h
        simp only [] at h
        cases hd2 : ops.Derive chainKey (index % 2 ^ 32).toNat with
        | error e => rw [hd2] at h; simp at h
        | ok childKey =>
          rw [hd2] at h
          simp only [] at h
          cases hpk : ops.ECPubKey childKey with
          | error e => rw [hpk] at h; simp at h
          | ok ecPubKey =>
            rw [hpk] at h
            simp only [] at h
            by_cases hb : chain = "BTC"
            · rw [if_pos hb] at h
              cases hg : s.btcGen (L.SerializeCompressed ecPubKey) with
              | error e => rw [hg] at h; simp at h
              | ok addressStr =>
                rw [hg] at h
                simp only [] at h
                cases hcr : CreateAddress db ⟨0, uid, chain, addressStr, index⟩ with
                | error e => rw [hcr] at h; simp at h
                | ok db2 =>
                  rw [hcr] at h
                  simp only [Prod.mk.injEq, Except.ok.injEq] at h
                  obtain ⟨h1, h2, h3, h4⟩ := h
                  subst h1 h2 h3 h4
                  exact ⟨rfl, Or.inl ⟨hb, _, hg⟩, hcr⟩
            · rw [if_neg hb] at h
              by_cases he : chain = "ETH"
              · rw [if_pos he] at h
                cases hg : s.ethGen (L.SerializeUncompressed ecPubKey) with
                | error e => rw [hg] at h; simp at h
                | ok addressStr =>
                  rw [hg] at h
                  simp only [] at h
                  cases hcr : CreateAddress db ⟨0, uid, chain, addressStr, index⟩ with
                  | error e => rw [hcr] at h; simp at h
                  | ok db2 =>
                    rw [hcr] at h
                    simp only [Prod.mk.injEq, Except.ok.injEq] at h
                    obtain ⟨h1, h2, h3, h4⟩ := h
                    subst h1 h2 h3 h4
                    exact ⟨rfl, Or.inr ⟨he, _, hg⟩, hcr⟩
              · rw [if_neg he] at h
                simp at h

theorem GetDepositAddress_db {K : Type} (L : AddressLib) (ops : KeyOps K)
    (s : SQLAddressService K) (db : DB) (redis : Redis) (uid : Nat) (chain : String) :
    (GetDepositAddress L ops s db redis uid chain).1 = db ∨
    ∃ row, CreateAddress db row = .ok (GetDepositAddress L ops s db redis uid chain).1 := by
  unfold GetDepositAddress
  cases db.addresses.find? (fun x => decide (x.UserID = uid ∧ x.Chain = chain)) with
  | some r => exact Or.inl rfl
  | none =>
    simp only []
    cases Incr redis ("wallet:hd_index:" ++ chain) with
    | error e => exact Or.inl rfl
    | ok p =>
      obtain ⟨r1, index⟩ := p
      simp only []
      cases ops.Derive s.masterKey 0 with
      | error e => exact Or.inl rfl
      | ok chainKey =>
        simp only []
        cases ops.Derive chainKey (index % 2 ^ 32).toNat with
        | error e => exact Or.inl rfl
        | ok childKey =>
          simp only []
          cases ops.ECPubKey childKey with
          | error e => exact Or.inl rfl
          | ok ecPubKey =>
            simp only []
            by_cases hb : chain = "BTC"
            · rw [if_pos hb]
              cases s.btcGen (L.SerializeCompressed ecPubKey) with
              | error e => exact Or.inl rfl
              | ok addressStr =>
                simp only []
                cases hcr : CreateAddress db ⟨0, uid, chain, addressStr, index⟩ with
                | error e => exact Or.inl rfl
                | ok db2 => exact Or.inr ⟨_, hcr⟩
            · rw [if_neg hb]
              by_cases he : chain = "ETH"
              · rw [if_pos he]
                cases s.ethGen (L.SerializeUncompressed ecPubKey) with
                | error e => exact Or.inl rfl
                | ok addressStr =>
                  simp only []
                  cases hcr : CreateAddress db ⟨0, uid, chain, addressStr, index⟩ with
                  | error e => exact Or.inl rfl
                  | ok db2 => exact Or.inr ⟨_, hcr⟩
              · rw [if_neg he]
                exact Or.inl rfl

theorem GetDepositAddress_appends {K : Type} (L : AddressLib) (ops : KeyOps K)
    (s : SQLAddressService K) (db : DB) (redis : Redis) (uid : Nat) (chain : String) :
    ∃ more, (GetDepositAddress L ops s db redis uid chain).1.addresses = db.addresses ++ more := by
  rcases GetDepositAddress_db L ops s db redis uid chain with h | ⟨row, h⟩
  · exact ⟨[], by rw [h, List.append_nil]⟩
  · obtain ⟨c, a, _, _, hdb⟩ := CreateAddress_ok h
    exact ⟨_, by rw [hdb]⟩
theorem find?_append_some {α : Type} {p : α → Bool} {l more : List α} {r : α}
    (h : l.find? p = some r) : (l ++ more).find? p = some r := by
  rw [List.find?_append, h]
  rfl

theorem find?_append_none {α : Type} {p : α → Bool} {l more : List α} {r : α}
    (h : l.find? p = none) (hr : p r = true) : (l ++ [r] ++ more).find? p = some r := by
  rw [List.append_assoc, List.find?_append, h]
  simp [List.find?, hr]

theorem toyAddressService_btcGen_length (pk : Bytes) (x : String)
    (h : toyAddressService.btcGen pk = .ok x) : x.length ≤ 255 := by
  have hx : "btc" ++ String.mk [ldigit ((pk.headD 0).val % 16)] = x := Except.ok.inj h
  rw [← hx, String.length_append]
  show 3 + 1 ≤ 255
  decide

theorem toyAddressService_ethGen_length (pk : Bytes) (x : String)
    (h : toyAddressService.ethGen pk = .ok x) : x.length ≤ 255 := by
  have hx : "eth" ++ String.mk [ldigit ((pk.headD 0).val % 16)] = x := Except.ok.inj h
  rw [← hx, String.length_append]
  show 3 + 1 ≤ 255
  decide

/-- C17. `NewSQLAddressService` returns an error and no service for every extended
key whose `IsPrivate()` is true, and for every key whose `IsPrivate()` is false it
returns the service that holds this key and the name of the network. -/
theorem NewSQLAddressService_rejects_private {K : Type} (L : AddressLib) (ops : KeyOps K)
    (masterKey : K) (network : chaincfg.Params) :
    (ops.IsPrivate masterKey = true →
      NewSQLAddressService L ops masterKey network
        = .error (.errorsNew "AddressService 应该只持有扩展公钥 (xpub)，不应持有私钥")) ∧
    (ops.IsPrivate masterKey = false →
      NewSQLAddressService L ops masterKey network
        = .ok { masterKey := masterKey, btcGen := L.BTCPubKeyToAddress network,
                ethGen := L.ETHPubKeyToAddress, networkType := network.Name }) := by
  unfold NewSQLAddressService
  constructor
  · intro h
    rw [if_pos h]
  · intro h
    rw [if_neg (by rw [h]; decide)]

theorem NewSQLAddressService_rejects_private_witness :
    NewSQLAddressService toyAddressLib toyKeyOps 1 toyNetwork
      = .error (.errorsNew "AddressService 应该只持有扩展公钥 (xpub)，不应持有私钥") ∧
    NewSQLAddressService toyAddressLib toyPublicKeyOps 1 toyNetwork
      = .ok { masterKey := 1, btcGen := toyAddressLib.BTCPubKeyToAddress toyNetwork,
              ethGen := toyAddressLib.ETHPubKeyToAddress, networkType := toyNetwork.Name } :=
  ⟨(NewSQLAddressService_rejects_private toyAddressLib toyKeyOps 1 toyNetwork).1 rfl,
   (NewSQLAddressService_rejects_private toyAddressLib toyPublicKeyOps 1 toyNetwork).2 rfl⟩

/-- C18. With generators whose addresses have at most 255 characters (the width of
the column): if `GetDepositAddress` succeeds for a user and a chain, then in every
later state, in which address rows have only been added, `GetDepositAddress` for the
same user and chain returns the same address and path index and leaves the database
and the Redis server as they are (no new Address row, no advance of the counter);
and every call of `GetDepositAddress` only adds address rows. -/
theorem GetDepositAddress_stable {K : Type} (L : AddressLib) (ops : KeyOps K)
    (s : SQLAddressService K) (db db1 : DB) (redis redis1 : Redis) (uid : Nat)
    (chain a : String) (i : Int)
    (hbtc : ∀ pk x, s.btcGen pk = .ok x → x.length ≤ 255)
    (heth : ∀ pk x, s.ethGen pk = .ok x → x.length ≤ 255)
    (hfirst : GetDepositAddress L ops s db redis uid chain = (db1, redis1, .ok (a, i))) :
    (∀ (db2 : DB) (redis2 : Redis), (∃ more, db2.addresses = db1.addresses ++ more) →
      GetDepositAddress L ops s db2 redis2 uid chain = (db2, redis2, .ok (a, i))) ∧
    (∀ (dbx : DB) (redisx : Redis) (uid2 : Nat) (chain2 : String),
      ∃ more, (GetDepositAddress L ops s dbx redisx uid2 chain2).1.addresses
        = dbx.addresses ++ more) := by
  refine ⟨?_, fun dbx redisx uid2 chain2 => GetDepositAddress_appends L ops s dbx redisx uid2 chain2⟩
  intro db2 redis2 hmore
  obtain ⟨more, hmore⟩ := hmore
  rcases GetDepositAddress_ok_cases hfirst with
    ⟨r, hf, hdb, _, ha, hi⟩ | ⟨hf, _, hgen, hcr⟩
  · subst hdb
    have : GetDepositAddress L ops s db2 redis2 uid chain
        = (db2, redis2, .ok (r.Address, r.HDPathIndex)) :=
      GetDepositAddress_found (by rw [hmore]; exact find?_append_some hf)
    rw [this, ha, hi]
  · obtain ⟨c, ad, hc, had, hdb1⟩ := CreateAddress_ok hcr
    have hclen : chain.length ≤ 20 := by
      rcases hgen with ⟨h, _⟩ | ⟨h, _⟩ <;> rw [h] <;> decide
    have halen : a.length ≤ 255 := by
      rcases hgen with ⟨_, pk, h⟩ | ⟨_, pk, h⟩
      · exact hbtc pk a h
      · exact heth pk a h
    simp only [] at hc had
    rw [varchar_fits hclen] at hc
    rw [varchar_fits halen] at had
    injection hc with hc
    injection had with had
    subst hc had
    have hrow : db2.addresses.find? (fun x => decide (x.UserID = uid ∧ x.Chain = chain))
        = some { ID := nextID (db.addresses.map (fun x => x.ID)), UserID := uid, Chain := chain,
                 Address := a, HDPathIndex := i } := by
      rw [hmore, hdb1]
      exact find?_append_none hf (by simp)
    have : GetDepositAddress L ops s db2 redis2 uid chain = (db2, redis2, .ok (a, i)) :=
      GetDepositAddress_found hrow
    rw [this]

theorem GetDepositAddress_stable_witness :
    GetDepositAddress toyAddressLib indexedKeyOps toyAddressService
        { emptyDB with
          addresses := [{ ID := 1, UserID := 7, Chain := "ETH", Address := "eth2",
                          HDPathIndex := 1 }] }
        emptyRedis 7 "ETH"
      = ({ emptyDB with
           addresses := [{ ID := 1, UserID := 7, Chain := "ETH", Address := "eth2",
                           HDPathIndex := 1 }] },
         emptyRedis, .ok ("eth2", 1)) :=
  (GetDepositAddress_stable toyAddressLib indexedKeyOps toyAddressService emptyDB
    { emptyDB with
      addresses := [{ ID := 1, UserID := 7, Chain := "ETH", Address := "eth2",
                      HDPathIndex := 1 }] }
    emptyRedis { reachable := true, keys := [("wallet:hd_index:ETH", 1)] } 7 "ETH" "eth2" 1
    toyAddressService_btcGen_length toyAddressService_ethGen_length
    (by rfl)).1 _ emptyRedis ⟨[], by rfl⟩
/-- C19, the part that fails: user 7 asks for an "ETH" address while the counter
yields the path index 1, which the row of user 8 holds. `GetDepositAddress` returns
the error of the insertion to the caller and does not retry; the counter has
advanced and no row was added. -/
theorem GetDepositAddress_conflict_is_error :
    takenIndexDB.addresses
      = [{ ID := 1, UserID := 8, Chain := "ETH", Address := "eth9", HDPathIndex := 1 }] ∧
    GetDepositAddress toyAddressLib indexedKeyOps toyAddressService takenIndexDB emptyRedis 7 "ETH"
      = (takenIndexDB, { reachable := true, keys := [("wallet:hd_index:ETH", 1)] },
         .error (.fmtErrorf "保存地址到数据库失败: "
           (.lib "duplicate key value violates unique constraint"))) := by
  refine ⟨by rfl, by rfl⟩

/-- C19, amended. When the user has no address on the chain ("BTC" or "ETH"), the
counter yields an index, the key is derived and an address of at most 255 characters
is generated, and the insertion of the new row hits a uniqueness conflict on
(chain, path_index) or (chain, address), then `GetDepositAddress` returns the error
"保存地址到数据库失败: ..." that wraps the error of the insertion: it does not
retry, it adds no row, and the counter stays advanced. -/
theorem GetDepositAddress_conflict {K : Type} (L : AddressLib) (ops : KeyOps K)
    (s : SQLAddressService K) (db : DB) (redis redis1 : Redis) (uid : Nat) (chain : String)
    (index : Int) (chainKey childKey : K) (ecPubKey : Bytes) (addressStr : String)
    (hnone : db.addresses.find? (fun a => a.UserID = uid ∧ a.Chain = chain) = none)
    (hincr : Incr redis ("wallet:hd_index:" ++ chain) = .ok (redis1, index))
    (hd1 : ops.Derive s.masterKey 0 = .ok chainKey)
    (hd2 : ops.Derive chainKey (index % 2 ^ 32).toNat = .ok childKey)
    (hpk : ops.ECPubKey childKey = .ok ecPubKey)
    (hgen : (chain = "BTC" ∧ s.btcGen (L.SerializeCompressed ecPubKey) = .ok addressStr) ∨
      (chain = "ETH" ∧ s.ethGen (L.SerializeUncompressed ecPubKey) = .ok addressStr))
    (hlen : addressStr.length ≤ 255)
    (hconflict : ∃ x ∈ db.addresses,
      x.Chain = chain ∧ (x.Address = addressStr ∨ x.HDPathIndex = index)) :
    GetDepositAddress L ops s db redis uid chain
      = (db, redis1, .error (.fmtErrorf "保存地址到数据库失败: "
          (.lib "duplicate key value violates unique constraint"))) ∧
    redis1 = redis.set ("wallet:hd_index:" ++ chain) index ∧
    index = (redis.get ("wallet:hd_index:" ++ chain)).getD 0 + 1 := by
  have hclen : chain.length ≤ 20 := by
    rcases hgen with ⟨h, _⟩ | ⟨h, _⟩ <;> rw [h] <;> decide
  have hcreate : CreateAddress db ⟨0, uid, chain, addressStr, index⟩
      = .error (.lib "duplicate key value violates unique constraint") := by
    unfold CreateAddress
    simp only [varchar_fits hclen, varchar_fits hlen]
    have hany : db.addresses.any (fun x =>
        decide (x.Chain = chain ∧ (x.Address = addressStr ∨ x.HDPathIndex = index))) = true := by
      rw [List.any_eq_true]
      obtain ⟨x, hx, hc⟩ := hconflict
      exact ⟨x, hx, by simp only [decide_eq_true_eq]; exact hc⟩
    rw [if_pos hany]
  refine ⟨?_, ?_⟩
  · unfold GetDepositAddress
    rw [hnone]
    simp only [hincr, hd1, hd2, hpk]
    rcases hgen with ⟨hb, hg⟩ | ⟨he, hg⟩
    · rw [if_pos hb]
      simp only [hg, hcreate]
    · have hb : ¬ chain = "BTC" := by rw [he]; decide
      rw [if_neg hb, if_pos he]
      simp only [hg, hcreate]
  · unfold Incr at hincr
    split at hincr
    · simp only [] at hincr
      split at hincr
      · cases hincr
      · simp only [Except.ok.injEq, Prod.mk.injEq] at hincr
        obtain ⟨h1, h2⟩ := hincr
        exact ⟨by rw [← h1, ← h2], h2.symm⟩
    · cases hincr

theorem GetDepositAddress_conflict_witness :
    GetDepositAddress toyAddressLib indexedKeyOps toyAddressService takenIndexDB emptyRedis 7 "ETH"
      = (takenIndexDB, { reachable := true, keys := [("wallet:hd_index:ETH", 1)] },
         .error (.fmtErrorf "保存地址到数据库失败: "
          (.lib "duplicate key value violates unique constraint"))) :=
  (GetDepositAddress_conflict toyAddressLib indexedKeyOps toyAddressService takenIndexDB
    emptyRedis { reachable := true, keys := [("wallet:hd_index:ETH", 1)] } 7 "ETH" 1 1 2 [2]
    "eth2" (by rfl) (by rfl) (by rfl) (by rfl) (by rfl) (Or.inr ⟨rfl, by rfl⟩) (by decide)
    ⟨_, List.mem_singleton.mpr rfl, by decide⟩).1
theorem isSpace_printable {c : Char} (h : 33 ≤ c.toNat ∧ c.toNat ≤ 126) : isSpace c = false := by
  unfold isSpace
  simp only [Bool.or_eq_false_iff, Bool.and_eq_false_iff, decide_eq_false_iff_not,
    beq_eq_false_iff_ne, ne_eq]
  omega

theorem Split_ne_nil (sep : Char) (s : List Char) : Split sep s ≠ [] := by
  cases s with
  | nil => simp [Split]
  | cons c cs =>
    unfold Split
    split
    · simp
    · split <;> simp

theorem Split_no_sep {sep : Char} {s : List Char} (h : sep ∉ s) : Split sep s = [s] := by
  induction s with
  | nil => rfl
  | cons c cs ih =>
    have hc : ¬ c = sep := fun e => h (by rw [e]; exact List.mem_cons_self _ _)
    have hcs : sep ∉ cs := fun e => h (List.mem_cons_of_mem _ e)
    unfold Split
    rw [if_neg hc, ih hcs]

theorem Split_append_sep {sep : Char} {s t : List Char} (h : sep ∉ s) :
    Split sep (s ++ sep :: t) = s :: Split sep t := by
  induction s with
  | nil =>
    show Split sep (sep :: t) = [] :: Split sep t
    rw [Split, if_pos rfl]
  | cons c cs ih =>
    have hc : ¬ c = sep := fun e => h (by rw [e]; exact List.mem_cons_self _ _)
    have hcs : sep ∉ cs := fun e => h (List.mem_cons_of_mem _ e)
    show Split sep (c :: (cs ++ sep :: t)) = (c :: cs) :: Split sep t
    rw [Split, if_neg hc, ih hcs]

theorem Split_joinSegments (segs : List (List Char)) (hne : segs ≠ [])
    (h : ∀ s ∈ segs, '/' ∉ s) : Split '/' (joinSegments segs) = segs := by
  induction segs with
  | nil => exact absurd rfl hne
  | cons s rest ih =>
    cases rest with
    | nil =>
      show Split '/' s = [s]
      exact Split_no_sep (h s (List.mem_cons_self _ _))
    | cons t rest =>
      show Split '/' (s ++ '/' :: joinSegments (t :: rest)) = s :: t :: rest
      rw [Split_append_sep (h s (List.mem_cons_self _ _)),
        ih (by simp) (fun x hx => h x (List.mem_cons_of_mem _ hx))]

theorem dropWhile_spaces_append {ws rest : List Char} (hws : ∀ c ∈ ws, isSpace c = true) :
    (ws ++ rest).dropWhile isSpace = rest.dropWhile isSpace := by
  induction ws with
  | nil => rfl
  | cons c cs ih =>
    show (c :: (cs ++ rest)).dropWhile isSpace = _
    rw [List.dropWhile_cons, if_pos (hws c (List.mem_cons_self _ _))]
    exact ih (fun x hx => hws x (List.mem_cons_of_mem _ hx))

theorem TrimSpace_spaces {ws : List Char} (hws : ∀ c ∈ ws, isSpace c = true) :
    TrimSpace ws = [] := by
  unfold TrimSpace
  have : (ws ++ []).dropWhile isSpace = ([] : List Char).dropWhile isSpace :=
    dropWhile_spaces_append hws
  rw [List.append_nil] at this
  rw [this]
  rfl

theorem TrimSpace_core {ws1 ws2 core : List Char} {a z : Char} {mid : List Char}
    (hws1 : ∀ c ∈ ws1, isSpace c = true) (hws2 : ∀ c ∈ ws2, isSpace c = true)
    (hhead : core = a :: mid) (ha : isSpace a = false)
    (hlast : core.getLast? = some z) (hz : isSpace z = false) :
    TrimSpace (ws1 ++ core ++ ws2) = core := by
  unfold TrimSpace
  rw [List.append_assoc, dropWhile_spaces_append hws1]
  have h1 : (core ++ ws2).dropWhile isSpace = core ++ ws2 := by
    rw [hhead]
    show (a :: (mid ++ ws2)).dropWhile isSpace = _
    rw [List.dropWhile_cons, ha]
    rfl
  rw [h1, List.reverse_append]
  have hws2r : ∀ c ∈ ws2.reverse, isSpace c = true := fun c hc => hws2 c (List.mem_reverse.mp hc)
  rw [dropWhile_spaces_append hws2r]
  have hrev : ∃ front, core.reverse = z :: front := by
    rw [List.getLast?_eq_head?_reverse] at hlast
    cases hr : core.reverse with
    | nil => rw [hr] at hlast; cases hlast
    | cons y front =>
      rw [hr] at hlast
      simp only [List.head?_cons, Option.some.injEq] at hlast
      exact ⟨front, by rw [hlast]⟩
  obtain ⟨front, hfront⟩ := hrev
  rw [hfront, List.dropWhile_cons, hz]
  simp only [Bool.false_eq_true, if_false]
  rw [← hfront, List.reverse_reverse]
theorem foldl_digits_ge (ds : List Char) (n : Nat) :
    n ≤ ds.foldl (fun n c => n * 10 + (c.toNat - 48)) n := by
  induction ds generalizing n with
  | nil => exact Nat.le_refl _
  | cons c cs ih =>
    show n ≤ cs.foldl (fun n c => n * 10 + (c.toNat - 48)) (n * 10 + (c.toNat - 48))
    have := ih (n * 10 + (c.toNat - 48))
    omega

theorem parseUintLoop_digits (Quote : String → String) (s0 : String) (ds : List Char) :
    ∀ n : Nat, (∀ c ∈ ds, 48 ≤ c.toNat ∧ c.toNat ≤ 57) →
      ds.foldl (fun n c => n * 10 + (c.toNat - 48)) n < 2 ^ 32 →
      parseUintLoop Quote s0 n ds = .ok (ds.foldl (fun n c => n * 10 + (c.toNat - 48)) n) := by
  induction ds with
  | nil => intro n _ _; rfl
  | cons c cs ih =>
    intro n hd hlt
    have hc := hd c (List.mem_cons_self _ _)
    have hge := foldl_digits_ge cs (n * 10 + (c.toNat - 48))
    have hlt2 : cs.foldl (fun n c => n * 10 + (c.toNat - 48)) (n * 10 + (c.toNat - 48)) < 2 ^ 32 :=
      hlt
    unfold parseUintLoop
    rw [if_pos hc]
    simp only []
    rw [if_neg (by omega)]
    exact ih _ (fun x hx => hd x (List.mem_cons_of_mem _ hx)) hlt2

theorem parseUintLoop_ok (Quote : String → String) (s0 : String) (ds : List Char) :
    ∀ n v : Nat, parseUintLoop Quote s0 n ds = .ok v →
      (∀ c ∈ ds, 48 ≤ c.toNat ∧ c.toNat ≤ 57) ∧
      v = ds.foldl (fun n c => n * 10 + (c.toNat - 48)) n ∧ (n < 2 ^ 32 → v < 2 ^ 32) := by
  induction ds with
  | nil =>
    intro n v h
    injection h with h
    exact ⟨fun c hc => (by cases hc), h.symm, fun hn => (by rw [← h]; exact hn)⟩
  | cons c cs ih =>
    intro n v h
    unfold parseUintLoop at h
    by_cases hc : 48 ≤ c.toNat ∧ c.toNat ≤ 57
    · rw [if_pos hc] at h
      simp only [] at h
      by_cases hov : n * 10 + (c.toNat - 48) > 4294967295
      · rw [if_pos hov] at h
        cases h
      · rw [if_neg hov] at h
        obtain ⟨h1, h2, h3⟩ := ih _ _ h
        refine ⟨?_, h2, fun _ => h3 (by omega)⟩
        intro x hx
        rw [List.mem_cons] at hx
        rcases hx with rfl | hx
        · exact hc
        · exact h1 x hx
    · rw [if_neg hc] at h
      cases h

theorem ParseUint_decimal (Quote : String → String) {ds : List Char} (hd : IsDecimal ds)
    (hlt : decimalValue ds < 2 ^ 32) :
    ParseUint Quote (String.mk ds) = .ok (decimalValue ds) := by
  unfold ParseUint
  have hne : ¬ String.mk ds = "" := by
    intro h
    have : ds = [] := congrArg String.data h
    exact hd.1 this
  rw [if_neg hne]
  exact parseUintLoop_digits Quote _ ds 0 hd.2 hlt

theorem ParseUint_ok (Quote : String → String) {ds : List Char} {v : Nat}
    (h : ParseUint Quote (String.mk ds) = .ok v) :
    IsDecimal ds ∧ v = decimalValue ds ∧ decimalValue ds < 2 ^ 32 := by
  unfold ParseUint at h
  by_cases he : String.mk ds = ""
  · rw [if_pos he] at h
    cases h
  · rw [if_neg he] at h
    obtain ⟨h1, h2, h3⟩ := parseUintLoop_ok Quote _ ds 0 v h
    have hne : ds ≠ [] := by
      intro hnil
      apply he
      rw [hnil]
    refine ⟨⟨hne, h1⟩, h2, ?_⟩
    have := h3 (by decide)
    rw [h2] at this
    exact this
theorem derivePathLoop_unmarked {K : Type} (Quote : String → String) (ops : KeyOps K) (key : K)
    {ds : List Char} (rest : List (List Char)) (hd : IsDecimal ds)
    (hlt : decimalValue ds < 2 ^ 32) :
    derivePathLoop Quote ops key (ds :: rest) =
      match ops.Derive key (decimalValue ds) with
      | .error e => .error e
      | .ok next => derivePathLoop Quote ops next rest := by
  have hlast : ∀ m : Char, (m.toNat < 48 ∨ 57 < m.toNat) → ¬ ds.getLast? = some m := by
    intro m hm h
    have hmem : m ∈ ds := List.mem_of_mem_getLast? h
    have := hd.2 m hmem
    omega
  have h1 : ¬ ds.getLast? = some (Char.ofNat 39) := hlast _ (by decide)
  have h2 : ¬ ds.getLast? = some 'h' := hlast _ (by decide)
  rw [derivePathLoop]
  simp only [h1, h2, decide_False, Bool.or_self, Bool.false_eq_true, if_false,
    ParseUint_decimal Quote hd hlt]

theorem derivePathLoop_marked {K : Type} (Quote : String → String) (ops : KeyOps K) (key : K)
    {ds : List Char} {m : Char} (rest : List (List Char)) (hd : IsDecimal ds)
    (hm : m = Char.ofNat 39 ∨ m = 'h') (hlt : decimalValue ds < 2 ^ 31) :
    derivePathLoop Quote ops key ((ds ++ [m]) :: rest) =
      match ops.Derive key (decimalValue ds + 2 ^ 31) with
      | .error e => .error e
      | .ok next => derivePathLoop Quote ops next rest := by
  have hl : (ds ++ [m]).getLast? = some m := by simp
  have hh : (decide ((ds ++ [m]).getLast? = some (Char.ofNat 39)) ||
      decide ((ds ++ [m]).getLast? = some 'h')) = true := by
    rw [hl]
    rcases hm with rfl | rfl <;> decide
  have hidx : (decimalValue ds + HardenedKeyStart) % 2 ^ 32 = decimalValue ds + 2 ^ 31 := by
    unfold HardenedKeyStart
    omega
  rw [derivePathLoop]
  simp only [hh, if_true, List.dropLast_concat,
    ParseUint_decimal Quote hd (by omega : decimalValue ds < 2 ^ 32), hidx]

theorem derivePathLoop_not_segment {K : Type} (Quote : String → String) (ops : KeyOps K)
    (key : K) {seg : List Char} (rest : List (List Char)) (hbad : ¬ IsSegment seg) :
    ∃ e, derivePathLoop Quote ops key (seg :: rest) = .error e := by
  rw [derivePathLoop]
  simp only []
  by_cases hh : (decide (seg.getLast? = some (Char.ofNat 39)) ||
      decide (seg.getLast? = some 'h')) = true
  · simp only [hh, if_true]
    cases hp : ParseUint Quote (String.mk seg.dropLast) with
    | error e => exact ⟨_, rfl⟩
    | ok v =>
      exfalso
      apply hbad
      obtain ⟨h1, _, h3⟩ := ParseUint_ok Quote hp
      simp only [Bool.or_eq_true, decide_eq_true_eq] at hh
      rcases hh with hl | hl
      · exact ⟨seg.dropLast, [Char.ofNat 39],
          (List.dropLast_append_getLast? _ (by rw [hl]; rfl)).symm, h1, Or.inr (Or.inl rfl), h3⟩
      · exact ⟨seg.dropLast, ['h'],
          (List.dropLast_append_getLast? _ (by rw [hl]; rfl)).symm, h1, Or.inr (Or.inr rfl), h3⟩
  · simp only [hh, Bool.false_eq_true, if_false]
    cases hp : ParseUint Quote (String.mk seg) with
    | error e => exact ⟨_, rfl⟩
    | ok v =>
      exfalso
      apply hbad
      obtain ⟨h1, _, h3⟩ := ParseUint_ok Quote hp
      exact ⟨seg, [], (List.append_nil _).symm, h1, Or.inl rfl, h3⟩
theorem derivePathLoop_marked_wrap {K : Type} (Quote : String → String) (ops : KeyOps K)
    (key : K) {ds : List Char} {m : Char} (rest : List (List Char)) (hd : IsDecimal ds)
    (hm : m = Char.ofNat 39 ∨ m = 'h') (hlt : decimalValue ds < 2 ^ 32) :
    derivePathLoop Quote ops key ((ds ++ [m]) :: rest) =
      match ops.Derive key ((decimalValue ds + HardenedKeyStart) % 2 ^ 32) with
      | .error e => .error e
      | .ok next => derivePathLoop Quote ops next rest := by
  have hl : (ds ++ [m]).getLast? = some m := by simp
  have hh : (decide ((ds ++ [m]).getLast? = some (Char.ofNat 39)) ||
      decide ((ds ++ [m]).getLast? = some 'h')) = true := by
    rw [hl]
    rcases hm with rfl | rfl <;> decide
  rw [derivePathLoop]
  simp only [hh, if_true, List.dropLast_concat, ParseUint_decimal Quote hd hlt]

theorem derivePathLoop_segment {K : Type} (Quote : String → String) (ops : KeyOps K)
    (key : K) {seg : List Char} (rest : List (List Char)) (h : IsSegment seg) :
    ∃ index, derivePathLoop Quote ops key (seg :: rest) =
      match ops.Derive key index with
      | .error e => .error e
      | .ok next => derivePathLoop Quote ops next rest := by
  obtain ⟨ds, mark, rfl, hd, hm, hlt⟩ := h
  rcases hm with rfl | rfl | rfl
  · rw [List.append_nil]
    exact ⟨_, derivePathLoop_unmarked Quote ops key rest hd hlt⟩
  · exact ⟨_, derivePathLoop_marked_wrap Quote ops key rest hd (Or.inl rfl) hlt⟩
  · exact ⟨_, derivePathLoop_marked_wrap Quote ops key rest hd (Or.inr rfl) hlt⟩

theorem derivePathLoop_bad {K : Type} (Quote : String → String) (ops : KeyOps K)
    (segs : List (List Char)) :
    ∀ key : K, (∃ s ∈ segs, ¬ IsSegment s) → ∃ e, derivePathLoop Quote ops key segs = .error e := by
  induction segs with
  | nil =>
    rintro key ⟨s, hs, _⟩
    cases hs
  | cons seg rest ih =>
    rintro key ⟨s, hs, hbad⟩
    by_cases hseg : IsSegment seg
    · obtain ⟨index, hstep⟩ := derivePathLoop_segment Quote ops key rest hseg
      rw [hstep]
      cases ops.Derive key index with
      | error e => exact ⟨e, rfl⟩
      | ok next =>
        rw [List.mem_cons] at hs
        rcases hs with rfl | hs
        · exact absurd hseg hbad
        · exact ih next ⟨s, hs, hbad⟩
    · exact derivePathLoop_not_segment Quote ops key rest hseg

theorem derivePathLoop_segments {K : Type} (Quote : String → String) (ops : KeyOps K)
    (segs : List (List Char × List Char)) :
    ∀ key : K,
      (∀ p ∈ segs, IsDecimal p.1 ∧ IsMark p.2 ∧ (p.2 = [] → decimalValue p.1 < 2 ^ 32) ∧
        (p.2 ≠ [] → decimalValue p.1 < 2 ^ 31)) →
      derivePathLoop Quote ops key (segs.map (fun p => p.1 ++ p.2))
        = deriveAll ops key (segs.map (fun p => segmentIndex p.1 p.2)) := by
  induction segs with
  | nil => intro key _; rfl
  | cons p rest ih =>
    intro key h
    obtain ⟨hd, hm, h32, h31⟩ := h p (List.mem_cons_self _ _)
    have hrest := fun next => ih next (fun q hq => h q (List.mem_cons_of_mem _ hq))
    obtain ⟨ds, mark⟩ := p
    simp only [List.map_cons]
    simp only [] at hd hm h32 h31
    have hstep : derivePathLoop Quote ops key ((ds ++ mark) ::
          rest.map (fun p => p.1 ++ p.2)) =
        match ops.Derive key (segmentIndex ds mark) with
        | .error e => .error e
        | .ok next => derivePathLoop Quote ops next (rest.map (fun p => p.1 ++ p.2)) := by
      rcases hm with rfl | rfl | rfl
      · rw [List.append_nil]
        exact derivePathLoop_unmarked Quote ops key _ hd (h32 rfl)
      · exact derivePathLoop_marked Quote ops key _ hd (Or.inl rfl) (h31 (by simp))
      · exact derivePathLoop_marked Quote ops key _ hd (Or.inr rfl) (h31 (by simp))
    rw [hstep, deriveAll]
    cases ops.Derive key (segmentIndex ds mark) with
    | error e => rfl
    | ok next => exact hrest next

theorem mem_joinSegments {c : Char} (segs : List (List Char)) (h : c ∈ joinSegments segs) :
    c = '/' ∨ ∃ s ∈ segs, c ∈ s := by
  induction segs with
  | nil => cases h
  | cons s rest ih =>
    cases rest with
    | nil => exact Or.inr ⟨s, List.mem_cons_self _ _, h⟩
    | cons t rest =>
      have h2 : c ∈ s ++ '/' :: joinSegments (t :: rest) := h
      rw [List.mem_append, List.mem_cons] at h2
      rcases h2 with h2 | h2 | h2
      · exact Or.inr ⟨s, List.mem_cons_self _ _, h2⟩
      · exact Or.inl h2
      · rcases ih h2 with h3 | ⟨x, hx, hc⟩
        · exact Or.inl h3
        · exact Or.inr ⟨x, List.mem_cons_of_mem _ hx, hc⟩

theorem DerivePath_trimmed {K : Type} (Quote : String → String) (ops : KeyOps K) (masterKey : K)
    {ws1 ws2 : List Char} {segs : List (List Char)} (hne : segs ≠ [])
    (hws1 : ∀ c ∈ ws1, isSpace c = true) (hws2 : ∀ c ∈ ws2, isSpace c = true)
    (hsep : ∀ s ∈ segs, '/' ∉ s)
    (hlast : ∀ c, ('m' :: '/' :: joinSegments segs).getLast? = some c → isSpace c = false) :
    DerivePath Quote ops masterKey (String.mk (ws1 ++ ('m' :: '/' :: joinSegments segs) ++ ws2))
      = derivePathLoop Quote ops masterKey segs := by
  have hz : ∃ z, ('m' :: '/' :: joinSegments segs).getLast? = some z := by
    cases hl : ('m' :: '/' :: joinSegments segs).getLast? with
    | none => simp at hl
    | some z => exact ⟨z, rfl⟩
  obtain ⟨z, hz⟩ := hz
  have htrim : TrimSpace (ws1 ++ ('m' :: '/' :: joinSegments segs) ++ ws2)
      = 'm' :: '/' :: joinSegments segs :=
    TrimSpace_core hws1 hws2 rfl (by decide) hz (hlast z hz)
  unfold DerivePath
  simp only [htrim]
  rw [if_neg (by simp), Split_joinSegments segs hne hsep]
/-- C20, the part that fails: the segment "4294967296" is a decimal number, and
`Derive` of the stand-in never fails, yet `DerivePath` returns an error for the path
"m/4294967296": `strconv.ParseUint` with bit size 32 refuses a number of 2^32 or
more. -/
theorem DerivePath_number_out_of_range :
    DerivePath toyQuote pathKeyOps [] "m/4294967296"
      = .error (.fmtErrorf "无效的路径段 '4294967296': "
          (.fmtErrorf "strconv.ParseUint: parsing \"4294967296\": "
            (.errorsNew "value out of range"))) ∧
    deriveAll pathKeyOps [] [4294967296] = .ok [4294967296] := by
  refine ⟨by rfl, by rfl⟩

/-- C20, amended. `DerivePath` returns the master key itself for a path that is
empty or consists of white space. For a path "m/s1/.../sk" with white space before
and after it, in which each segment is a decimal number n_i, below 2^32 when the
segment is unmarked and below 2^31 when it is followed by an apostrophe or by h, it
returns what the successive calls of `Derive` with the index n_i for an unmarked and
n_i + 2^31 for a marked segment give, starting from the master key: the key when all
calls succeed, the error of the first call that fails otherwise; the two marks give
the same index. And for a path "m/s1/.../sk" (segments without "/", no white space
at the end of the last one) in which some segment is not a decimal number below 2^32
with an optional mark, it returns an error. -/
theorem DerivePath_segments {K : Type} (Quote : String → String) (ops : KeyOps K)
    (masterKey : K) :
    (∀ ws : List Char, (∀ c ∈ ws, isSpace c = true) →
      DerivePath Quote ops masterKey (String.mk ws) = .ok masterKey) ∧
    (∀ (ws1 ws2 : List Char) (segs : List (List Char × List Char)),
      segs ≠ [] → (∀ c ∈ ws1, isSpace c = true) → (∀ c ∈ ws2, isSpace c = true) →
      (∀ p ∈ segs, IsDecimal p.1 ∧ IsMark p.2 ∧ (p.2 = [] → decimalValue p.1 < 2 ^ 32) ∧
        (p.2 ≠ [] → decimalValue p.1 < 2 ^ 31)) →
      DerivePath Quote ops masterKey
          (String.mk (ws1 ++ ('m' :: '/' :: joinSegments (segs.map (fun p => p.1 ++ p.2))) ++ ws2))
        = deriveAll ops masterKey (segs.map (fun p => segmentIndex p.1 p.2))) ∧
    (∀ ds : List Char, segmentIndex ds [Char.ofNat 39] = segmentIndex ds ['h']) ∧
    (∀ (ws1 ws2 : List Char) (segs : List (List Char)),
      segs ≠ [] → (∀ c ∈ ws1, isSpace c = true) → (∀ c ∈ ws2, isSpace c = true) →
      (∀ s ∈ segs, '/' ∉ s) →
      (∀ c, ('m' :: '/' :: joinSegments segs).getLast? = some c → isSpace c = false) →
      (∃ s ∈ segs, ¬ IsSegment s) →
      ∃ e, DerivePath Quote ops masterKey
          (String.mk (ws1 ++ ('m' :: '/' :: joinSegments segs) ++ ws2)) = .error e) := by
  refine ⟨?_, ?_, ?_, ?_⟩
  · intro ws hws
    unfold DerivePath
    simp only [TrimSpace_spaces hws, if_true]
  · intro ws1 ws2 segs hne hws1 hws2 hsegs
    have hprint : ∀ s ∈ segs.map (fun p => p.1 ++ p.2), ∀ c ∈ s,
        33 ≤ c.toNat ∧ c.toNat ≤ 126 := by
      intro s hs c hc
      rw [List.mem_map] at hs
      obtain ⟨p, hp, rfl⟩ := hs
      obtain ⟨hd, hm, _, _⟩ := hsegs p hp
      rw [List.mem_append] at hc
      rcases hc with hc | hc
      · have := hd.2 c hc
        omega
      · rcases hm with hm | hm | hm
        · rw [hm] at hc
          cases hc
        · rw [hm, List.mem_singleton] at hc
          rw [hc]
          decide
        · rw [hm, List.mem_singleton] at hc
          rw [hc]
          decide
    have hsep : ∀ s ∈ segs.map (fun p => p.1 ++ p.2), '/' ∉ s := by
      intro s hs hc
      rw [List.mem_map] at hs
      obtain ⟨p, hp, rfl⟩ := hs
      obtain ⟨hd, hm, _, _⟩ := hsegs p hp
      rw [List.mem_append] at hc
      rcases hc with hc | hc
      · have := hd.2 _ hc
        revert this
        decide
      · rcases hm with hm | hm | hm
        · rw [hm] at hc
          cases hc
        · rw [hm, List.mem_singleton] at hc
          revert hc
          decide
        · rw [hm, List.mem_singleton] at hc
          revert hc
          decide
    have hlast : ∀ c, ('m' :: '/' :: joinSegments (segs.map (fun p => p.1 ++ p.2))).getLast?
        = some c → isSpace c = false := by
      intro c hc
      have hmem := List.mem_of_mem_getLast? hc
      rw [List.mem_cons, List.mem_cons] at hmem
      rcases hmem with rfl | rfl | hmem
      · decide
      · decide
      · rcases mem_joinSegments _ hmem with rfl | ⟨s, hs, hcs⟩
        · decide
        · exact isSpace_printable (hprint s hs c hcs)
    rw [DerivePath_trimmed Quote ops masterKey (by simpa using hne) hws1 hws2 hsep hlast]
    exact derivePathLoop_segments Quote ops segs masterKey hsegs
  · intro ds
    rfl
  · intro ws1 ws2 segs hne hws1 hws2 hsep hlast hbad
    rw [DerivePath_trimmed Quote ops masterKey hne hws1 hws2 hsep hlast]
    exact derivePathLoop_bad Quote ops segs masterKey hbad

theorem DerivePath_segments_witness :
    DerivePath toyQuote pathKeyOps []
        (String.mk ([' '] ++ ('m' :: '/' :: joinSegments
          ([(['4', '4'], [Char.ofNat 39]), (['0'], ['h']), (['7'], [])].map
            (fun p => p.1 ++ p.2))) ++ [' ', '\n']))
      = deriveAll pathKeyOps []
          ([(['4', '4'], [Char.ofNat 39]), (['0'], ['h']), (['7'], [])].map
            (fun p => segmentIndex p.1 p.2)) :=
  (DerivePath_segments toyQuote pathKeyOps []).2.1 [' '] [' ', '\n']
    [(['4', '4'], [Char.ofNat 39]), (['0'], ['h']), (['7'], [])]
    (by decide) (by decide) (by decide)
    (by
      intro p hp
      simp only [List.mem_cons, List.mem_singleton, List.not_mem_nil, or_false] at hp
      rcases hp with rfl | rfl | rfl
      · exact ⟨⟨by decide, by decide⟩, Or.inr (Or.inl rfl), by decide, fun _ => by decide⟩
      · exact ⟨⟨by decide, by decide⟩, Or.inr (Or.inr rfl), by decide, fun _ => by decide⟩
      · exact ⟨⟨by decide, by decide⟩, Or.inl rfl, fun _ => by decide, by decide⟩)
/-! ## Claims about the hardening mark -/

/-- C21, as the code behaves: the addition of 2^31 is done on a `uint32` without a
check. For the path "m/2147483648'" the marked segment is accepted, and the index
passed to `Derive` is 0, which is not hardened; with the mark h likewise, and the
marked segment "4294967295h" gives the index 2147483647. -/
theorem DerivePath_marked_not_hardened :
    DerivePath toyQuote pathKeyOps [] (String.mk ("m/2147483648".data ++ [Char.ofNat 39]))
      = .ok [0] ∧
    DerivePath toyQuote pathKeyOps [] "m/2147483648h" = .ok [0] ∧
    DerivePath toyQuote pathKeyOps [] "m/4294967295h" = .ok [2147483647] ∧
    ¬ (0 : Nat) ≥ 2 ^ 31 ∧ ¬ (2147483647 : Nat) ≥ 2 ^ 31 := by
  refine ⟨by rfl, by rfl, by rfl, by decide, by decide⟩

/-! ## Claims about the Ethereum address generator -/

set_option maxRecDepth 100000 in
theorem hexCharToInt_ldigit :
    ∀ n, n < 16 → hexCharToInt (Fin.ofNat (ldigit n).toNat) = n := by
  decide

set_option maxRecDepth 100000 in
theorem ldigit_lower :
    ∀ n, n < 16 → ((Fin.ofNat (ldigit n).toNat : Byte).val < 128 ∧
      lowerASCII (Fin.ofNat (ldigit n).toNat) = Fin.ofNat (ldigit n).toNat) := by
  decide

theorem EncodeToBytes_cons (b : Byte) (bs : Bytes) :
    EncodeToBytes (b :: bs) =
      (Fin.ofNat (ldigit (b.val / 16)).toNat : Byte) :: (Fin.ofNat (ldigit (b.val % 16)).toNat : Byte)
        :: EncodeToBytes bs := by
  rfl

theorem EncodeToBytes_length (bs : Bytes) : (EncodeToBytes bs).length = 2 * bs.length := by
  induction bs with
  | nil => rfl
  | cons b bs ih =>
    rw [EncodeToBytes_cons, List.length_cons, List.length_cons, ih, List.length_cons]
    omega

theorem EncodeToBytes_lower (bs : Bytes) :
    ∀ c ∈ EncodeToBytes bs, c.val < 128 ∧ lowerASCII c = c := by
  induction bs with
  | nil => intro c hc; cases hc
  | cons b bs ih =>
    intro c hc
    rw [EncodeToBytes_cons, List.mem_cons, List.mem_cons] at hc
    have hb := b.isLt
    rcases hc with rfl | rfl | hc
    · exact ldigit_lower _ (by omega)
    · exact ldigit_lower _ (by omega)
    · exact ih c hc

theorem hexCharToInt_EncodeToBytes (hash : Bytes) :
    ∀ i, i < 2 * hash.length →
      ∃ h, (EncodeToBytes hash).get? i = some h ∧ hexCharToInt h = nibble hash i := by
  induction hash with
  | nil => intro i hi; simp at hi
  | cons b bs ih =>
    intro i hi
    have hb := b.isLt
    rw [EncodeToBytes_cons]
    match i with
    | 0 =>
      exact ⟨_, rfl, by rw [hexCharToInt_ldigit _ (by omega)]; rfl⟩
    | 1 =>
      exact ⟨_, rfl, by rw [hexCharToInt_ldigit _ (by omega)]; rfl⟩
    | j + 2 =>
      rw [List.length_cons] at hi
      obtain ⟨h, h1, h2⟩ := ih j (by omega)
      refine ⟨h, h1, ?_⟩
      rw [h2]
      unfold nibble
      have e1 : (j + 2) / 2 = j / 2 + 1 := by omega
      have e2 : (j + 2) % 2 = j % 2 := by omega
      simp only [e1, e2, List.getD_cons_succ]

theorem checksumCase_cons (hash : Bytes) (i : Nat) (c : Byte) (rest : Bytes) :
    checksumCase hash i (c :: rest) =
      (if nibble hash i ≥ 8 then upperASCII c else c) :: checksumCase hash (i + 1) rest := by
  rfl

theorem checksumLoop_ascii (L : KeccakLib) (hash : Bytes) (a : Bytes) :
    ∀ i, i + a.length ≤ 2 * hash.length → (∀ c ∈ a, c.val < 128) →
      checksumLoop L (EncodeToBytes hash) i a = .ok (checksumCase hash i a) := by
  induction a with
  | nil => intro i _ _; rfl
  | cons c rest ih =>
    intro i hi hc
    rw [List.length_cons] at hi
    obtain ⟨h, h1, h2⟩ := hexCharToInt_EncodeToBytes hash i (by omega)
    have hc0 : c.val < 128 := hc c (List.mem_cons_self _ _)
    rw [checksumLoop, h1]
    simp only [h2, ih (i + 1) (by omega) (fun x hx => hc x (List.mem_cons_of_mem _ hx))]
    unfold ToUpperChar
    rw [if_pos hc0, checksumCase_cons]
    split <;> rfl

theorem checksumCase_length (hash : Bytes) (a : Bytes) :
    ∀ i, (checksumCase hash i a).length = a.length := by
  induction a with
  | nil => intro i; rfl
  | cons c rest ih =>
    intro i
    unfold checksumCase
    rw [List.length_cons, List.length_cons, ih]

theorem checksumCase_get (hash : Bytes) (a : Bytes) :
    ∀ i j, j < a.length →
      (checksumCase hash i a).get? j =
        some (if nibble hash (i + j) ≥ 8 then upperASCII (a.getD j 0) else a.getD j 0) := by
  induction a with
  | nil => intro i j hj; simp at hj
  | cons c rest ih =>
    intro i j hj
    unfold checksumCase
    match j with
    | 0 => rfl
    | k + 1 =>
      rw [List.length_cons] at hj
      rw [List.get?_cons_succ, ih (i + 1) k (by omega), List.getD_cons_succ]
      have e : i + 1 + k = i + (k + 1) := by omega
      rw [e]

set_option maxRecDepth 100000 in
theorem lowerASCII_upperASCII :
    ∀ c : Byte, (upperASCII c).val < 128 ∨ ¬ c.val < 128 := by
  decide

set_option maxRecDepth 100000 in
theorem lowerASCII_upperASCII_lower :
    ∀ c : Byte, lowerASCII (upperASCII (lowerASCII c)) = lowerASCII c ∧
      lowerASCII (lowerASCII c) = lowerASCII c ∧ ((lowerASCII c).val < 128 ∨ ¬ c.val < 128) := by
  decide

theorem checksumCase_lower (hash : Bytes) (a : Bytes) :
    ∀ i, (∀ c ∈ a, c.val < 128) →
      (∀ c ∈ checksumCase hash i (a.map lowerASCII), c.val < 128) ∧
      (checksumCase hash i (a.map lowerASCII)).map lowerASCII = a.map lowerASCII := by
  induction a with
  | nil =>
    intro i _
    exact ⟨fun c hc => (by cases hc), rfl⟩
  | cons c rest ih =>
    intro i hc
    have hc0 : c.val < 128 := hc c (List.mem_cons_self _ _)
    obtain ⟨h1, h2⟩ := ih (i + 1) (fun x hx => hc x (List.mem_cons_of_mem _ hx))
    obtain ⟨e1, e2, e3⟩ := lowerASCII_upperASCII_lower c
    have hl : (lowerASCII c).val < 128 := by
      rcases e3 with h | h
      · exact h
      · exact absurd hc0 h
    rw [List.map_cons, checksumCase_cons]
    constructor
    · intro x hx
      rw [List.mem_cons] at hx
      rcases hx with rfl | hx
      · split
        · rcases lowerASCII_upperASCII (lowerASCII c) with h | h
          · exact h
          · exact absurd hl h
        · exact hl
      · exact h1 x hx
    · rw [List.map_cons, h2]
      congr 1
      split
      · exact e1
      · exact e2

theorem toChecksumAddress_ascii (L : KeccakLib) (hk : KeccakContract L) (a : Bytes)
    (hlen : a.length ≤ 64) (hascii : ∀ c ∈ a, c.val < 128) :
    toChecksumAddress L a
      = .ok (checksumCase (L.Keccak256 (a.map lowerASCII)) 0 (a.map lowerASCII)) := by
  have hall : a.all (fun c => decide (c.val < 128)) = true := by
    rw [List.all_eq_true]
    intro c hc
    exact decide_eq_true (hascii c hc)
  have hlow : ∀ c ∈ a.map lowerASCII, c.val < 128 := by
    intro c hc
    rw [List.mem_map] at hc
    obtain ⟨x, hx, rfl⟩ := hc
    rcases (lowerASCII_upperASCII_lower x).2.2 with h | h
    · exact h
    · exact absurd (hascii x hx) h
  unfold toChecksumAddress ToLower keccak256
  simp only [hall, if_true]
  apply checksumLoop_ascii
  · rw [List.length_map, hk]
    omega
  · exact hlow

theorem toyKeccakLib_contract : KeccakContract toyKeccakLib := by
  intro data
  simp [toyKeccakLib, toyKeccak]

/-- C22. For a Keccak-256 that returns 32 bytes and every 65 byte uncompressed
public key 0x04 ‖ P, `PubKeyToAddress` returns (without error or panic) "0x" followed
by 40 characters: with h the 40 lower case hex characters of the last 20 bytes of
keccak256(P), the character at position j is the upper case of h[j] when the j-th
hex nibble of keccak256(h) is 8 or more, and h[j] itself otherwise. -/
theorem PubKeyToAddress_checksum (L : KeccakLib) (hk : KeccakContract L) (P : Bytes)
    (hP : P.length = 64) :
    ((L.Keccak256 P).drop 12).length = 20 ∧
    (EncodeToBytes ((L.Keccak256 P).drop 12)).length = 40 ∧
    (∀ c ∈ EncodeToBytes ((L.Keccak256 P).drop 12), lowerASCII c = c) ∧
    ∃ cs : Bytes, PubKeyToAddress L ((4 : Byte) :: P) = .ok ([48, 120] ++ cs) ∧
      cs.length = 40 ∧
      ∀ j, j < 40 →
        cs.get? j = some
          (if nibble (L.Keccak256 (EncodeToBytes ((L.Keccak256 P).drop 12))) j ≥ 8
           then upperASCII ((EncodeToBytes ((L.Keccak256 P).drop 12)).getD j 0)
           else (EncodeToBytes ((L.Keccak256 P).drop 12)).getD j 0) := by
  have h20 : ((L.Keccak256 P).drop 12).length = 20 := by
    rw [List.length_drop, hk]
  have h40 : (EncodeToBytes ((L.Keccak256 P).drop 12)).length = 40 := by
    rw [EncodeToBytes_length, h20]
  have hlow := EncodeToBytes_lower ((L.Keccak256 P).drop 12)
  have hmap : (EncodeToBytes ((L.Keccak256 P).drop 12)).map lowerASCII
      = EncodeToBytes ((L.Keccak256 P).drop 12) := by
    conv_rhs => rw [← List.map_id (EncodeToBytes ((L.Keccak256 P).drop 12))]
    apply List.map_congr_left
    intro c hc
    exact (hlow c hc).2
  refine ⟨h20, h40, fun c hc => (hlow c hc).2,
    checksumCase (L.Keccak256 (EncodeToBytes ((L.Keccak256 P).drop 12))) 0
      (EncodeToBytes ((L.Keccak256 P).drop 12)), ?_, ?_, ?_⟩
  · unfold PubKeyToAddress keccak256
    have hcond : ((4 : Byte) :: P).length = 65 ∧ ((4 : Byte) :: P).head? = some 4 := by
      rw [List.length_cons, hP]
      exact ⟨rfl, rfl⟩
    simp only [hcond, and_self, if_true, List.drop_succ_cons, List.drop_zero]
    rw [if_neg (by rw [hk]; decide)]
    rw [toChecksumAddress_ascii L hk _ (by rw [h40]; decide) (fun c hc => (hlow c hc).1), hmap]
  · rw [checksumCase_length, h40]
  · intro j hj
    rw [checksumCase_get _ _ 0 j (by rw [h40]; exact hj), Nat.zero_add]

theorem PubKeyToAddress_checksum_witness :
    ∃ cs : Bytes,
      PubKeyToAddress toyKeccakLib ((4 : Byte) :: List.replicate 64 1) = .ok ([48, 120] ++ cs) ∧
      cs.length = 40 ∧
      ∀ j, j < 40 →
        cs.get? j = some
          (if nibble (toyKeccakLib.Keccak256 (EncodeToBytes
                ((toyKeccakLib.Keccak256 (List.replicate 64 1)).drop 12))) j ≥ 8
           then upperASCII ((EncodeToBytes
                ((toyKeccakLib.Keccak256 (List.replicate 64 1)).drop 12)).getD j 0)
           else (EncodeToBytes
                ((toyKeccakLib.Keccak256 (List.replicate 64 1)).drop 12)).getD j 0) :=
  (PubKeyToAddress_checksum toyKeccakLib toyKeccakLib_contract (List.replicate 64 1)
    (by decide)).2.2.2

/-- C23. For a Keccak-256 that returns 32 bytes and every 40 character hex string a:
`toChecksumAddress` returns a string c with toChecksumAddress(c) = c, and it returns
the same c for every 40 character hex string that differs from a only in letter
case. -/
theorem toChecksumAddress_idempotent (L : KeccakLib) (hk : KeccakContract L) (a a2 : Bytes)
    (ha : a.length = 40) (hhex : ∀ c ∈ a, IsHexDigit c)
    (ha2 : a2.length = 40) (hhex2 : ∀ c ∈ a2, IsHexDigit c)
    (hcase : a2.map lowerASCII = a.map lowerASCII) :
    ∃ c : Bytes, toChecksumAddress L a = .ok c ∧ toChecksumAddress L c = .ok c ∧
      toChecksumAddress L a2 = .ok c ∧ c.length = 40 := by
  have hascii : ∀ c ∈ a, c.val < 128 := by
    intro c hc
    have := hhex c hc
    unfold IsHexDigit at this
    omega
  have hascii2 : ∀ c ∈ a2, c.val < 128 := by
    intro c hc
    have := hhex2 c hc
    unfold IsHexDigit at this
    omega
  obtain ⟨hc1, hc2⟩ := checksumCase_lower (L.Keccak256 (a.map lowerASCII)) a 0 hascii
  have hclen : (checksumCase (L.Keccak256 (a.map lowerASCII)) 0 (a.map lowerASCII)).length = 40 := by
    rw [checksumCase_length, List.length_map, ha]
  refine ⟨_, toChecksumAddress_ascii L hk a (by omega) hascii, ?_, ?_, hclen⟩
  · rw [toChecksumAddress_ascii L hk _ (by rw [hclen]; decide) hc1, hc2]
  · rw [toChecksumAddress_ascii L hk a2 (by omega) hascii2, hcase]

theorem toChecksumAddress_idempotent_witness :
    ∃ c : Bytes,
      toChecksumAddress toyKeccakLib (List.replicate 40 97) = .ok c ∧
      toChecksumAddress toyKeccakLib c = .ok c ∧
      toChecksumAddress toyKeccakLib (List.replicate 40 65) = .ok c ∧ c.length = 40 :=
  toChecksumAddress_idempotent toyKeccakLib toyKeccakLib_contract (List.replicate 40 97)
    (List.replicate 40 65) (by decide)
    (fun c hc => by rw [List.eq_of_mem_replicate hc]; exact Or.inr (Or.inl (by decide)))
    (by decide)
    (fun c hc => by rw [List.eq_of_mem_replicate hc]; exact Or.inr (Or.inr (by decide)))
    (by decide)
/-! ## Claims about the command line -/

/-- C24, as the code behaves: `init` calls `GenerateMnemonic(12)`, and the argument
is the number of bits of entropy, not the number of words. For every go-bip39 that
refuses a bit size outside 128 to 256, `GenerateMnemonic(12)` returns an error and
`init`, with two equal passwords of 6 or more bytes and no file in the way, ends
with `os.Exit(1)` at the generation of the mnemonic: nothing is encrypted or
written. -/
theorem initCmd_fails_at_mnemonic (B : Bip39Lib) (C : CryptoLib) (env : InitEnv)
    (password : Bytes) (hB : Bip39Contract B) (hfile : env.fileExists = false)
    (hp : env.password = .ok password) (hc : env.confirmPassword = .ok password)
    (hlen : 6 ≤ password.length) :
    GenerateMnemonic B env.tape 12
      = .error (.fmtErrorf "生成熵失败: "
          (.errorsNew "Entropy length must be [128, 256] and a multiple of 32")) ∧
    initCmd B C env
      = .exit "生成助记词失败: " (some (.fmtErrorf "生成熵失败: "
          (.errorsNew "Entropy length must be [128, 256] and a multiple of 32"))) := by
  have hgen : GenerateMnemonic B env.tape 12
      = .error (.fmtErrorf "生成熵失败: "
          (.errorsNew "Entropy length must be [128, 256] and a multiple of 32")) := by
    unfold GenerateMnemonic
    rw [hB 12 env.tape (Or.inl (by decide))]
  refine ⟨hgen, ?_⟩
  unfold initCmd
  rw [hfile, hp, hc]
  simp only [Bool.false_eq_true, if_false, ne_eq, not_true_eq_false]
  rw [if_neg (by omega), hgen]

theorem initCmd_fails_at_mnemonic_witness :
    initCmd toyBip39 toyLib toyInitEnv
      = .exit "生成助记词失败: " (some (.fmtErrorf "生成熵失败: "
          (.errorsNew "Entropy length must be [128, 256] and a multiple of 32"))) :=
  (initCmd_fails_at_mnemonic toyBip39 toyLib toyInitEnv [115, 101, 99, 114, 101, 116]
    (fun bitSize tape h => by
      show (if bitSize % 32 ≠ 0 ∨ bitSize < 128 ∨ bitSize > 256 then _ else _) = _
      rw [if_pos h])
    rfl rfl rfl (by decide)).2
/-! ## Claims about the secret sharing helper -/

set_option maxRecDepth 100000 in
theorem fromHexChar_ldigit :
    ∀ n, n < 16 → fromHexChar (Fin.ofNat (ldigit n).toNat) = some n ∧
      (Fin.ofNat (ldigit n).toNat : Byte) ≠ 120 := by
  decide

theorem DecodeString_EncodeToBytes (b : Bytes) : DecodeString (EncodeToBytes b) = .ok b := by
  induction b with
  | nil => rfl
  | cons x xs ih =>
    have hx := x.isLt
    rw [EncodeToBytes_cons, DecodeString]
    simp only [(fromHexChar_ldigit (x.val / 16) (by omega)).1,
      (fromHexChar_ldigit (x.val % 16) (by omega)).1, ih, byte_join]

theorem TrimPrefix0x_EncodeToBytes (b : Bytes) :
    TrimPrefix0x (EncodeToBytes b) = EncodeToBytes b := by
  cases b with
  | nil => rfl
  | cons x xs =>
    have hx := x.isLt
    rw [EncodeToBytes_cons]
    unfold TrimPrefix0x
    split
    · rename_i rest heq
      simp only [List.cons.injEq] at heq
      exact absurd heq.2.1 (fromHexChar_ldigit (x.val % 16) (by omega)).2
    · rfl

theorem decodeShares_encoded (ys : List Bytes) :
    decodeShares (ys.map EncodeToBytes) = .ok ys := by
  induction ys with
  | nil => rfl
  | cons y ys ih =>
    rw [List.map_cons, decodeShares, TrimPrefix0x_EncodeToBytes, DecodeString_EncodeToBytes]
    simp only [ih]

theorem EncodeToBytes_injective : Function.Injective EncodeToBytes := by
  intro a b h
  have ha := DecodeString_EncodeToBytes a
  rw [h, DecodeString_EncodeToBytes] at ha
  injection ha with ha
  exact ha.symm

set_option maxRecDepth 100000 in
theorem EncodeToBytes_fromHexChar :
    ∀ p : Byte, ∀ a, a < 16 → fromHexChar p = some a →
      (Fin.ofNat (ldigit a).toNat : Byte) = lowerASCII p := by
  decide

theorem fromHexChar_lt {p : Byte} {a : Nat} (h : fromHexChar p = some a) : a < 16 := by
  unfold fromHexChar at h
  split at h
  · injection h with h; omega
  · split at h
    · injection h with h; omega
    · split at h
      · injection h with h; omega
      · cases h

theorem EncodeToBytes_DecodeString :
    ∀ (s b : Bytes), DecodeString s = .ok b → EncodeToBytes b = s.map lowerASCII
  | [], b, h => by
    rw [DecodeString] at h
    injection h with h
    rw [← h]
    rfl
  | [p], b, h => by
    rw [DecodeString] at h
    split at h <;> cases h
  | p :: q :: rest, b, h => by
    rw [DecodeString] at h
    cases hp : fromHexChar p with
    | none => rw [hp] at h; cases h
    | some a =>
      cases hq : fromHexChar q with
      | none => rw [hp, hq] at h; cases h
      | some c =>
        cases hr : DecodeString rest with
        | error e => rw [hp, hq, hr] at h; cases h
        | ok bytes =>
          rw [hp, hq, hr] at h
          injection h with h
          have ha := fromHexChar_lt hp
          have hc := fromHexChar_lt hq
          have ih := EncodeToBytes_DecodeString rest bytes hr
          rw [← h, EncodeToBytes_cons, ih, List.map_cons, List.map_cons]
          have e1 : (Fin.ofNat (a * 16 + c) : Byte).val / 16 = a := by
            simp only [Fin.ofNat, Fin.val_mk]
            omega
          have e2 : (Fin.ofNat (a * 16 + c) : Byte).val % 16 = c := by
            simp only [Fin.ofNat, Fin.val_mk]
            omega
          rw [e1, e2, EncodeToBytes_fromHexChar p a ha hp, EncodeToBytes_fromHexChar q c hc hq]

theorem exists_preimage_of_mem_map (sharesBytes : List Bytes) :
    ∀ sel : List Bytes, (∀ x ∈ sel, x ∈ sharesBytes.map EncodeToBytes) →
      ∃ selB : List Bytes, sel = selB.map EncodeToBytes ∧ ∀ y ∈ selB, y ∈ sharesBytes := by
  intro sel
  induction sel with
  | nil => intro _; exact ⟨[], rfl, fun y hy => (by cases hy)⟩
  | cons x xs ih =>
    intro h
    obtain ⟨selB, h1, h2⟩ := ih (fun z hz => h z (List.mem_cons_of_mem _ hz))
    have hx := h x (List.mem_cons_self _ _)
    rw [List.mem_map] at hx
    obtain ⟨y, hy, hyx⟩ := hx
    refine ⟨y :: selB, by rw [List.map_cons, hyx, h1], ?_⟩
    intro z hz
    rw [List.mem_cons] at hz
    rcases hz with rfl | hz
    · exact hy
    · exact h2 z hz

theorem toyShamir_contract : ShamirContract toyShamir where
  split_threshold := by
    intro tape secret parts threshold ht
    show ∃ e, (if parts < threshold then _ else _) = Except.error e
    by_cases h1 : parts < threshold
    · rw [if_pos h1]; exact ⟨_, rfl⟩
    · rw [if_neg h1]
      by_cases h2 : parts > 255
      · rw [if_pos h2]; exact ⟨_, rfl⟩
      · rw [if_neg h2, if_pos ht]; exact ⟨_, rfl⟩
  split_ok := by
    intro tape secret parts threshold hs h2 hle h255
    have hlen : ¬ secret.length = 0 := by
      intro h
      exact hs (List.length_eq_zero.mp h)
    refine ⟨(List.range parts.toNat).map (fun i => secret ++ [(Fin.ofNat (i + 1) : Byte)]),
      ?_, ?_, ?_, ?_⟩
    · show (if parts < threshold then _ else _) = _
      rw [if_neg (by omega), if_neg (by omega), if_neg (by omega), if_neg (by omega),
        if_neg hlen]
    · rw [List.length_map, List.length_range]
      omega
    · apply List.Nodup.map_on _ (List.nodup_range _)
      intro i hi j hj hij
      rw [List.mem_range] at hi hj
      have h3 := List.append_cancel_left hij
      simp only [List.cons.injEq, and_true] at h3
      have h4 := congrArg Fin.val h3
      simp only [Fin.ofNat, Fin.val_mk] at h4
      omega
    · intro sel _ hmem hsel
      cases sel with
      | nil =>
        simp only [List.length_nil, Nat.cast_zero] at hsel
        omega
      | cons first rest =>
        cases rest with
        | nil =>
          simp only [List.length_cons, List.length_nil] at hsel
          omega
        | cons second rest =>
          have hf := hmem first (List.mem_cons_self _ _)
          rw [List.mem_map] at hf
          obtain ⟨i, _, hi⟩ := hf
          subst hi
          have hl1 : ¬ ((secret ++ [(Fin.ofNat (i + 1) : Byte)]) :: second :: rest).length < 2 := by
            simp
          have hl2 : ¬ (secret ++ [(Fin.ofNat (i + 1) : Byte)]).length < 2 := by
            rw [List.length_append, List.length_singleton]
            omega
          simp only [toyShamir, hl1, hl2, if_false, List.dropLast_concat]
  combine_few := by
    intro parts h
    show ∃ e, (if parts.length < 2 then _ else _) = Except.error e
    rw [if_pos h]
    exact ⟨_, rfl⟩

/-- C25, the part that fails: the Shamir library refuses a threshold of 1, so
`mpc.Split` with n = t = 1 returns an error for every library that meets its
contract; and `mpc.Recover` returns the lower case hex of the secret without prefix:
for the secret "0xAB" split in 3 with threshold 2, two shares recover "ab". -/
theorem mpc_Split_not_for_all_inputs :
    (∀ S : ShamirLib, ShamirContract S → ∀ tape : Bytes,
      ∃ e, mpc.Split S tape [97, 98] 1 1 = .error e) ∧
    mpc.Split toyShamir [] [97, 98] 1 1 = .error (.lib "threshold must be at least 2") ∧
    mpc.Split toyShamir [] [48, 120, 65, 66] 3 2
      = .ok [[97, 98, 48, 49], [97, 98, 48, 50], [97, 98, 48, 51]] ∧
    mpc.Recover toyShamir [[97, 98, 48, 49], [97, 98, 48, 50]] = .ok [97, 98] ∧
    ([97, 98] : Bytes) ≠ [48, 120, 65, 66] := by
  refine ⟨?_, by rfl, by rfl, by rfl, by decide⟩
  intro S hS tape
  obtain ⟨e, he⟩ := hS.split_threshold tape [171] 1 1 (by decide)
  refine ⟨e, ?_⟩
  have hd : DecodeString (TrimPrefix0x [97, 98]) = .ok [171] := by rfl
  unfold mpc.Split
  simp only [hd, he]

/-- C25, amended. For a Shamir library that meets its contract, every secret given
as hex (with or without the prefix 0x) that decodes to at least one byte, and all n,
t with 2 ≤ t ≤ n ≤ 255: `mpc.Split` succeeds with n shares; `mpc.Recover` applied to
any t or more different ones of those shares, in any order, returns the secret as
lower case hex without prefix (which is the text of the secret after the prefix,
in lower case); and `mpc.Recover` applied to a single share returns an error. -/
theorem mpc_Recover_Split (S : ShamirLib) (hS : ShamirContract S) (tape secretHex b : Bytes)
    (n t : Int) (hdec : DecodeString (TrimPrefix0x secretHex) = .ok b) (hb : b ≠ [])
    (ht : 2 ≤ t) (htn : t ≤ n) (hn : n ≤ 255) :
    ∃ shares : List Bytes, mpc.Split S tape secretHex n t = .ok shares ∧
      (shares.length : Int) = n ∧
      (∀ sel : List Bytes, sel.Nodup → (∀ x ∈ sel, x ∈ shares) → t ≤ (sel.length : Int) →
        mpc.Recover S sel = .ok (EncodeToBytes b)) ∧
      EncodeToBytes b = (TrimPrefix0x secretHex).map lowerASCII ∧
      (∀ x : Bytes, ∃ e, mpc.Recover S [x] = .error e) := by
  obtain ⟨sharesBytes, hsplit, hlen, _, hcomb⟩ := hS.split_ok tape b n t hb ht htn hn
  refine ⟨sharesBytes.map EncodeToBytes, ?_, ?_, ?_, ?_, ?_⟩
  · unfold mpc.Split
    simp only [hdec, hsplit]
  · rw [List.length_map]
    exact hlen
  · intro sel hnd hmem hsel
    obtain ⟨selB, h1, h2⟩ := exists_preimage_of_mem_map sharesBytes sel hmem
    subst h1
    have hndB : selB.Nodup := List.Nodup.of_map _ hnd
    rw [List.length_map] at hsel
    unfold mpc.Recover
    simp only [decodeShares_encoded, hcomb selB hndB h2 hsel]
  · exact EncodeToBytes_DecodeString _ _ hdec
  · intro x
    unfold mpc.Recover
    cases hd : decodeShares [x] with
    | error e => exact ⟨e, rfl⟩
    | ok bs =>
      have hbs : bs.length < 2 := by
        unfold decodeShares at hd
        split at hd
        · cases hd
        · rename_i y hy
          simp only [decodeShares] at hd
          injection hd with hd
          rw [← hd]
          exact Nat.lt_succ_self 1
      obtain ⟨e, he⟩ := hS.combine_few bs hbs
      exact ⟨e, by simp only [he]⟩

theorem mpc_Recover_Split_witness :
    ∃ shares : List Bytes, mpc.Split toyShamir [] [48, 120, 65, 66] 3 2 = .ok shares ∧
      (shares.length : Int) = 3 ∧
      (∀ sel : List Bytes, sel.Nodup → (∀ x ∈ sel, x ∈ shares) → (2 : Int) ≤ (sel.length : Int) →
        mpc.Recover toyShamir sel = .ok (EncodeToBytes [171])) ∧
      EncodeToBytes [171] = (TrimPrefix0x [48, 120, 65, 66]).map lowerASCII ∧
      (∀ x : Bytes, ∃ e, mpc.Recover toyShamir [x] = .error e) :=
  mpc_Recover_Split toyShamir toyShamir_contract [] [48, 120, 65, 66] [171] 3 2 (by rfl)
    (by decide) (by decide) (by decide) (by decide)
/-! ## Claims about the keys of the address service and of the sweeper -/

theorem GetDepositAddress_new {K : Type} {L : AddressLib} {ops : KeyOps K}
    {s : SQLAddressService K} {db db1 : DB} {redis redis1 : Redis} {uid : Nat}
    {index : Int} {chainKey childKey : K} {ecPubKey : Bytes} {addressStr : String}
    (hnone : db.addresses.find? (fun a => a.UserID = uid ∧ a.Chain = "ETH") = none)
    (hincr : Incr redis ("wallet:hd_index:" ++ "ETH") = .ok (redis1, index))
    (hd1 : ops.Derive s.masterKey 0 = .ok chainKey)
    (hd2 : ops.Derive chainKey (index % 2 ^ 32).toNat = .ok childKey)
    (hpk : ops.ECPubKey childKey = .ok ecPubKey)
    (hgen : s.ethGen (L.SerializeUncompressed ecPubKey) = .ok addressStr)
    (hcreate : CreateAddress db ⟨0, uid, "ETH", addressStr, index⟩ = .ok db1) :
    GetDepositAddress L ops s db redis uid "ETH" = (db1, redis1, .ok (addressStr, index)) := by
  unfold GetDepositAddress
  rw [hnone]
  simp only [hincr, hd1, hd2, hpk]
  simp only [if_true, hgen]
  rw [if_neg (by decide)]
  simp only [hcreate]

theorem mod_nsmul_of_order {P : Type} [AddCommGroup P] {H : HDLib P} (hG : CurveOrder H)
    (a : Nat) : (a % H.n) • H.G = a • H.G := by
  conv_rhs => rw [← Nat.div_add_mod a H.n]
  rw [add_nsmul, mul_nsmul, hG.1, nsmul_zero, zero_add]

/-- For an index that is not hardened, the public derivation from the neutered key
fails exactly when the private derivation fails, and else gives the neutered
child. -/
theorem hdkeychain_Derive_Neuter {P : Type} [AddCommGroup P] [DecidableEq P] {H : HDLib P}
    (hG : CurveOrder H) (k : Nat) (c : Bytes) {i : Nat} (hi : i < 2 ^ 31) :
    (∀ e, hdkeychain.Derive H (.xprv k c) i = .error e →
      hdkeychain.Derive H (.xpub (k • H.G) c) i = .error e) ∧
    (∀ child, hdkeychain.Derive H (.xprv k c) i = .ok child →
      ∃ k2 c2, child = .xprv k2 c2 ∧
        hdkeychain.Derive H (.xpub (k • H.G) c) i = .ok (.xpub (k2 • H.G) c2)) := by
  have hnh : ¬ i ≥ 2 ^ 31 := by omega
  have hsum : ∀ a : Nat, a • H.G + k • H.G = ((a + k) % H.n) • H.G := by
    intro a
    rw [mod_nsmul_of_order hG, add_nsmul]
  have hzero : ∀ a : Nat, a < H.n → ((a + k) % H.n = 0 ↔ a • H.G + k • H.G = 0) := by
    intro a ha
    rw [hsum]
    constructor
    · intro h
      rw [h, zero_nsmul]
    · intro h
      by_contra hne
      exact hG.2 _ (Nat.mod_lt _ (by omega)) (Nat.pos_of_ne_zero hne) h
  unfold hdkeychain.Derive
  simp only [if_neg hnh]
  by_cases hIL : parse256 ((H.HMACSHA512 c (H.serP (k • H.G) ++ ser32 i)).take 32) ≥ H.n
  · rw [if_pos (Or.inl hIL), if_pos (Or.inl hIL)]
    refine ⟨fun e h => h, fun child h => ?_⟩
    cases h
  · have hlt : parse256 ((H.HMACSHA512 c (H.serP (k • H.G) ++ ser32 i)).take 32) < H.n := by
      omega
    by_cases hk : (parse256 ((H.HMACSHA512 c (H.serP (k • H.G) ++ ser32 i)).take 32) + k)
        % H.n = 0
    · rw [if_pos (Or.inr hk), if_pos (Or.inr ((hzero _ hlt).mp hk))]
      refine ⟨fun e h => h, fun child h => ?_⟩
      cases h
    · have hk2 := mt (hzero _ hlt).mpr hk
      rw [if_neg (by rintro (h | h); exact hIL h; exact hk h),
        if_neg (by rintro (h | h); exact hIL h; exact hk2 h)]
      refine ⟨fun e h => (by cases h), fun child h => ?_⟩
      refine ⟨_, _, (Except.ok.inj h).symm, ?_⟩
      rw [hsum]

theorem BTCKeychain_Derive_Neuter {P : Type} [AddCommGroup P] [DecidableEq P] {H : HDLib P}
    (hG : CurveOrder H) (k : Nat) (c : Bytes) {i : Nat} (hi : i < 2 ^ 31) :
    (∀ e, (BTCKeychain H).Derive (.xprv k c) i = .error e →
      (BTCKeychain H).Derive (.xpub (k • H.G) c) i = .error e) ∧
    (∀ child, (BTCKeychain H).Derive (.xprv k c) i = .ok child →
      ∃ k2 c2, child = .xprv k2 c2 ∧
        (BTCKeychain H).Derive (.xpub (k • H.G) c) i = .ok (.xpub (k2 • H.G) c2)) := by
  obtain ⟨herr, hok⟩ := hdkeychain_Derive_Neuter hG k c hi
  simp only [BTCKeychain]
  cases hd : hdkeychain.Derive H (.xprv k c) i with
  | error e0 =>
    rw [herr e0 hd]
    exact ⟨fun e h => h, fun child h => (by cases h)⟩
  | ok child0 =>
    obtain ⟨k2, c2, hchild, hpub⟩ := hok child0 hd
    rw [hpub]
    refine ⟨fun e h => (by cases h), fun child h => ?_⟩
    exact ⟨k2, c2, by rw [← Except.ok.inj h, hchild], rfl⟩

/-- The derivation m/0/i from the neutered master key succeeds exactly when the one
from the master private key does. -/
theorem BTCKeychain_path_Neuter {P : Type} [AddCommGroup P] [DecidableEq P] {H : HDLib P}
    (hG : CurveOrder H) (k : Nat) (c : Bytes) {i : Nat} (hi : i < 2 ^ 31) :
    (∀ c0 ci, (BTCKeychain H).Derive (.xprv k c) 0 = .ok c0 →
      (BTCKeychain H).Derive c0 i = .ok ci →
      ∃ k0 cc0 ki cci, c0 = .xprv k0 cc0 ∧ ci = .xprv ki cci ∧
        (BTCKeychain H).Derive (.xpub (k • H.G) c) 0 = .ok (.xpub (k0 • H.G) cc0) ∧
        (BTCKeychain H).Derive (.xpub (k0 • H.G) cc0) i = .ok (.xpub (ki • H.G) cci)) ∧
    (∀ n0 ni, (BTCKeychain H).Derive (.xpub (k • H.G) c) 0 = .ok n0 →
      (BTCKeychain H).Derive n0 i = .ok ni →
      ∃ c0 ci, (BTCKeychain H).Derive (.xprv k c) 0 = .ok c0 ∧
        (BTCKeychain H).Derive c0 i = .ok ci) := by
  obtain ⟨herr0, hok0⟩ := BTCKeychain_Derive_Neuter hG k c (show 0 < 2 ^ 31 by decide)
  constructor
  · intro c0 ci h0 h1
    obtain ⟨k0, cc0, hc0, hp0⟩ := hok0 c0 h0
    subst hc0
    obtain ⟨ki, cci, hci, hpi⟩ := (BTCKeychain_Derive_Neuter hG k0 cc0 hi).2 ci h1
    exact ⟨k0, cc0, ki, cci, rfl, hci, hp0, hpi⟩
  · intro n0 ni h0 h1
    cases hd0 : (BTCKeychain H).Derive (.xprv k c) 0 with
    | error e =>
      rw [herr0 e hd0] at h0
      cases h0
    | ok c0 =>
      obtain ⟨k0, cc0, hc0, hp0⟩ := hok0 c0 hd0
      subst hc0
      rw [hp0] at h0
      cases h0
      cases hd1 : (BTCKeychain H).Derive (.xprv k0 cc0) i with
      | error e =>
        rw [(BTCKeychain_Derive_Neuter hG k0 cc0 hi).1 e hd1] at h1
        cases h1
      | ok ci => exact ⟨_, ci, rfl, hd1⟩

/-- C26. With the extended keys of BIP-32 over a curve whose base point G has order
n, for every master private key xprv = (k, c) and every index i < 2^31: `Neuter`
gives the public key xpub = (k·G, c), which is not private; the derivation m/0/i of
the address service from xpub succeeds exactly when the derivation m/0/i of the
sweeper from xprv does; and when the sweeper obtains the private key k_i, the
address service obtains the public key k_i·G, which is the public key of k_i. So the
address that `GetDepositAddress` (holding xpub) issues for the path index i is
generated from the public key of the private key with which `sweepETH` (holding
xprv) signs the transaction for an address row with path index i. -/
theorem deposit_key_is_sweeper_key {P : Type} [AddCommGroup P] [DecidableEq P]
    (H : HDLib P) (hG : CurveOrder H) (k : Nat) (c : Bytes) (i : Nat) (hi : i < 2 ^ 31) :
    (BTCKeychain H).Neuter (.xprv k c) = .ok (.xpub (k • H.G) c) ∧
    (BTCKeychain H).IsPrivate (.xpub (k • H.G) c) = false ∧
    ((∃ n0 ni, (BTCKeychain H).Derive (.xpub (k • H.G) c) 0 = .ok n0 ∧
        (BTCKeychain H).Derive n0 i = .ok ni) ↔
      (∃ c0 ci, (BTCKeychain H).Derive (.xprv k c) 0 = .ok c0 ∧
        (BTCKeychain H).Derive c0 i = .ok ci)) ∧
    (∀ c0 ci, (BTCKeychain H).Derive (.xprv k c) 0 = .ok c0 →
      (BTCKeychain H).Derive c0 i = .ok ci →
      ∃ n0 ni ki, (BTCKeychain H).Derive (.xpub (k • H.G) c) 0 = .ok n0 ∧
        (BTCKeychain H).Derive n0 i = .ok ni ∧
        (BTCKeychain H).ECPrivKey ci = .ok (ser256 ki) ∧
        (BTCKeychain H).ECPubKey ci = .ok (H.serP (ki • H.G)) ∧
        (BTCKeychain H).ECPubKey ni = .ok (H.serP (ki • H.G)) ∧
        (∀ (L : AddressLib) (s : SQLAddressService (hdkeychain.ExtendedKey P)) (db db1 : DB)
            (redis redis1 : Redis) (uid : Nat) (addressStr : String),
          s.masterKey = .xpub (k • H.G) c →
          db.addresses.find? (fun a => a.UserID = uid ∧ a.Chain = "ETH") = none →
          Incr redis ("wallet:hd_index:" ++ "ETH") = .ok (redis1, (i : Int)) →
          s.ethGen (L.SerializeUncompressed (H.serP (ki • H.G))) = .ok addressStr →
          CreateAddress db ⟨0, uid, "ETH", addressStr, (i : Int)⟩ = .ok db1 →
          GetDepositAddress L (BTCKeychain H) s db redis uid "ETH"
            = (db1, redis1, .ok (addressStr, (i : Int)))) ∧
        (∀ (C : ChainLib) (s : SweeperService (hdkeychain.ExtendedKey P)) (st : World)
            (event : DepositEvent) (addr : Address) (balance gasPrice : Int) (nonce : Nat)
            (sig : Bytes),
          s.masterKey = .xprv k c →
          depositAddress st.db event = some addr → addr.HDPathIndex = (i : Int) →
          chainState C s addr event = .ok (balance, nonce, gasPrice) →
          21000 * gasPrice < balance →
          C.SignTx (sweepTransaction s nonce balance gasPrice) s.chainID (ser256 ki) = .ok sig →
          sweepETH C (BTCKeychain H) s st event =
            sweepRecord C s st addr
              { tx := sweepTransaction s nonce balance gasPrice, sig := sig }
              balance gasPrice)) := by
  have hidx : (((i : Int)) % 2 ^ 32).toNat = i := by
    have h1 : ((i : Int)) % 2 ^ 32 = (i : Int) := Int.emod_eq_of_lt (by omega) (by omega)
    rw [h1]
    exact Int.toNat_ofNat i
  obtain ⟨hpriv, hpub⟩ := BTCKeychain_path_Neuter hG k c hi
  refine ⟨rfl, rfl, ⟨?_, ?_⟩, ?_⟩
  · rintro ⟨n0, ni, h0, h1⟩
    exact hpub n0 ni h0 h1
  · rintro ⟨c0, ci, h0, h1⟩
    obtain ⟨k0, cc0, ki, cci, -, -, hp0, hpi⟩ := hpriv c0 ci h0 h1
    exact ⟨_, _, hp0, hpi⟩
  · intro c0 ci hk1 hk2
    obtain ⟨k0, cc0, ki, cci, hc0, hci, hp0, hpi⟩ := hpriv c0 ci hk1 hk2
    subst hc0 hci
    refine ⟨_, _, ki, hp0, hpi, rfl, rfl, rfl, ?_, ?_⟩
    · intro L s db db1 redis redis1 uid addressStr hs hnone hincr hgen hcreate
      have hd1 : (BTCKeychain H).Derive s.masterKey 0 = .ok (.xpub (k0 • H.G) cc0) := by
        rw [hs]; exact hp0
      have hd2 : (BTCKeychain H).Derive (.xpub (k0 • H.G) cc0) (((i : Int)) % 2 ^ 32).toNat
          = .ok (.xpub (ki • H.G) cci) := by
        rw [hidx]; exact hpi
      exact GetDepositAddress_new hnone hincr hd1 hd2 rfl hgen hcreate
    · intro C s st event addr balance gasPrice nonce sig hs haddr hindex hchain hgt hsign
      have hd1 : (BTCKeychain H).Derive s.masterKey 0 = .ok (.xprv k0 cc0) := by
        rw [hs]; exact hk1
      have hd2 : (BTCKeychain H).Derive (.xprv k0 cc0) (addr.HDPathIndex % 2 ^ 32).toNat
          = .ok (.xprv ki cci) := by
        rw [hindex, hidx]; exact hk2
      exact sweepETH_signed haddr hd1 hd2 rfl hchain hgt hsign

theorem toyHD_order : CurveOrder toyHD := by
  unfold CurveOrder
  decide

theorem deposit_key_is_sweeper_key_witness :
    (BTCKeychain toyHD).Derive (.xprv 5 [7]) 0 = .ok (.xprv 9 (List.replicate 32 7)) ∧
    (BTCKeychain toyHD).Derive (.xprv 9 (List.replicate 32 7)) 3
      = .ok (.xprv 4 (List.replicate 32 14)) ∧
    ∃ n0 ni ki, (BTCKeychain toyHD).Derive (.xpub (5 • toyHD.G) [7]) 0 = .ok n0 ∧
      (BTCKeychain toyHD).Derive n0 3 = .ok ni ∧
      (BTCKeychain toyHD).ECPrivKey (.xprv 4 (List.replicate 32 14)) = .ok (ser256 ki) ∧
      (BTCKeychain toyHD).ECPubKey (.xprv 4 (List.replicate 32 14))
        = .ok (toyHD.serP (ki • toyHD.G)) ∧
      (BTCKeychain toyHD).ECPubKey ni = .ok (toyHD.serP (ki • toyHD.G)) :=
  ⟨by rfl, by rfl,
    match (deposit_key_is_sweeper_key toyHD toyHD_order 5 [7] 3 (by decide)).2.2.2
        (.xprv 9 (List.replicate 32 7)) (.xprv 4 (List.replicate 32 14)) (by rfl) (by rfl) with
    | ⟨n0, ni, ki, h0, h1, h2, h3, h4, _⟩ => ⟨n0, ni, ki, h0, h1, h2, h3, h4⟩⟩

/-! ## Claims about the Deposit row of the observer -/

/-- C27, as the code behaves: `processTransaction` writes the field
`o.currentHeight`, which the fetcher increments as soon as it has queued a block. The
fetcher at height 5 queues block 5, whose first transaction goes to the deposit
address of user 7, and moves to height 6; the worker then processes block 5 and the
Deposit row gets block height 6. User, address id, hash, amount and status are as
claimed. -/
theorem workerStep_block_height :
    (fetcherTick startedObserver).blocksChan = [mockFetchBlock 5] ∧
    (mockFetchBlock 5).Height = 5 ∧
    (fetcherTick startedObserver).currentHeight = 6 ∧
    (workerStep mockObserverLib mockAddressDB (fetcherTick startedObserver)).1.deposits
      = [{ ID := 1, UserID := 7, BlockAppID := 1, TxHash := "0xhash_5_1",
           Amount := { value := 500000000000000000, exp := -18 }, BlockHeight := 6,
           Status := "confirmed" }] := by
  refine ⟨by rfl, by rfl, by rfl, by rfl⟩
/-! ## Further claims about the withdrawal review -/

theorem applyAction_other {w : Withdrawal} {action : String} (ha : action ≠ "approve")
    (hr : action ≠ "reject") : applyAction w action = w := by
  unfold applyAction
  rw [if_neg ha, if_neg hr]

theorem countReviews_reviewed (db : DB) (w : Withdrawal) (adminID : Nat)
    (action status remark : String) (wid aid : Nat) :
    countReviews (reviewed db w adminID action status remark) wid aid =
      countReviews db wid aid + (if w.ID = wid ∧ adminID = aid then 1 else 0) := by
  unfold countReviews
  rw [reviewed_reviews, List.filter_append, List.length_append]
  congr 1
  by_cases h : w.ID = wid ∧ adminID = aid
  · rw [if_pos h]
    simp [List.filter, h.1, h.2]
  · rw [if_neg h]
    simp [List.filter, h]

theorem ReviewWithdrawal_already {db : DB} {txID adminID : Nat} {w : Withdrawal}
    (hw : First db txID = .ok w) (hs : w.Status = "pending_review")
    (hdup : countReviews db w.ID adminID > 0) (action remark : String) :
    ReviewWithdrawal db txID adminID action remark = (db, some errAlreadyReviewed) := by
  rcases ReviewWithdrawal_cases db txID adminID action remark with
    ⟨e, h1, -⟩ | ⟨w2, h1, h2, -⟩ | ⟨w2, h1, -, -, h⟩ | ⟨w2, e, h1, -, h3, -, -⟩ |
    ⟨w2, st, h1, -, h3, -, -⟩
  · rw [hw] at h1; cases h1
  · rw [hw] at h1; cases h1; exact absurd hs h2
  · exact h
  · rw [hw] at h1; cases h1; omega
  · rw [hw] at h1; cases h1; omega

/-- C28, the part that fails: the column that records the action is a
`varchar(16)`. For the withdrawal of `freshDB`, in `pending_review` and without
reviews, the action "approve_with_conditions" (23 characters) makes
`ReviewWithdrawal` return the error of the insertion; no review row is inserted. -/
theorem ReviewWithdrawal_long_action :
    First freshDB 1 = .ok freshWithdrawal ∧ freshWithdrawal.Status = "pending_review" ∧
    countReviews freshDB 1 9 = 0 ∧
    ReviewWithdrawal freshDB 1 9 "approve_with_conditions" ""
      = (freshDB, some (.lib "value too long for type character varying(16)")) := by
  refine ⟨by rfl, by rfl, by rfl, by rfl⟩

/-- C28, amended. For a withdrawal in `pending_review` and an admin with no prior
review of it, `ReviewWithdrawal` called with an action of at most 16 characters that
is neither "approve" nor "reject" returns success, inserts one review row recording
that action for the admin, and leaves the stored withdrawal (status and
`current_approvals` included) as it was; afterwards every review of this withdrawal
by the same admin is refused with "admin has already reviewed this withdrawal". -/
theorem ReviewWithdrawal_other_action (db : DB) (txID adminID : Nat) (action remark : String)
    (w : Withdrawal) (hw : First db txID = .ok w) (hs : w.Status = "pending_review")
    (hnone : countReviews db w.ID adminID = 0)
    (ha : action ≠ "approve") (hr : action ≠ "reject") (hlen : action.length ≤ 16) :
    (ReviewWithdrawal db txID adminID action remark).2 = none ∧
    (ReviewWithdrawal db txID adminID action remark).1.reviews = db.reviews ++
      [{ ID := nextID (db.reviews.map (fun r => r.ID)), WithdrawalID := w.ID,
         AdminID := adminID, Status := action, Remark := remark }] ∧
    First (ReviewWithdrawal db txID adminID action remark).1 txID = .ok w ∧
    (∀ id, First (ReviewWithdrawal db txID adminID action remark).1 id = First db id) ∧
    (∀ action2 remark2 : String,
      ReviewWithdrawal (ReviewWithdrawal db txID adminID action remark).1 txID adminID
          action2 remark2
        = ((ReviewWithdrawal db txID adminID action remark).1, some errAlreadyReviewed)) := by
  have hrun : ReviewWithdrawal db txID adminID action remark =
      (reviewed db w adminID action action remark, none) :=
    ReviewWithdrawal_ok hw hs hnone (varchar_fits hlen)
  have hfirst : ∀ id, First (reviewed db w adminID action action remark) id = First db id := by
    intro id
    rw [First_reviewed hw id, applyAction_other ha hr]
    by_cases h : id = txID
    · rw [if_pos h, h, hw]
    · rw [if_neg h]
  rw [hrun]
  refine ⟨rfl, reviewed_reviews _ _ _ _ _ _, ?_, hfirst, ?_⟩
  · show First (reviewed db w adminID action action remark) txID = .ok w
    rw [hfirst, hw]
  · intro action2 remark2
    show ReviewWithdrawal (reviewed db w adminID action action remark) txID adminID
      action2 remark2 = _
    have hw2 : First (reviewed db w adminID action action remark) txID = .ok w := by
      rw [hfirst, hw]
    apply ReviewWithdrawal_already hw2 hs
    rw [countReviews_reviewed, hnone]
    simp

theorem ReviewWithdrawal_other_action_witness :
    (ReviewWithdrawal freshDB 1 9 "escalate" "").2 = none ∧
    (ReviewWithdrawal freshDB 1 9 "escalate" "").1.reviews = freshDB.reviews ++
      [{ ID := nextID (freshDB.reviews.map (fun r => r.ID)),
         WithdrawalID := freshWithdrawal.ID,
         AdminID := 9, Status := "escalate", Remark := "" }] ∧
    First (ReviewWithdrawal freshDB 1 9 "escalate" "").1 1 = .ok freshWithdrawal :=
  have h := ReviewWithdrawal_other_action freshDB 1 9 "escalate" "" freshWithdrawal (by rfl)
    (by rfl) (by rfl) (by decide) (by decide) (by decide)
  ⟨h.1, h.2.1, h.2.2.1⟩
theorem CreateWithdrawal_fresh {db db0 : DB} {userID : Nat} {req row : Withdrawal}
    (h : CreateWithdrawal db userID req = (db0, row, none)) :
    db0.reviews = db.reviews ∧ ∀ x ∈ db.withdrawals, x.ID ≠ row.ID := by
  unfold CreateWithdrawal at h
  simp only [] at h
  split at h
  · cases h
  · rename_i db2 id hrow
    simp only [Prod.mk.injEq, and_true] at h
    obtain ⟨h1, h2⟩ := h
    subst h1 h2
    unfold CreateWithdrawalRow at hrow
    split at hrow
    · cases hrow
    · rename_i stored hcols
      split at hrow
      · simp only [Except.ok.injEq, Prod.mk.injEq] at hrow
        obtain ⟨hdb, hidn⟩ := hrow
        subst hdb hidn
        refine ⟨rfl, ?_⟩
        intro x hx
        have hlt : x.ID < nextID (db.withdrawals.map (fun w => w.ID)) :=
          lt_nextID (List.mem_map_of_mem (fun w : Withdrawal => w.ID) hx)
        exact Nat.ne_of_lt hlt
      · split at hrow
        · cases hrow
        · rename_i hany
          simp only [Except.ok.injEq, Prod.mk.injEq] at hrow
          obtain ⟨hdb, hidn⟩ := hrow
          subst hdb hidn
          refine ⟨rfl, ?_⟩
          intro x hx hxe
          apply hany
          rw [List.any_eq_true]
          exact ⟨x, hx, by simpa using hxe⟩

theorem varchar_eq_approve {action : String} (h : varchar 16 action = .ok "approve") :
    action = "approve" := by
  unfold varchar at h
  split at h
  · injection h
  · rename_i hlen
    split at h
    · injection h with h
      have hd := congrArg String.length h
      have h16 : (String.mk (List.take 16 action.data)).length = 16 := by
        show (List.take 16 action.data).length = 16
        rw [List.length_take]
        have : action.length = action.data.length := rfl
        omega
      rw [h16] at hd
      exact absurd hd (by decide)
    · cases h

theorem approvals_reviewed (db : DB) (w : Withdrawal) (adminID : Nat)
    (action status remark : String) (id : Nat) :
    approvals (reviewed db w adminID action status remark) id =
      approvals db id ++
        (if w.ID = id ∧ status = "approve" then
          [{ ID := nextID (db.reviews.map (fun r => r.ID)), WithdrawalID := w.ID,
             AdminID := adminID, Status := status, Remark := remark }]
         else []) := by
  unfold approvals
  rw [reviewed_reviews, List.filter_append]
  congr 1
  by_cases h : w.ID = id ∧ status = "approve"
  · rw [if_pos h]
    simp [List.filter, h.1, h.2]
  · rw [if_neg h]
    simp [List.filter, h]

theorem reviewers_reviewed (db : DB) (w : Withdrawal) (adminID : Nat)
    (action status remark : String) (id : Nat) :
    ((reviewed db w adminID action status remark).reviews.filter
        (fun r => r.WithdrawalID = id)).map (fun r => r.AdminID) =
      (db.reviews.filter (fun r => r.WithdrawalID = id)).map (fun r => r.AdminID) ++
        (if w.ID = id then [adminID] else []) := by
  rw [reviewed_reviews, List.filter_append, List.map_append]
  congr 1
  by_cases h : w.ID = id
  · rw [if_pos h]
    simp [List.filter, h]
  · rw [if_neg h]
    simp [List.filter, h]

theorem not_mem_reviewers {db : DB} {id adminID : Nat} (h : countReviews db id adminID = 0) :
    adminID ∉ (db.reviews.filter (fun r => r.WithdrawalID = id)).map (fun r => r.AdminID) := by
  intro hmem
  rw [List.mem_map] at hmem
  obtain ⟨r, hr, hra⟩ := hmem
  rw [List.mem_filter] at hr
  unfold countReviews at h
  rw [List.length_eq_zero] at h
  have : r ∈ db.reviews.filter (fun r => r.WithdrawalID = id ∧ r.AdminID = adminID) := by
    rw [List.mem_filter]
    refine ⟨hr.1, ?_⟩
    have h1 := hr.2
    simp only [decide_eq_true_eq] at h1 ⊢
    exact ⟨h1, hra⟩
  rw [h] at this
  cases this

theorem applyAction_counter {w : Withdrawal} (hi : ApprovalsInv w)
    (hs : w.Status = "pending_review") (action : String) :
    (applyAction w action).CurrentApprovals =
      w.CurrentApprovals + (if action = "approve" then 1 else 0) ∧
    ((applyAction w action).Status = "pending_broadcast" →
      (applyAction w action).RequiredApprovals ≤ (applyAction w action).CurrentApprovals) := by
  obtain ⟨h1, h2, h3, h4⟩ := hi
  have h5 := h4 hs
  have hwrap : wrapInt64 (w.CurrentApprovals + 1) = w.CurrentApprovals + 1 :=
    wrapInt64_id (by omega) (by omega)
  unfold applyAction
  by_cases ha : action = "approve"
  · rw [if_pos ha, if_pos ha]
    simp only [hwrap]
    by_cases hge : w.CurrentApprovals + 1 ≥ w.RequiredApprovals
    · rw [if_pos hge]
      exact ⟨rfl, fun _ => hge⟩
    · rw [if_neg hge]
      refine ⟨rfl, ?_⟩
      intro hst
      simp only [] at hst
      rw [hs] at hst
      exact absurd hst (by decide)
  · rw [if_neg ha, if_neg ha]
    by_cases hr : action = "reject"
    · rw [if_pos hr]
      refine ⟨by simp, ?_⟩
      intro hst
      have hst2 : ("rejected" : String) = "pending_broadcast" := hst
      exact absurd hst2 (by decide)
    · rw [if_neg hr]
      refine ⟨by simp, ?_⟩
      intro hst
      rw [hs] at hst
      exact absurd hst (by decide)

theorem ReviewInv_step {db : DB} {id : Nat} {w : Withdrawal} (hinv : ReviewInv db id w)
    (txID adminID : Nat) (action remark : String) :
    ∃ w2, ReviewInv (ReviewWithdrawal db txID adminID action remark).1 id w2 := by
  obtain ⟨hw, hi, hcount, hnd, hpb⟩ := hinv
  rcases ReviewWithdrawal_cases db txID adminID action remark with
    ⟨e, -, h⟩ | ⟨w0, -, -, h⟩ | ⟨w0, -, -, -, h⟩ | ⟨w0, e, -, -, -, -, h⟩ |
    ⟨w0, st, h1, h2, h3, h4, h⟩
  · rw [h]; exact ⟨w, hw, hi, hcount, hnd, hpb⟩
  · rw [h]; exact ⟨w, hw, hi, hcount, hnd, hpb⟩
  · rw [h]; exact ⟨w, hw, hi, hcount, hnd, hpb⟩
  · rw [h]; exact ⟨w, hw, hi, hcount, hnd, hpb⟩
  · rw [h]
    simp only []
    have hid0 : w0.ID = txID := (First_ok h1).1
    by_cases hid : id = txID
    · subst hid
      have hww : w0 = w := by
        rw [hw] at h1
        injection h1 with h1
        exact h1.symm
      subst hww
      obtain ⟨hc1, hc2⟩ := applyAction_counter hi h2 action
      refine ⟨applyAction w0 action, ?_, ApprovalsInv_applyAction hi h2 action, ?_, ?_, hc2⟩
      · rw [First_reviewed hw, if_pos rfl]
      · rw [hc1, approvals_reviewed, hcount, List.length_append]
        have hst : (w0.ID = w0.ID ∧ st = "approve") ↔ action = "approve" := by
          constructor
          · rintro ⟨_, hs⟩
            rw [hs] at h4
            exact varchar_eq_approve h4
          · intro ha
            rw [ha, varchar_approve] at h4
            injection h4 with h4
            exact ⟨rfl, h4.symm⟩
        rw [hid0] at hst ⊢
        by_cases ha : action = "approve"
        · rw [if_pos ha, if_pos (hst.mpr ha)]
          simp
        · rw [if_neg ha, if_neg (fun hh => ha (hst.mp hh))]
          simp
      · rw [reviewers_reviewed, if_pos hid0]
        rw [hid0] at h3
        exact List.Nodup.append hnd (List.nodup_singleton _)
          (by
            rw [List.disjoint_singleton]
            exact not_mem_reviewers h3)
    · have hne : ¬ w0.ID = id := by
        rw [hid0]
        exact fun hh => hid hh.symm
      refine ⟨w, ?_, hi, ?_, ?_, hpb⟩
      · rw [First_reviewed h1, if_neg hid]
        exact hw
      · rw [approvals_reviewed, if_neg (fun hh => hne hh.1), List.append_nil]
        exact hcount
      · rw [reviewers_reviewed, if_neg hne, List.append_nil]
        exact hnd

theorem ReviewInv_runReviews (id : Nat) (calls : List ReviewCall) :
    ∀ (db : DB) (w : Withdrawal), ReviewInv db id w →
      ∃ w2, ReviewInv (runReviews db calls) id w2 := by
  induction calls with
  | nil => intro db w h; exact ⟨w, h⟩
  | cons c cs ih =>
    intro db w h
    unfold runReviews
    obtain ⟨w1, h1⟩ := ReviewInv_step h c.txID c.adminID c.action c.remark
    exact ih _ w1 h1

/-- C29. A withdrawal is created by `CreateWithdrawal` in a database whose review
rows all refer to stored withdrawals. After any sequence of `ReviewWithdrawal` calls
(for any withdrawals, admins and actions, failed calls included) the stored
`current_approvals` of that withdrawal is the number of its review rows whose action
is "approve", these rows are by different admins, and when its status is
`pending_broadcast` there are at least `required_approvals` = 2 of them. -/
theorem current_approvals_count (db db0 : DB) (userID : Nat) (req row : Withdrawal)
    (hc : CreateWithdrawal db userID req = (db0, row, none))
    (href : ∀ r ∈ db.reviews, ∃ x ∈ db.withdrawals, x.ID = r.WithdrawalID)
    (calls : List ReviewCall) :
    ∃ w, First (runReviews db0 calls) row.ID = .ok w ∧
      w.CurrentApprovals = ((approvals (runReviews db0 calls) row.ID).length : Int) ∧
      ((approvals (runReviews db0 calls) row.ID).map (fun r => r.AdminID)).Nodup ∧
      (∀ r ∈ approvals (runReviews db0 calls) row.ID,
        r.WithdrawalID = row.ID ∧ r.Status = "approve") ∧
      w.RequiredApprovals = 2 ∧
      (w.Status = "pending_broadcast" →
        w.RequiredApprovals ≤ ((approvals (runReviews db0 calls) row.ID).length : Int)) := by
  obtain ⟨w0, hw0, hs, hreq, hcur⟩ := CreateWithdrawal_ok hc
  obtain ⟨hrev, hfresh⟩ := CreateWithdrawal_fresh hc
  have hnorow : ∀ r ∈ db0.reviews, r.WithdrawalID ≠ row.ID := by
    intro r hr heq
    rw [hrev] at hr
    obtain ⟨x, hx, hxr⟩ := href r hr
    exact hfresh x hx (by rw [hxr, heq])
  have hfilter : db0.reviews.filter (fun r => decide (r.WithdrawalID = row.ID)) = [] := by
    rw [List.filter_eq_nil_iff]
    intro r hr
    simp only [decide_eq_true_eq]
    exact hnorow r hr
  have happ : approvals db0 row.ID = [] := by
    unfold approvals
    rw [List.filter_eq_nil_iff]
    intro r hr
    simp only [decide_eq_true_eq, not_and]
    intro heq
    exact absurd heq (hnorow r hr)
  have hinv : ReviewInv db0 row.ID w0 := by
    refine ⟨hw0, ⟨hreq, ?_, ?_, ?_⟩, ?_, ?_, ?_⟩
    · rw [hcur]
    · rw [hcur]; decide
    · intro _; rw [hcur]; decide
    · rw [hcur, happ]
      rfl
    · rw [hfilter]
      exact List.nodup_nil
    · intro hst
      rw [hs] at hst
      exact absurd hst (by decide)
  obtain ⟨w, hw, hi, hcount, hnd, hpb⟩ := ReviewInv_runReviews row.ID calls db0 w0 hinv
  refine ⟨w, hw, hcount, ?_, ?_, hi.1, ?_⟩
  · apply List.Nodup.sublist _ hnd
    apply List.Sublist.map
    unfold approvals
    apply List.monotone_filter_right
    intro r hr
    simp only [decide_eq_true_eq] at hr ⊢
    exact hr.1
  · intro r hr
    unfold approvals at hr
    rw [List.mem_filter] at hr
    simpa using hr.2
  · intro hst
    rw [← hcount]
    exact hpb hst

theorem current_approvals_count_witness :
    ∃ w, First (runReviews freshDB [⟨1, 7, "approve", ""⟩, ⟨1, 7, "approve", ""⟩,
        ⟨1, 8, "approve", ""⟩]) 1 = .ok w ∧
      w.CurrentApprovals = ((approvals (runReviews freshDB [⟨1, 7, "approve", ""⟩,
        ⟨1, 7, "approve", ""⟩, ⟨1, 8, "approve", ""⟩]) 1).length : Int) :=
  match current_approvals_count emptyDB freshDB 1 freshRequest
      { freshRequest with
        ID := 1, Status := "pending_review", RequiredApprovals := 2, CurrentApprovals := 0 }
      (by rfl) (fun _ hr => by cases hr)
      [⟨1, 7, "approve", ""⟩, ⟨1, 7, "approve", ""⟩, ⟨1, 8, "approve", ""⟩] with
  | ⟨w, h1, h2, _⟩ => ⟨w, h1, h2⟩
/-! ## Claims about DecryptDES -/

theorem toyDES_contract : CBCContract toyDES := by
  intro key iv src
  simp [toyDES]

theorem indexByte_last (s : Bytes) (h : s ≠ []) :
    ∃ b, indexByte s ((s.length : Int) - 1) = .ok b := by
  have hpos : 0 < s.length := List.length_pos.mpr h
  unfold indexByte
  rw [if_neg (by omega)]
  have hlt : ((s.length : Int) - 1).toNat < s.length := by omega
  rw [List.get?_eq_get hlt]
  exact ⟨_, rfl⟩

theorem indexByte_nil : indexByte [] (((([] : Bytes).length : Nat) : Int) - 1)
    = .error (.panic "index out of range [-1]") := by
  rfl

/-- C30. For a key of 8 bytes and a ciphertext of at least 8 bytes (the inputs that
pass the guards of `DecryptDES`), with a CBC decrypter that fills the buffer:
`DecryptDES` ends in a panic exactly when the ciphertext has 8 bytes, that is, when it
is the initialisation vector alone; then the decrypted buffer is empty and
`plaintext[length-1]` is the index -1. For a longer ciphertext it returns a plaintext
or an error. -/
theorem DecryptDES_iv_only_panics (L : DESLib) (hL : CBCContract L) (key ciphertext : Bytes)
    (hk : key.length = 8) (hc : 8 ≤ ciphertext.length) :
    (ciphertext.length = 8 →
      DecryptDES L key ciphertext = .error (.panic "index out of range [-1]")) ∧
    (ciphertext.length ≠ 8 →
      (∃ plaintext, DecryptDES L key ciphertext = .ok plaintext) ∨
      (∃ e, DecryptDES L key ciphertext = .error (.error e))) := by
  have hnew : desNewCipher key = .ok key := by
    unfold desNewCipher
    rw [if_pos hk]
  have hdrop : (ciphertext.drop desBlockSize).length = ciphertext.length - 8 := by
    rw [List.length_drop]
    rfl
  constructor
  · intro h8
    have hnil : ciphertext.drop desBlockSize = [] := by
      apply List.eq_nil_of_length_eq_zero
      rw [hdrop, h8]
    have hp : L.CryptBlocks key (ciphertext.take desBlockSize) [] = [] := by
      apply List.eq_nil_of_length_eq_zero
      rw [hL]
      rfl
    unfold DecryptDES
    rw [if_neg (by simp [hk]), if_neg (by simp [desBlockSize, h8])]
    simp only [hnew, hnil, hp]
    rfl
  · intro h8
    unfold DecryptDES
    rw [if_neg (by simp [hk]), if_neg (by simp only [desBlockSize]; omega)]
    simp only [hnew]
    by_cases hm : (ciphertext.drop desBlockSize).length % desBlockSize ≠ 0
    · rw [if_pos hm]
      exact Or.inr ⟨_, rfl⟩
    · rw [if_neg hm]
      have hne : L.CryptBlocks key (ciphertext.take desBlockSize)
          (ciphertext.drop desBlockSize) ≠ [] := by
        intro h0
        have hl := hL key (ciphertext.take desBlockSize) (ciphertext.drop desBlockSize)
        rw [h0, hdrop] at hl
        simp only [List.length_nil] at hl
        omega
      obtain ⟨b, hb⟩ := indexByte_last _ hne
      simp only [hb]
      by_cases hu : ((b.val : Nat) : Int) > ((L.CryptBlocks key (ciphertext.take desBlockSize)
          (ciphertext.drop desBlockSize)).length : Int)
      · rw [if_pos hu]
        exact Or.inr ⟨_, rfl⟩
      · rw [if_neg hu]
        exact Or.inl ⟨_, rfl⟩

theorem DecryptDES_iv_only_panics_witness :
    desKey.length = 8 ∧ ivOnly.length = 8 ∧
    DecryptDES toyDES desKey ivOnly = .error (.panic "index out of range [-1]") :=
  ⟨by rfl, by rfl,
    (DecryptDES_iv_only_panics toyDES toyDES_contract desKey ivOnly (by rfl)
      (by decide)).1 (by rfl)⟩
end WalletCore
